import Mathlib

/-!
Verification development for the light-client filtered storage engine
(`storage/mod.rs` and `storage/db/sqlite.rs`).

The store is modelled as an association list of byte-string keys and values,
kept sorted by the byte-wise lexicographic order that the SQL backend's
`ORDER BY key` provides (blob comparison = memcmp, then length).
Batches are explicit operation lists applied by a left fold, matching
`Batch::commit` which replays queued puts/deletes in order inside one
transaction.  Cryptographic hashes (transaction hash, header hash, the
genesis block-filter hash) are carried as data fields / parameters, since the
claims never compute them.
-/

namespace LightClient

set_option maxRecDepth 16384

abbrev Bytes := List Nat

/-- Fixed-width big-endian encoding, `w` bytes (`u32::to_be_bytes`,
`u64::to_be_bytes`). -/
def toBE : Nat → Nat → Bytes
  | 0, _ => []
  | w + 1, n => toBE w (n / 256) ++ [n % 256]

/-- Big-endian decoding (`from_be_bytes`). -/
def fromBE (bs : Bytes) : Nat := bs.foldl (fun acc b => acc * 256 + b) 0

/-- Fixed-width little-endian encoding (`to_le_bytes`). -/
def toLE : Nat → Nat → Bytes
  | 0, _ => []
  | w + 1, n => n % 256 :: toLE w (n / 256)

/-- Little-endian decoding (`from_le_bytes`). -/
def fromLE (bs : Bytes) : Nat :=
  match bs with
  | [] => 0
  | b :: rest => b + 256 * fromLE rest

@[simp] theorem length_toBE (w n : Nat) : (toBE w n).length = w := by
  induction w generalizing n with
  | zero => rfl
  | succ w ih => simp [toBE, ih]

@[simp] theorem length_toLE (w n : Nat) : (toLE w n).length = w := by
  induction w generalizing n with
  | zero => rfl
  | succ w ih => simp [toLE, ih]

theorem fromBE_append (a b : Bytes) :
    fromBE (a ++ b) = fromBE a * 256 ^ b.length + fromBE b := by
  induction b using List.reverseRecOn with
  | nil => simp [fromBE]
  | append_singleton bs x ih =>
    simp only [fromBE, List.foldl_append, List.foldl_cons, List.foldl_nil] at *
    rw [ih, List.length_append, List.length_cons, List.length_nil]
    ring

theorem fromBE_toBE {w n : Nat} (h : n < 256 ^ w) : fromBE (toBE w n) = n := by
  induction w generalizing n with
  | zero =>
    simp [toBE, fromBE]
    omega
  | succ w ih =>
    have hdiv : n / 256 < 256 ^ w := by
      rw [Nat.div_lt_iff_lt_mul (by norm_num)]
      calc n < 256 ^ (w + 1) := h
        _ = 256 ^ w * 256 := by ring
    simp only [toBE, fromBE_append]
    rw [show fromBE (toBE w (n / 256)) = n / 256 from ih hdiv]
    simp [fromBE]
    omega

theorem fromLE_toLE {w n : Nat} (h : n < 256 ^ w) : fromLE (toLE w n) = n := by
  induction w generalizing n with
  | zero =>
    simp [toLE, fromLE]
    omega
  | succ w ih =>
    have hdiv : n / 256 < 256 ^ w := by
      rw [Nat.div_lt_iff_lt_mul (by norm_num)]
      calc n < 256 ^ (w + 1) := h
        _ = 256 ^ w * 256 := by ring
    simp only [toLE, fromLE]
    rw [ih hdiv]
    omega

/-- Byte-wise lexicographic strict order on keys, the order in which the
`kv` table's blob primary key sorts (memcmp, then length). -/
def keyLt : Bytes → Bytes → Bool
  | [], [] => false
  | [], _ :: _ => true
  | _ :: _, [] => false
  | a :: as, b :: bs => decide (a < b) || (decide (a = b) && keyLt as bs)

@[simp] theorem keyLt_nil_nil : keyLt [] [] = false := rfl

@[simp] theorem keyLt_nil_cons (b : Nat) (bs : Bytes) : keyLt [] (b :: bs) = true := rfl

@[simp] theorem keyLt_cons_nil (a : Nat) (as : Bytes) : keyLt (a :: as) [] = false := rfl

theorem keyLt_cons (a b : Nat) (as bs : Bytes) :
    keyLt (a :: as) (b :: bs) = (decide (a < b) || (decide (a = b) && keyLt as bs)) := rfl

theorem keyLt_irrefl (k : Bytes) : keyLt k k = false := by
  induction k with
  | nil => rfl
  | cons a as ih => simp [keyLt_cons, ih]

theorem keyLt_trans {a b c : Bytes} (h₁ : keyLt a b = true) (h₂ : keyLt b c = true) :
    keyLt a c = true := by
  induction a generalizing b c with
  | nil =>
    cases c with
    | nil =>
      cases b with
      | nil => exact absurd h₁ (by simp)
      | cons y ys => exact absurd h₂ (by simp)
    | cons z zs => simp
  | cons x xs ih =>
    cases b with
    | nil => exact absurd h₁ (by simp)
    | cons y ys =>
      cases c with
      | nil => exact absurd h₂ (by simp)
      | cons z zs =>
        simp only [keyLt_cons, Bool.or_eq_true, Bool.and_eq_true, decide_eq_true_eq] at *
        rcases h₁ with h₁ | ⟨rfl, h₁⟩ <;> rcases h₂ with h₂ | ⟨rfl, h₂⟩
        · exact Or.inl (Nat.lt_trans h₁ h₂)
        · exact Or.inl h₁
        · exact Or.inl h₂
        · exact Or.inr ⟨rfl, ih h₁ h₂⟩

theorem keyLt_total (a b : Bytes) : keyLt a b = true ∨ a = b ∨ keyLt b a = true := by
  induction a generalizing b with
  | nil =>
    cases b with
    | nil => exact Or.inr (Or.inl rfl)
    | cons y ys => exact Or.inl (by simp)
  | cons x xs ih =>
    cases b with
    | nil => exact Or.inr (Or.inr (by simp))
    | cons y ys =>
      rcases Nat.lt_trichotomy x y with h | rfl | h
      · exact Or.inl (by simp [keyLt_cons, h])
      · rcases ih ys with h | rfl | h
        · exact Or.inl (by simp [keyLt_cons, h])
        · exact Or.inr (Or.inl rfl)
        · exact Or.inr (Or.inr (by simp [keyLt_cons, h]))
      · exact Or.inr (Or.inr (by simp [keyLt_cons, h]))

theorem keyLt_asymm {a b : Bytes} (h : keyLt a b = true) : keyLt b a = false := by
  by_contra hc
  have hba : keyLt b a = true := by
    cases hh : keyLt b a with
    | false => exact absurd hh hc
    | true => rfl
  have := keyLt_trans h hba
  rw [keyLt_irrefl] at this
  exact absurd this (by simp)

theorem keyLt_ne {a b : Bytes} (h : keyLt a b = true) : a ≠ b := by
  rintro rfl
  rw [keyLt_irrefl] at h
  exact absurd h (by simp)

/-- Prepending the same bytes preserves the comparison. -/
theorem keyLt_append_same (p a b : Bytes) : keyLt (p ++ a) (p ++ b) = keyLt a b := by
  induction p with
  | nil => rfl
  | cons x xs ih => simp [keyLt_cons, ih]

/-- Comparing equal-length blocks followed by arbitrary tails: a strictly
smaller block decides the comparison regardless of the tails. -/
theorem keyLt_append_of_lt {a b : Bytes} (hlen : a.length = b.length)
    (h : keyLt a b = true) (x y : Bytes) : keyLt (a ++ x) (b ++ y) = true := by
  induction a generalizing b with
  | nil =>
    cases b with
    | nil => exact absurd h (by simp)
    | cons z zs => simp at hlen
  | cons u us ih =>
    cases b with
    | nil => simp at hlen
    | cons v vs =>
      simp only [List.cons_append, keyLt_cons, Bool.or_eq_true, Bool.and_eq_true,
        decide_eq_true_eq] at h ⊢
      rcases h with h | ⟨rfl, h⟩
      · exact Or.inl h
      · exact Or.inr ⟨rfl, ih (by simpa using hlen) h⟩

/-- A proper extension is strictly greater. -/
theorem keyLt_self_append {p : Bytes} {x : Bytes} (hx : x ≠ []) :
    keyLt p (p ++ x) = true := by
  induction p with
  | nil =>
    cases x with
    | nil => exact absurd rfl hx
    | cons a as => simp
  | cons a as ih => simp [keyLt_cons, ih]

theorem fromBE_cons (a : Nat) (as : Bytes) :
    fromBE (a :: as) = a * 256 ^ as.length + fromBE as := by
  have := fromBE_append [a] as
  simpa [fromBE] using this

theorem fromBE_lt_of_bytes {bs : Bytes} (h : ∀ x ∈ bs, x < 256) :
    fromBE bs < 256 ^ bs.length := by
  induction bs with
  | nil => simp [fromBE]
  | cons a as ih =>
    rw [fromBE_cons, List.length_cons, pow_succ]
    have ha : a < 256 := h a (by simp)
    have has : fromBE as < 256 ^ as.length := ih fun x hx => h x (by simp [hx])
    calc a * 256 ^ as.length + fromBE as
        < a * 256 ^ as.length + 256 ^ as.length := by omega
      _ = (a + 1) * 256 ^ as.length := by ring
      _ ≤ 256 * 256 ^ as.length := by
          exact Nat.mul_le_mul_right _ (by omega)
      _ = 256 ^ as.length * 256 := by ring

theorem toBE_mem_lt (w n : Nat) : ∀ x ∈ toBE w n, x < 256 := by
  induction w generalizing n with
  | zero => simp [toBE]
  | succ w ih =>
    intro x hx
    simp only [toBE, List.mem_append, List.mem_singleton] at hx
    rcases hx with hx | rfl
    · exact ih _ x hx
    · exact Nat.mod_lt _ (by norm_num)

/-- On equal-length byte strings, the key order is the numeric big-endian
order. -/
theorem keyLt_eq_decide_fromBE {x y : Bytes} (hlen : x.length = y.length)
    (hx : ∀ a ∈ x, a < 256) (hy : ∀ a ∈ y, a < 256) :
    keyLt x y = decide (fromBE x < fromBE y) := by
  induction x generalizing y with
  | nil =>
    cases y with
    | nil => simp [fromBE]
    | cons b bs => simp at hlen
  | cons a as ih =>
    cases y with
    | nil => simp at hlen
    | cons b bs =>
      have hlen' : as.length = bs.length := by simpa using hlen
      have hfa : fromBE as < 256 ^ as.length := fromBE_lt_of_bytes fun z hz => hx z (by simp [hz])
      have hfb : fromBE bs < 256 ^ bs.length := fromBE_lt_of_bytes fun z hz => hy z (by simp [hz])
      rw [keyLt_cons, fromBE_cons, fromBE_cons,
        ih hlen' (fun z hz => hx z (by simp [hz])) (fun z hz => hy z (by simp [hz]))]
      rcases Nat.lt_trichotomy a b with h | rfl | h
      · have : a * 256 ^ as.length + fromBE as < b * 256 ^ bs.length + fromBE bs := by
          rw [hlen']
          calc a * 256 ^ bs.length + fromBE as
              < a * 256 ^ bs.length + 256 ^ bs.length := by
                have := hfa; rw [hlen'] at this; omega
            _ = (a + 1) * 256 ^ bs.length := by ring
            _ ≤ b * 256 ^ bs.length := Nat.mul_le_mul_right _ (by omega)
            _ ≤ b * 256 ^ bs.length + fromBE bs := Nat.le_add_right _ _
        simp [h, this]
      · have heq : decide (fromBE as < fromBE bs)
            = decide (a * 256 ^ as.length + fromBE as < a * 256 ^ bs.length + fromBE bs) := by
          rw [hlen']
          exact decide_eq_decide.mpr (by omega)
        simp [heq]
      · have : ¬ (a * 256 ^ as.length + fromBE as < b * 256 ^ bs.length + fromBE bs) := by
          rw [hlen']
          have : b * 256 ^ bs.length + fromBE bs < a * 256 ^ bs.length := by
            calc b * 256 ^ bs.length + fromBE bs
                < b * 256 ^ bs.length + 256 ^ bs.length := by omega
              _ = (b + 1) * 256 ^ bs.length := by ring
              _ ≤ a * 256 ^ bs.length := Nat.mul_le_mul_right _ (by omega)
          omega
        have h1 : decide (a < b) = false := by
          simp
          omega
        have h2 : decide (a = b) = false := by
          simp
          omega
        have h3 : decide (a * 256 ^ as.length + fromBE as
            < b * 256 ^ bs.length + fromBE bs) = false := by
          simpa using this
        rw [h1, h2, h3]
        simp

theorem toBE_keyLt_iff {w a b : Nat} (ha : a < 256 ^ w) (hb : b < 256 ^ w) :
    keyLt (toBE w a) (toBE w b) = true ↔ a < b := by
  rw [keyLt_eq_decide_fromBE (by simp) (toBE_mem_lt w a) (toBE_mem_lt w b),
    fromBE_toBE ha, fromBE_toBE hb]
  simp

theorem toBE_inj {w a b : Nat} (ha : a < 256 ^ w) (hb : b < 256 ^ w)
    (h : toBE w a = toBE w b) : a = b := by
  have := congrArg fromBE h
  rwa [fromBE_toBE ha, fromBE_toBE hb] at this

/-- Boolean byte-string prefix test. -/
def isPfxOf : Bytes → Bytes → Bool
  | [], _ => true
  | _ :: _, [] => false
  | a :: as, b :: bs => decide (a = b) && isPfxOf as bs

theorem isPfxOf_iff (p k : Bytes) : isPfxOf p k = true ↔ ∃ t, k = p ++ t := by
  induction p generalizing k with
  | nil => simp [isPfxOf]
  | cons a as ih =>
    cases k with
    | nil =>
      simp only [isPfxOf]
      constructor
      · intro h; exact absurd h (by simp)
      · rintro ⟨t, ht⟩; simp at ht
    | cons b bs =>
      simp only [isPfxOf, Bool.and_eq_true, decide_eq_true_eq, ih, List.cons_append]
      constructor
      · rintro ⟨rfl, t, rfl⟩; exact ⟨t, rfl⟩
      · rintro ⟨t, ht⟩
        injection ht with h₁ h₂
        exact ⟨h₁.symm, t, h₂⟩

@[simp] theorem isPfxOf_append (p t : Bytes) : isPfxOf p (p ++ t) = true :=
  (isPfxOf_iff p _).mpr ⟨t, rfl⟩

/-- Every key extending `p` is ≥ `p`. -/
theorem not_keyLt_of_isPfxOf {p k : Bytes} (h : isPfxOf p k = true) :
    keyLt k p = false := by
  obtain ⟨t, rfl⟩ := (isPfxOf_iff p k).mp h
  cases t with
  | nil => simp [keyLt_irrefl]
  | cons a as =>
    exact keyLt_asymm (keyLt_self_append (by simp))

/-- Separation: a key `k'` that is ≥ `p` but does not extend `p` is strictly
greater than every key that does extend `p`. -/
theorem keyLt_of_pfx_of_not_pfx {p k k' : Bytes} (hk : isPfxOf p k = true)
    (hk₁ : keyLt k' p = false) (hk₂ : isPfxOf p k' = false) :
    keyLt k k' = true := by
  obtain ⟨t, rfl⟩ := (isPfxOf_iff p k).mp hk
  induction p generalizing k' with
  | nil => simp [isPfxOf] at hk₂
  | cons a as ih =>
    cases k' with
    | nil => simp at hk₁
    | cons b bs =>
      rcases Nat.lt_trichotomy a b with h | rfl | h
      · simp [List.cons_append, keyLt_cons, h]
      · have h₂ : isPfxOf as bs = false := by
          simpa [isPfxOf] using hk₂
        have h₁ : keyLt bs as = false := by
          simpa [keyLt_cons] using hk₁
        have := ih h₁ h₂
        simp [List.cons_append, keyLt_cons, this]
      · have : keyLt (b :: bs) (a :: as) = true := by simp [keyLt_cons, h]
        rw [this] at hk₁
        exact absurd hk₁ (by simp)

/-! ## The key-value store

An entry list sorted by `keyLt` models the `kv` table (`key BLOB PRIMARY
KEY, value BLOB`).  `getV`/`putV`/`delV` are `Storage::get/put/delete`;
`Op`/`applyOps` model `Batch` and `Batch::commit`, which replays the queued
operations in order inside one SQL transaction. -/

abbrev Entry := Bytes × Bytes
abbrev Store := List Entry

def getV : Store → Bytes → Option Bytes
  | [], _ => none
  | e :: rest, k => if e.1 = k then some e.2 else getV rest k

def putV : Store → Bytes → Bytes → Store
  | [], k, v => [(k, v)]
  | e :: rest, k, v =>
    if keyLt k e.1 then (k, v) :: e :: rest
    else if k = e.1 then (k, v) :: rest
    else e :: putV rest k v

def delV (s : Store) (k : Bytes) : Store := s.filter (fun e => decide (e.1 ≠ k))

def entryLt (e e' : Entry) : Prop := keyLt e.1 e'.1 = true

def SortedStore (s : Store) : Prop := s.Pairwise entryLt

instance : DecidableRel entryLt := fun e e' =>
  inferInstanceAs (Decidable (keyLt e.1 e'.1 = true))

instance : DecidablePred SortedStore := fun s =>
  inferInstanceAs (Decidable (s.Pairwise entryLt))

inductive Op where
  | putOp (k v : Bytes)
  | delOp (k : Bytes)
deriving DecidableEq

def opKey : Op → Bytes
  | .putOp k _ => k
  | .delOp k => k

def applyOp (s : Store) : Op → Store
  | .putOp k v => putV s k v
  | .delOp k => delV s k

def applyOps (s : Store) (ops : List Op) : Store := ops.foldl applyOp s

@[simp] theorem applyOps_nil (s : Store) : applyOps s [] = s := rfl

theorem applyOps_cons (s : Store) (op : Op) (ops : List Op) :
    applyOps s (op :: ops) = applyOps (applyOp s op) ops := rfl

theorem applyOps_append (s : Store) (l₁ l₂ : List Op) :
    applyOps s (l₁ ++ l₂) = applyOps (applyOps s l₁) l₂ := by
  simp [applyOps, List.foldl_append]

@[simp] theorem getV_putV_self (s : Store) (k v : Bytes) :
    getV (putV s k v) k = some v := by
  induction s with
  | nil => simp [putV, getV]
  | cons e rest ih =>
    by_cases h₁ : keyLt k e.1
    · simp [putV, h₁, getV]
    · by_cases h₂ : k = e.1
      · subst h₂
        simp [putV, keyLt_irrefl, getV]
      · simp [putV, h₁, h₂, getV, Ne.symm h₂, ih]

theorem getV_putV_ne (s : Store) {k k' : Bytes} (v : Bytes) (h : k' ≠ k) :
    getV (putV s k v) k' = getV s k' := by
  induction s with
  | nil => simp [putV, getV, Ne.symm h]
  | cons e rest ih =>
    by_cases h₁ : keyLt k e.1
    · simp [putV, h₁, getV, Ne.symm h]
    · by_cases h₂ : k = e.1
      · subst h₂
        simp [putV, h₁, getV, Ne.symm h]
      · simp [putV, h₁, h₂, getV, ih]

@[simp] theorem getV_delV_self (s : Store) (k : Bytes) :
    getV (delV s k) k = none := by
  induction s with
  | nil => simp [delV, getV]
  | cons e rest ih =>
    by_cases h : e.1 = k
    · simpa [delV, h] using ih
    · simpa [delV, h, getV] using ih

theorem getV_delV_ne (s : Store) {k k' : Bytes} (h : k' ≠ k) :
    getV (delV s k) k' = getV s k' := by
  induction s with
  | nil => simp [delV, getV]
  | cons e rest ih =>
    by_cases he : e.1 = k
    · subst he
      simp only [delV, List.filter_cons]
      simp only [decide_not, ne_eq, decide_True, Bool.not_true]
      simpa [getV, Ne.symm h, delV] using ih
    · simp only [delV, List.filter_cons]
      have : (decide ¬ (e.1 = k)) = true := by simpa using he
      rw [this]
      by_cases hk : e.1 = k'
      · simp [getV, hk]
      · simpa [getV, hk, delV] using ih

/-- The value of a key after a batch is decided by the last operation on
that key, if any. -/
def lastWrite : List Op → Bytes → Option Op
  | [], _ => none
  | op :: rest, k =>
    match lastWrite rest k with
    | some op' => some op'
    | none => if opKey op = k then some op else none

theorem getV_applyOp (s : Store) (op : Op) (k : Bytes) :
    getV (applyOp s op) k =
      if opKey op = k then (match op with | .putOp _ v => some v | .delOp _ => none)
      else getV s k := by
  cases op with
  | putOp k' v =>
    by_cases h : k' = k
    · subst h; simp [applyOp, opKey]
    · simp [applyOp, opKey, h, getV_putV_ne s v (Ne.symm h)]
  | delOp k' =>
    by_cases h : k' = k
    · subst h; simp [applyOp, opKey]
    · simp [applyOp, opKey, h, getV_delV_ne s (Ne.symm h)]

theorem getV_applyOps (s : Store) (ops : List Op) (k : Bytes) :
    getV (applyOps s ops) k =
      match lastWrite ops k with
      | some (.putOp _ v) => some v
      | some (.delOp _) => none
      | none => getV s k := by
  induction ops generalizing s with
  | nil => simp [lastWrite]
  | cons op rest ih =>
    rw [applyOps_cons, ih]
    simp only [lastWrite]
    cases h : lastWrite rest k with
    | some op' => cases op' <;> simp
    | none =>
      rw [getV_applyOp]
      by_cases hk : opKey op = k
      · simp only [hk, if_pos rfl]
        cases op <;> simp
      · simp [hk]

/-- Keys with no operation in the batch keep their value. -/
theorem getV_applyOps_of_notTouched (s : Store) (ops : List Op) (k : Bytes)
    (h : ∀ op ∈ ops, opKey op ≠ k) : getV (applyOps s ops) k = getV s k := by
  rw [getV_applyOps]
  have : lastWrite ops k = none := by
    induction ops with
    | nil => rfl
    | cons op rest ih =>
      simp only [lastWrite]
      rw [ih fun o ho => h o (by simp [ho])]
      simp [h op (by simp)]
  rw [this]

theorem mem_putV {s : Store} {k v : Bytes} {x : Entry} (h : x ∈ putV s k v) :
    x = (k, v) ∨ x ∈ s := by
  induction s with
  | nil => simpa [putV] using h
  | cons e rest ih =>
    by_cases h₁ : keyLt k e.1
    · simp only [putV, if_pos h₁, List.mem_cons] at h
      rcases h with h | h | h
      · exact Or.inl h
      · exact Or.inr (by simp [h])
      · exact Or.inr (by simp [h])
    · by_cases h₂ : k = e.1
      · simp only [putV, if_neg h₁, if_pos h₂, List.mem_cons] at h
        rcases h with h | h
        · exact Or.inl h
        · exact Or.inr (by simp [h])
      · simp only [putV, if_neg h₁, if_neg h₂, List.mem_cons] at h
        rcases h with h | h
        · exact Or.inr (by simp [h])
        · rcases ih h with h | h
          · exact Or.inl h
          · exact Or.inr (by simp [h])

theorem putV_sorted {s : Store} (hs : SortedStore s) (k v : Bytes) :
    SortedStore (putV s k v) := by
  induction s with
  | nil => simp [putV, SortedStore]
  | cons e rest ih =>
    rw [SortedStore, List.pairwise_cons] at hs
    obtain ⟨he, hrest⟩ := hs
    by_cases h₁ : keyLt k e.1
    · rw [putV, if_pos h₁]
      refine List.Pairwise.cons ?_ (List.Pairwise.cons he hrest)
      intro x hx
      rcases List.mem_cons.mp hx with rfl | hx
      · exact h₁
      · exact keyLt_trans h₁ (he x hx)
    · by_cases h₂ : k = e.1
      · rw [putV, if_neg h₁, if_pos h₂]
        subst h₂
        exact List.Pairwise.cons he hrest
      · rw [putV, if_neg h₁, if_neg h₂]
        have hek : keyLt e.1 k = true := by
          rcases keyLt_total k e.1 with h | h | h
          · exact absurd h h₁
          · exact absurd h h₂
          · exact h
        refine List.Pairwise.cons ?_ (ih hrest)
        intro x hx
        rcases mem_putV hx with rfl | hx
        · exact hek
        · exact he x hx

theorem delV_sorted {s : Store} (hs : SortedStore s) (k : Bytes) :
    SortedStore (delV s k) := hs.filter _

theorem applyOp_sorted {s : Store} (hs : SortedStore s) (op : Op) :
    SortedStore (applyOp s op) := by
  cases op with
  | putOp k v => exact putV_sorted hs k v
  | delOp k => exact delV_sorted hs k

theorem applyOps_sorted {s : Store} (hs : SortedStore s) (ops : List Op) :
    SortedStore (applyOps s ops) := by
  induction ops generalizing s with
  | nil => exact hs
  | cons op rest ih => exact ih (applyOp_sorted hs op)

theorem getV_eq_some_of_mem {s : Store} (hs : SortedStore s) {k v : Bytes}
    (h : (k, v) ∈ s) : getV s k = some v := by
  induction s with
  | nil => simp at h
  | cons e rest ih =>
    rw [SortedStore, List.pairwise_cons] at hs
    rcases List.mem_cons.mp h with h | h
    · simp [getV, ← h]
    · have hne : e.1 ≠ k := by
        intro he
        have hlt : keyLt e.1 k = true := hs.1 (k, v) h
        rw [he, keyLt_irrefl] at hlt
        exact absurd hlt (by simp)
      simp [getV, hne, ih hs.2 h]

theorem mem_of_getV_eq_some {s : Store} {k v : Bytes} (h : getV s k = some v) :
    (k, v) ∈ s := by
  induction s with
  | nil => simp [getV] at h
  | cons e rest ih =>
    by_cases he : e.1 = k
    · rw [getV, if_pos he] at h
      injection h with h
      cases e
      simp_all
    · rw [getV, if_neg he] at h
      exact List.mem_cons_of_mem _ (ih h)

/-- Two sorted stores with the same point lookups are equal. -/
theorem store_ext {s s' : Store} (hs : SortedStore s) (hs' : SortedStore s')
    (h : ∀ k, getV s k = getV s' k) : s = s' := by
  induction s generalizing s' with
  | nil =>
    cases s' with
    | nil => rfl
    | cons e' rest' =>
      have := h e'.1
      simp [getV] at this
  | cons e rest ih =>
    cases s' with
    | nil =>
      have := h e.1
      simp [getV] at this
    | cons e' rest' =>
      rw [SortedStore, List.pairwise_cons] at hs hs'
      have hkeys : e.1 = e'.1 := by
        by_contra hne
        have h₁ : getV (e' :: rest') e.1 = some e.2 := by
          rw [← h e.1]
          simp [getV]
        have h₂ : getV (e :: rest) e'.1 = some e'.2 := by
          rw [h e'.1]
          simp [getV]
        have m₁ := mem_of_getV_eq_some h₁
        have m₂ := mem_of_getV_eq_some h₂
        rcases List.mem_cons.mp m₁ with hm | hm
        · exact hne (congrArg Prod.fst hm)
        · rcases List.mem_cons.mp m₂ with hm' | hm'
          · exact hne (congrArg Prod.fst hm').symm
          · have l₁ : keyLt e'.1 e.1 = true := hs'.1 _ hm
            have l₂ : keyLt e.1 e'.1 = true := hs.1 _ hm'
            rw [keyLt_asymm l₁] at l₂
            exact absurd l₂ (by simp)
      have hvals : e.2 = e'.2 := by
        have hth := h e.1
        rw [getV, if_pos rfl, getV, hkeys, if_pos rfl] at hth
        injection hth
      have htail : rest = rest' := by
        refine ih hs.2 hs'.2 fun k => ?_
        by_cases hk : k = e.1
        · subst hk
          have h₁ : getV rest e.1 = none := by
            cases hg : getV rest e.1 with
            | none => rfl
            | some v =>
              have hmem := mem_of_getV_eq_some hg
              have hlt : keyLt e.1 e.1 = true := hs.1 (e.1, v) hmem
              rw [keyLt_irrefl] at hlt
              exact absurd hlt (by simp)
          have h₂ : getV rest' e.1 = none := by
            cases hg : getV rest' e.1 with
            | none => rfl
            | some v =>
              have hmem := mem_of_getV_eq_some hg
              have hlt : keyLt e'.1 e.1 = true := hs'.1 (e.1, v) hmem
              rw [hkeys, keyLt_irrefl] at hlt
              exact absurd hlt (by simp)
          rw [h₁, h₂]
        · have hth := h k
          have hne₁ : e.1 ≠ k := fun hh => hk hh.symm
          have hne₂ : e'.1 ≠ k := by
            rw [← hkeys]
            exact hne₁
          rw [getV, if_neg hne₁, getV, if_neg hne₂] at hth
          exact hth
      cases e
      cases e'
      simp_all

/-! ## Iteration

`iterator_collect` walks the table in key order (ascending from a start key,
or descending), collecting entries while the predicate holds and stopping at
the first entry for which it is false. -/

inductive ScanDir where
  | forward
  | reverse

def iterateFrom (s : Store) (start : Bytes) (dir : ScanDir) (pred : Entry → Bool) :
    List Entry :=
  match dir with
  | .forward => (s.filter (fun e => ! keyLt e.1 start)).takeWhile pred
  | .reverse => ((s.filter (fun e => ! keyLt start e.1)).reverse).takeWhile pred

/-- In a list ordered by `R`, if truth of the predicate propagates backwards
along `R`, collecting up to the first failure is the same as filtering. -/
theorem takeWhile_eq_filter_of_pairwise {α : Type} {R : α → α → Prop} {l : List α}
    {q : α → Bool} (hl : l.Pairwise R)
    (h : ∀ a ∈ l, ∀ b ∈ l, R a b → q b = true → q a = true) :
    l.takeWhile q = l.filter q := by
  induction l with
  | nil => rfl
  | cons e rest ih =>
    rw [List.pairwise_cons] at hl
    by_cases hq : q e = true
    · rw [List.takeWhile_cons_of_pos hq, List.filter_cons_of_pos hq]
      rw [ih hl.2 fun a ha b hb hab hqb =>
        h a (by simp [ha]) b (by simp [hb]) hab hqb]
    · rw [List.takeWhile_cons_of_neg (by simpa using hq), List.filter_cons_of_neg (by simpa using hq)]
      have : rest.filter q = [] := by
        rw [List.filter_eq_nil_iff]
        intro b hb
        intro hqb
        exact hq (h e (by simp) b (by simp [hb]) (hl.1 b hb) hqb)
      rw [this]

/-- A forward scan from `p` that collects while keys extend `p` collects
exactly the entries whose keys extend `p`. -/
theorem prefixScan_eq_filter {s : Store} (hs : SortedStore s) (p : Bytes) :
    iterateFrom s p .forward (fun e => isPfxOf p e.1) =
      s.filter (fun e => isPfxOf p e.1) := by
  rw [iterateFrom]
  have step1 : (s.filter (fun e => ! keyLt e.1 p)).takeWhile (fun e => isPfxOf p e.1)
      = (s.filter (fun e => ! keyLt e.1 p)).filter (fun e => isPfxOf p e.1) := by
    refine takeWhile_eq_filter_of_pairwise (hs.filter _) ?_
    intro a ha b hb hab hqb
    by_contra hqa
    have hqa' : isPfxOf p a.1 = false := by
      cases hh : isPfxOf p a.1 with
      | false => rfl
      | true => exact absurd hh hqa
    have hga : (! keyLt a.1 p) = true := (List.mem_filter.mp ha).2
    have := keyLt_of_pfx_of_not_pfx hqb (by simpa using hga) hqa'
    exact absurd hab (by simp [entryLt, keyLt_asymm this])
  rw [step1, List.filter_filter]
  apply List.filter_congr
  intro e he
  cases hq : isPfxOf p e.1 with
  | false => simp
  | true => simp [not_keyLt_of_isPfxOf hq]

theorem lastWrite_append (l₁ l₂ : List Op) (k : Bytes) :
    lastWrite (l₁ ++ l₂) k =
      match lastWrite l₂ k with
      | some op => some op
      | none => lastWrite l₁ k := by
  induction l₁ with
  | nil => cases h : lastWrite l₂ k <;> simp [lastWrite, h]
  | cons op rest ih =>
    rw [List.cons_append]
    simp only [lastWrite]
    rw [ih]
    cases h : lastWrite l₂ k <;> cases h' : lastWrite rest k <;> simp

/-! ## Data model

Transactions, scripts and headers, with the serialized forms used as store
values.  Molecule serialization is modelled by an injective length-prefixed
encoding; the hash fields carry the values of `calc_tx_hash` /
`calc_header_hash`, which the claims never compute. -/

structure Script where
  codeHash : Bytes
  hashType : Nat
  args : Bytes
deriving DecidableEq

inductive ScriptType where
  | lock
  | typ
deriving DecidableEq

structure OutPoint where
  txHash : Bytes
  index : Nat
deriving DecidableEq

structure CellInput where
  previousOutput : OutPoint
deriving DecidableEq

structure CellOutput where
  lock : Script
  typ : Option Script
deriving DecidableEq

structure Transaction where
  inputs : List CellInput
  outputs : List CellOutput
  hash : Bytes
deriving DecidableEq

structure Header where
  number : Nat
  hash : Bytes
  extra : Bytes
deriving DecidableEq

structure Block where
  header : Header
  extension : Option Bytes
  transactions : List Transaction
deriving DecidableEq

structure ScriptStatus where
  script : Script
  scriptType : ScriptType
  blockNumber : Nat
deriving DecidableEq

/-- `update_filter_scripts` commands: `All`, `Partial`, `Delete`. -/
inductive SetScriptsCommand where
  | all
  | upsert
  | remove
deriving DecidableEq

def encBytes (bs : Bytes) : Bytes := toBE 4 bs.length ++ bs

/-- Models `Script::as_slice()` (molecule serialization). -/
def encScript (s : Script) : Bytes := encBytes s.codeHash ++ [s.hashType] ++ encBytes s.args

/-- `extract_raw_data`: `code_hash ‖ hash_type ‖ args`. -/
def rawScript (s : Script) : Bytes := s.codeHash ++ [s.hashType] ++ s.args

def encOutPoint (o : OutPoint) : Bytes := encBytes o.txHash ++ toBE 4 o.index

def encInput (i : CellInput) : Bytes := encOutPoint i.previousOutput

def encOptScript : Option Script → Bytes
  | none => [0]
  | some s => 1 :: encScript s

def encOutput (o : CellOutput) : Bytes := encScript o.lock ++ encOptScript o.typ

def encList {α : Type} (f : α → Bytes) (xs : List α) : Bytes :=
  toBE 4 xs.length ++ (xs.map f).flatten

/-- Models `Transaction::as_slice()`. -/
def encTx (t : Transaction) : Bytes :=
  encList encInput t.inputs ++ encList encOutput t.outputs ++ encBytes t.hash

/-- Models `Header::as_slice()` (fixed-size serialization whose fields
include the block number). -/
def encHeader (h : Header) : Bytes := toBE 8 h.number ++ h.hash ++ h.extra

/-! Parsers, modelling the `from_slice` entity readers.  Each one consumes a
prefix of the byte string and returns the remainder. -/

def dFix (w : Nat) (bs : Bytes) : Option (Nat × Bytes) :=
  if w ≤ bs.length then some (fromBE (bs.take w), bs.drop w) else none

def dBytes (bs : Bytes) : Option (Bytes × Bytes) := do
  let (n, rest) ← dFix 4 bs
  if n ≤ rest.length then some (rest.take n, rest.drop n) else none

def dByte : Bytes → Option (Nat × Bytes)
  | [] => none
  | b :: rest => some (b, rest)

def dScript (bs : Bytes) : Option (Script × Bytes) := do
  let (ch, bs) ← dBytes bs
  let (ht, bs) ← dByte bs
  let (ar, bs) ← dBytes bs
  some (⟨ch, ht, ar⟩, bs)

def dOutPoint (bs : Bytes) : Option (OutPoint × Bytes) := do
  let (h, bs) ← dBytes bs
  let (i, bs) ← dFix 4 bs
  some (⟨h, i⟩, bs)

def dInput (bs : Bytes) : Option (CellInput × Bytes) :=
  (dOutPoint bs).map (fun x => (⟨x.1⟩, x.2))

def dOptScript (bs : Bytes) : Option (Option Script × Bytes) := do
  let (t, bs) ← dByte bs
  if t = 0 then some (none, bs)
  else do
    let (s, bs) ← dScript bs
    some (some s, bs)

def dOutput (bs : Bytes) : Option (CellOutput × Bytes) := do
  let (l, bs) ← dScript bs
  let (t, bs) ← dOptScript bs
  some (⟨l, t⟩, bs)

def dCount {α : Type} (f : Bytes → Option (α × Bytes)) : Nat → Bytes → Option (List α × Bytes)
  | 0, bs => some ([], bs)
  | n + 1, bs => do
    let (x, bs) ← f bs
    let (xs, bs) ← dCount f n bs
    some (x :: xs, bs)

def dList {α : Type} (f : Bytes → Option (α × Bytes)) (bs : Bytes) :
    Option (List α × Bytes) := do
  let (n, bs) ← dFix 4 bs
  dCount f n bs

def dTx (bs : Bytes) : Option (Transaction × Bytes) := do
  let (ins, bs) ← dList dInput bs
  let (outs, bs) ← dList dOutput bs
  let (h, bs) ← dBytes bs
  some (⟨ins, outs, h⟩, bs)

/-- `Transaction::from_slice` (exact-length). -/
def decTxExact (bs : Bytes) : Option Transaction :=
  match dTx bs with
  | some (t, []) => some t
  | _ => none

/-- `Script::from_slice` (exact-length). -/
def decScriptExact (bs : Bytes) : Option Script :=
  match dScript bs with
  | some (s, []) => some s
  | _ => none

/-! Well-formedness: the numeric fields fit the integer widths the source
uses (`u32` lengths and indices, 32-byte hashes). -/

def wfScript (s : Script) : Bool :=
  decide (s.codeHash.length < 256 ^ 4) && decide (s.args.length < 256 ^ 4)

def wfOutput (o : CellOutput) : Bool :=
  wfScript o.lock && (match o.typ with | none => true | some s => wfScript s)

def wfInput (i : CellInput) : Bool :=
  decide (i.previousOutput.txHash.length < 256 ^ 4) && decide (i.previousOutput.index < 256 ^ 4)

def wfTx (t : Transaction) : Bool :=
  decide (t.inputs.length < 256 ^ 4) && decide (t.outputs.length < 256 ^ 4) &&
  decide (t.hash.length = 32) && t.inputs.all wfInput && t.outputs.all wfOutput

theorem dFix_enc {w n : Nat} (h : n < 256 ^ w) (r : Bytes) :
    dFix w (toBE w n ++ r) = some (n, r) := by
  rw [dFix, if_pos (by simp)]
  rw [List.take_append_of_le_length (by simp), List.drop_append_of_le_length (by simp)]
  rw [show (toBE w n).take w = toBE w n from List.take_of_length_le (by simp)]
  rw [fromBE_toBE h]
  simp

theorem dBytes_enc {bs : Bytes} (h : bs.length < 256 ^ 4) (r : Bytes) :
    dBytes (encBytes bs ++ r) = some (bs, r) := by
  rw [encBytes, List.append_assoc, dBytes, dFix_enc h]
  simp only [Option.bind_eq_bind, Option.some_bind]
  rw [if_pos (by simp)]
  rw [List.take_append_of_le_length (by simp), List.drop_append_of_le_length (by simp)]
  simp

theorem dByte_cons (b : Nat) (r : Bytes) : dByte (b :: r) = some (b, r) := rfl

theorem dScript_enc {s : Script} (h : wfScript s = true) (r : Bytes) :
    dScript (encScript s ++ r) = some (s, r) := by
  rw [wfScript, Bool.and_eq_true, decide_eq_true_eq, decide_eq_true_eq] at h
  rw [encScript, List.append_assoc, List.append_assoc, dScript, dBytes_enc h.1]
  simp only [Option.bind_eq_bind, Option.some_bind, List.cons_append, dByte_cons,
    List.nil_append]
  rw [dBytes_enc h.2]
  rfl

theorem dOutPoint_enc {o : OutPoint} (h₁ : o.txHash.length < 256 ^ 4)
    (h₂ : o.index < 256 ^ 4) (r : Bytes) : dOutPoint (encOutPoint o ++ r) = some (o, r) := by
  rw [encOutPoint, List.append_assoc, dOutPoint, dBytes_enc h₁]
  simp only [Option.bind_eq_bind, Option.some_bind]
  rw [dFix_enc h₂]
  rfl

theorem dInput_enc {i : CellInput} (h : wfInput i = true) (r : Bytes) :
    dInput (encInput i ++ r) = some (i, r) := by
  rw [wfInput, Bool.and_eq_true, decide_eq_true_eq, decide_eq_true_eq] at h
  rw [encInput, dInput, dOutPoint_enc h.1 h.2]
  rfl

theorem dOptScript_enc {o : Option Script}
    (h : (match o with | none => true | some s => wfScript s) = true) (r : Bytes) :
    dOptScript (encOptScript o ++ r) = some (o, r) := by
  cases o with
  | none => rfl
  | some s =>
    rw [encOptScript, List.cons_append, dOptScript, dByte_cons]
    simp only [Option.bind_eq_bind, Option.some_bind, if_neg (by norm_num : ¬ (1 : Nat) = 0)]
    rw [dScript_enc h]
    rfl

theorem dOutput_enc {o : CellOutput} (h : wfOutput o = true) (r : Bytes) :
    dOutput (encOutput o ++ r) = some (o, r) := by
  rw [wfOutput, Bool.and_eq_true] at h
  rw [encOutput, List.append_assoc, dOutput, dScript_enc h.1]
  simp only [Option.bind_eq_bind, Option.some_bind]
  rw [dOptScript_enc h.2]
  rfl

theorem dCount_enc {α : Type} {f : Bytes → Option (α × Bytes)} {g : α → Bytes}
    {xs : List α} (h : ∀ x ∈ xs, ∀ r, f (g x ++ r) = some (x, r)) (r : Bytes) :
    dCount f xs.length ((xs.map g).flatten ++ r) = some (xs, r) := by
  induction xs with
  | nil => rfl
  | cons x rest ih =>
    rw [List.length_cons, List.map_cons, List.flatten_cons, List.append_assoc, dCount,
      h x (by simp)]
    simp only [Option.bind_eq_bind, Option.some_bind]
    rw [ih fun y hy => h y (by simp [hy])]
    rfl

theorem dList_enc {α : Type} {f : Bytes → Option (α × Bytes)} {g : α → Bytes}
    {xs : List α} (hlen : xs.length < 256 ^ 4)
    (h : ∀ x ∈ xs, ∀ r, f (g x ++ r) = some (x, r)) (r : Bytes) :
    dList f (encList g xs ++ r) = some (xs, r) := by
  rw [encList, List.append_assoc, dList, dFix_enc hlen]
  simp only [Option.bind_eq_bind, Option.some_bind]
  exact dCount_enc h r

theorem dTx_enc {t : Transaction} (h : wfTx t = true) (r : Bytes) :
    dTx (encTx t ++ r) = some (t, r) := by
  rw [wfTx] at h
  simp only [Bool.and_eq_true, decide_eq_true_eq, List.all_eq_true] at h
  obtain ⟨⟨⟨⟨h₁, h₂⟩, h₃⟩, h₄⟩, h₅⟩ := h
  rw [encTx, List.append_assoc, List.append_assoc, dTx,
    dList_enc h₁ fun x hx r' => dInput_enc (h₄ x hx) r']
  simp only [Option.bind_eq_bind, Option.some_bind]
  rw [dList_enc h₂ fun x hx r' => dOutput_enc (h₅ x hx) r']
  simp only [Option.some_bind]
  rw [dBytes_enc (by omega)]
  rfl

theorem decTxExact_enc {t : Transaction} (h : wfTx t = true) :
    decTxExact (encTx t) = some t := by
  rw [decTxExact]
  have := dTx_enc h []
  rw [List.append_nil] at this
  rw [this]

theorem decScriptExact_enc {s : Script} (h : wfScript s = true) :
    decScriptExact (encScript s) = some s := by
  rw [decScriptExact]
  have := dScript_enc h []
  rw [List.append_nil] at this
  rw [this]

/-! ## Key encoding (`Key` → `Vec<u8>` and the `Meta` names) -/

def strBytes (s : String) : Bytes := s.toList.map Char.toNat

def metaKey (name : String) : Bytes := 224 :: strBytes name

def fsKeyBase : Bytes := metaKey "FILTER_SCRIPTS"

def mbKeyBase : Bytes := metaKey "MATCHED_BLOCKS"

def lastStateKey : Bytes := metaKey "LAST_STATE"

def genesisKey : Bytes := metaKey "GENESIS_BLOCK"

def minFilteredKey : Bytes := metaKey "MIN_FILTERED_NUMBER"

def lastNHeadersKey : Bytes := metaKey "LAST_N_HEADERS"

def maxCpKey : Bytes := metaKey "MAX_CHECK_POINT_INDEX"

def scriptTypeByte : ScriptType → Nat
  | .lock => 0
  | .typ => 1

inductive IoType where
  | input
  | output
deriving DecidableEq

def ioTypeByte : IoType → Nat
  | .input => 0
  | .output => 1

def cellPfxByte : ScriptType → Nat
  | .lock => 32
  | .typ => 64

def histPfxByte : ScriptType → Nat
  | .lock => 96
  | .typ => 128

/-- `Key::CellLockScript` / `Key::CellTypeScript`. -/
def cellKey (t : ScriptType) (s : Script) (b txi oi : Nat) : Bytes :=
  cellPfxByte t :: (rawScript s ++ toBE 8 b ++ toBE 4 txi ++ toBE 4 oi)

/-- `Key::TxLockScript` / `Key::TxTypeScript`. -/
def histKey (t : ScriptType) (s : Script) (b txi ioi : Nat) (io : IoType) : Bytes :=
  histPfxByte t :: (rawScript s ++ toBE 8 b ++ toBE 4 txi ++ toBE 4 ioi ++ [ioTypeByte io])

def txKey (h : Bytes) : Bytes := 0 :: h

def blockHashKey (h : Bytes) : Bytes := 160 :: h

def blockNumberKey (b : Nat) : Bytes := 192 :: toBE 8 b

def cpKey (i : Nat) : Bytes := 208 :: toBE 4 i

/-- A `FILTER_SCRIPTS` registry key: `Meta ‖ "FILTER_SCRIPTS" ‖
script.as_slice() ‖ script_type_byte`. -/
def regKey (s : Script) (t : ScriptType) : Bytes :=
  fsKeyBase ++ encScript s ++ [scriptTypeByte t]

/-- `Value::Transaction`: `block_number(BE8) ‖ tx_index(BE4) ‖ tx bytes`. -/
def txValue (b txi : Nat) (t : Transaction) : Bytes := toBE 8 b ++ toBE 4 txi ++ encTx t

/-! ## Storage accessors -/

/-- `Storage::get_transaction`.  The outer `none` is the `expect` panic on a
malformed stored value; `some none` is a missing key. -/
def getTransaction (S : Store) (h : Bytes) : Option (Option (Nat × Nat × Transaction)) :=
  match getV S (txKey h) with
  | none => some none
  | some v =>
    if 12 ≤ v.length then
      (decTxExact (v.drop 12)).map fun t =>
        some (fromBE (v.take 8), fromBE ((v.drop 8).take 4), t)
    else none

/-- The registry entries, in key order (`FILTER_SCRIPTS` forward scan). -/
def regEntries (S : Store) : List Entry :=
  iterateFrom S fsKeyBase .forward (fun e => isPfxOf fsKeyBase e.1)

/-- Parse one registry entry (`Script::from_slice` on
`key[prefix_len .. len-1]`, the script-type byte, and the BE8 value);
`none` is the source's panic. -/
def parseRegEntry (e : Entry) : Option ScriptStatus :=
  let body := e.1.drop fsKeyBase.length
  match decScriptExact (body.take (body.length - 1)) with
  | none => none
  | some s =>
    match body.getLast? with
    | none => none
    | some tb =>
      if e.2.length = 8 then
        if tb = 0 then some ⟨s, .lock, fromBE e.2⟩
        else if tb = 1 then some ⟨s, .typ, fromBE e.2⟩
        else none
      else none

/-- `Storage::get_filter_scripts`. -/
def getFilterScripts (S : Store) : Option (List ScriptStatus) :=
  (regEntries S).mapM parseRegEntry

/-- `Storage::get_min_filtered_block_number` (LE8 value, default 0 when
absent, panic on a malformed value). -/
def getMinFiltered (S : Store) : Option Nat :=
  match getV S minFilteredKey with
  | none => some 0
  | some v => if v.length = 8 then some (fromLE v) else none

/-- `Storage::update_min_filtered_block_number`. -/
def updateMinFilteredBlockNumber (S : Store) (n : Nat) : Store :=
  putV S minFilteredKey (toLE 8 n)

/-- `Storage::get_check_points`: forward scan from `CheckPointIndex(start)`
while keys keep the check-point prefix, take `limit`, read 32-byte values. -/
def getCheckPoints (S : Store) (start limit : Nat) : Option (List Bytes) :=
  ((iterateFrom S (cpKey start) .forward (fun e => isPfxOf [208] e.1)).take limit).mapM
    fun e => if e.2.length = 32 then some e.2 else none

/-- `Storage::update_check_points`: one batch of puts at consecutive
indices (`u32` increment). -/
def updateCheckPoints (S : Store) (start : Nat) (cps : List Bytes) : Store :=
  applyOps S (cps.enum.map fun p => Op.putOp (cpKey ((start + p.1) % 256 ^ 4)) p.2)

/-- `Storage::clear_matched_blocks`: delete every entry under
`Meta ‖ MATCHED_BLOCKS` in one batch. -/
def clearMatchedBlocks (S : Store) : Store :=
  applyOps S ((iterateFrom S mbKeyBase .forward (fun e => isPfxOf mbKeyBase e.1)).map
    fun e => Op.delOp e.1)

/-- `Storage::update_min_filtered_block_number_by_scripts`. -/
def updateMinByScripts (S : Store) : Option Store := do
  let vals ← (regEntries S).mapM fun e =>
    if e.2.length = 8 then some (fromBE e.2) else none
  match vals.min? with
  | some n => some (updateMinFilteredBlockNumber S n)
  | none => some S

/-- `Storage::update_block_number`: bump every registry entry whose stored
from-block is strictly below `n`, in one batch. -/
def updateBlockNumber (S : Store) (n : Nat) : Option Store := do
  let opss ← (regEntries S).mapM fun e =>
    if e.2.length = 8 then
      some (if fromBE e.2 < n then [Op.putOp e.1 (toBE 8 n)] else [])
    else none
  some (applyOps S opss.flatten)

def chunks32 (bs : Bytes) : List Bytes :=
  if h : 32 ≤ bs.length then bs.take 32 :: chunks32 (bs.drop 32) else []
  termination_by bs.length
  decreasing_by simp; omega

/-- `Header::from_slice` (exact 208-byte layout: number, hash, the rest). -/
def decHeaderExact (bs : Bytes) : Option Header :=
  if bs.length = 208 then
    some ⟨fromBE (bs.take 8), (bs.drop 8).take 32, bs.drop 40⟩
  else none

/-- `HeaderWithExtension::to_vec`. -/
def hweBytes (hd : Header) (ext : Option Bytes) : Bytes := encHeader hd ++ ext.getD []

/-- `Storage::get_genesis_block`. -/
def getGenesisBlock (S : Store) : Option Block := do
  let v ← getV S genesisKey
  if 32 ≤ v.length then do
    let hb ← getV S (blockHashKey (v.take 32))
    let hd ← decHeaderExact hb
    let txs ← (chunks32 (v.drop 32)).mapM fun th => do
      let tv ← getV S (txKey th)
      if 12 ≤ tv.length then decTxExact (tv.drop 12) else none
    some ⟨hd, none, txs⟩
  else none

/-- `Storage::update_last_state` (difficulty is the 32 LE bytes of the
`U256`). -/
def updateLastState (S : Store) (totalDifficulty : Bytes) (tip : Header)
    (lastN : List (Nat × Bytes)) : Store :=
  let S₁ := putV S lastStateKey (totalDifficulty ++ encHeader tip)
  putV S₁ lastNHeadersKey (lastN.map fun p => toLE 8 p.1 ++ p.2).flatten

/-- `Storage::init_genesis_block`.  `gfh` is the genesis block-filter hash
computation (`calc_filter_hash` over `build_filter_data`), kept abstract.
`none` is the fatal genesis-hash-mismatch panic. -/
def initGenesisBlock (gfh : Block → Bytes) (S : Store) (B : Block) : Option Store :=
  match getV S genesisKey with
  | some v =>
    if 32 ≤ v.length then
      if v.take 32 = B.header.hash then some S else none
    else none
  | none =>
    let ops := [Op.putOp lastStateKey (encHeader B.header),
                Op.putOp (blockHashKey B.header.hash) (encHeader B.header),
                Op.putOp (blockNumberKey 0) B.header.hash]
      ++ (B.transactions.enum.map fun p => Op.putOp (txKey p.2.hash) (txValue 0 p.1 p.2))
      ++ [Op.putOp genesisKey (B.header.hash ++ (B.transactions.map (·.hash)).flatten)]
    let S₁ := applyOps S ops
    let S₂ := updateLastState S₁ (List.replicate 32 0) B.header []
    let S₃ := putV S₂ maxCpKey (toBE 4 0)
    let S₄ := updateCheckPoints S₃ 0 [gfh B]
    some (updateMinFilteredBlockNumber S₄ 0)

/-! ## `Storage::filter_block` -/

abbrev TxsMap := List (Bytes × (Nat × Transaction))

def lookupTxs : TxsMap → Bytes → Option (Nat × Transaction)
  | [], _ => none
  | e :: rest, h => if e.1 = h then some e.2 else lookupTxs rest h

abbrev ScriptSet := List (Script × ScriptType)

structure FBAcc where
  matched : Bool
  ops : List Op
deriving DecidableEq

/-- Resolve an input's previous transaction: the stored transaction table
first, then the in-block map (`get_transaction(..).or(txs.get(..))`). -/
def resolvePrev (S : Store) (m : TxsMap) (b : Nat) (h : Bytes) :
    Option (Option (Nat × Nat × Transaction)) :=
  match getTransaction S h with
  | none => none
  | some r => some (r.orElse fun _ => (lookupTxs m h).map fun p => (b, p.1, p.2))

/-- A matched rule sets `filter_matched` and appends its operations to the
batch. -/
def condAppend (c : Prop) [Decidable c] (l : List Op) (acc : FBAcc) : FBAcc :=
  if c then { matched := true, ops := acc.ops ++ l } else acc

/-- Input matched on the lock script: delete the spent cell, insert the
`Input` history entry, insert the tx body. -/
def inputOps (t : ScriptType) (s : Script) (b txi ioi gb gt pidx : Nat)
    (tx : Transaction) : List Op :=
  [Op.delOp (cellKey t s gb gt pidx),
   Op.putOp (histKey t s b txi ioi .input) tx.hash,
   Op.putOp (txKey tx.hash) (txValue b txi tx)]

def inputStep (sset : ScriptSet) (b txi ioi : Nat) (tx : Transaction)
    (gb gt : Nat) (pout : CellOutput) (prevIdx : Nat) (acc : FBAcc) : FBAcc :=
  let acc₁ := condAppend ((pout.lock, ScriptType.lock) ∈ sset)
    (inputOps .lock pout.lock b txi ioi gb gt prevIdx tx) acc
  match pout.typ with
  | some ts => condAppend ((ts, ScriptType.typ) ∈ sset)
      (inputOps .typ ts b txi ioi gb gt prevIdx tx) acc₁
  | none => acc₁

/-- Process one resolved input: if the spent output exists, run the
matching rules. -/
def inputResolve (sset : ScriptSet) (b txi ioi : Nat) (tx : Transaction) (inp : CellInput) :
    Option (Nat × Nat × Transaction) → FBAcc → FBAcc
  | none, acc => acc
  | some (gb, gt, ptx), acc =>
    match ptx.outputs.get? inp.previousOutput.index with
    | none => acc
    | some pout => inputStep sset b txi ioi tx gb gt pout inp.previousOutput.index acc

def fbInputs (S : Store) (sset : ScriptSet) (m : TxsMap) (b txi : Nat) (tx : Transaction) :
    Nat → List CellInput → FBAcc → Option FBAcc
  | _, [], acc => some acc
  | ioi, inp :: rest, acc => do
    let r ← resolvePrev S m b inp.previousOutput.txHash
    fbInputs S sset m b txi tx (ioi + 1) rest (inputResolve sset b txi ioi tx inp r acc)

/-- Output matched: insert the new cell, the `Output` history entry, and the
tx body. -/
def outputOps (t : ScriptType) (s : Script) (b txi oi : Nat) (tx : Transaction) :
    List Op :=
  [Op.putOp (cellKey t s b txi oi) tx.hash,
   Op.putOp (histKey t s b txi oi .output) tx.hash,
   Op.putOp (txKey tx.hash) (txValue b txi tx)]

def outputStep (sset : ScriptSet) (b txi oi : Nat) (tx : Transaction) (out : CellOutput)
    (acc : FBAcc) : FBAcc :=
  let acc₁ := condAppend ((out.lock, ScriptType.lock) ∈ sset)
    (outputOps .lock out.lock b txi oi tx) acc
  match out.typ with
  | some ts => condAppend ((ts, ScriptType.typ) ∈ sset)
      (outputOps .typ ts b txi oi tx) acc₁
  | none => acc₁

def fbOutputs (sset : ScriptSet) (b txi : Nat) (tx : Transaction) :
    Nat → List CellOutput → FBAcc → FBAcc
  | _, [], acc => acc
  | oi, out :: rest, acc =>
    fbOutputs sset b txi tx (oi + 1) rest (outputStep sset b txi oi tx out acc)

def fbTxs (S : Store) (sset : ScriptSet) (b : Nat) :
    Nat → TxsMap → List Transaction → FBAcc → Option FBAcc
  | _, _, [], acc => some acc
  | txi, m, tx :: rest, acc => do
    let acc₁ ← fbInputs S sset m b txi tx 0 tx.inputs acc
    let acc₂ := fbOutputs sset b txi tx 0 tx.outputs acc₁
    fbTxs S sset b (txi + 1) ((tx.hash, (txi, tx)) :: m) rest acc₂

/-- The operations `filter_block` queues in its batch (in order), or the
panic (`none`). -/
def filterBlockOps (S : Store) (B : Block) : Option (List Op) := do
  let scripts ← getFilterScripts S
  let sset : ScriptSet := scripts.map fun ss => (ss.script, ss.scriptType)
  let b := B.header.number
  let acc ← fbTxs S sset b 0 [] B.transactions ⟨false, []⟩
  if acc.matched then
    some (acc.ops ++
      [Op.putOp (blockHashKey B.header.hash) (hweBytes B.header B.extension),
       Op.putOp (blockNumberKey b) B.header.hash])
  else some acc.ops

/-- `Storage::filter_block`. -/
def filterBlock (S : Store) (B : Block) : Option Store :=
  (filterBlockOps S B).map (applyOps S)

/-! ## `Storage::rollback_to_block` -/

/-- Undo one `Input` history entry: load the spent output's transaction; if
its body is stored, recreate the cell, then delete the history entry.
(`none` is the panic on a missing input index or malformed body.) -/
def rollbackInputOps (S : Store) (t : ScriptType) (s : Script) (bn txi ci : Nat) :
    Option CellInput → Option (List Op)
  | none => none
  | some inp =>
    match getTransaction S inp.previousOutput.txHash with
    | none => none
    | some none => some [Op.delOp (histKey t s bn txi ci .input)]
    | some (some (gb, gt, _ptx)) =>
      some [Op.putOp (cellKey t s gb gt inp.previousOutput.index)
              inp.previousOutput.txHash,
            Op.delOp (histKey t s bn txi ci .input)]

/-- The operations queued for one collected tx-history entry (`none` is a
panic: malformed entry, missing spending transaction, bad input index). -/
def rollbackEntryOps (S : Store) (ss : ScriptStatus) (e : Entry) : Option (List Op) :=
  let s := ss.script
  let t := ss.scriptType
  let plen := (histPfxByte t :: rawScript s).length
  let k := e.1
  if plen + 17 ≤ k.length ∧ e.2.length = 32 then
    let bn := fromBE ((k.drop plen).take 8)
    let txi := fromBE ((k.drop (plen + 8)).take 4)
    let ci := fromBE ((k.drop (plen + 12)).take 4)
    if k.get? (plen + 16) = some 0 then
      match getTransaction S e.2 with
      | some (some (_gb, _gt, tx)) => rollbackInputOps S t s bn txi ci (tx.inputs.get? ci)
      | _ => none
    else
      some [Op.delOp (cellKey t s bn txi ci),
            Op.delOp (histKey t s bn txi ci .output)]
  else none

/-- The collected entries of one script's rollback: a reverse scan of the
script's tx-history range from `prefix ‖ BlockNumber::MAX` while the keys
keep the prefix and their block-number field is ≥ `to`. -/
def rollbackItems (S : Store) (toN : Nat) (ss : ScriptStatus) : List Entry :=
  iterateFrom S ((histPfxByte ss.scriptType :: rawScript ss.script) ++ toBE 8 (256 ^ 8 - 1))
    .reverse fun e =>
      isPfxOf (histPfxByte ss.scriptType :: rawScript ss.script) e.1 &&
        decide (toN ≤ fromBE
          ((e.1.drop (histPfxByte ss.scriptType :: rawScript ss.script).length).take 8))

/-- Per-script rollback: the queued undo operations for the collected
entries, then the from-block overwrite. -/
def rollbackScriptOps (S : Store) (toN : Nat) (ss : ScriptStatus) : Option (List Op) :=
  if toN ≤ ss.blockNumber then
    ((rollbackItems S toN ss).mapM (rollbackEntryOps S ss)).map
      fun opss => opss.flatten ++ [Op.putOp (regKey ss.script ss.scriptType) (toBE 8 toN)]
  else some []

/-- The operations `rollback_to_block` queues, or the panic. -/
def rollbackOps (S : Store) (toN : Nat) : Option (List Op) := do
  let scripts ← getFilterScripts S
  let opss ← scripts.mapM (rollbackScriptOps S toN)
  let mn ← getMinFiltered S
  let minOps := if toN ≤ mn then [Op.putOp minFilteredKey (toLE 8 (toN - 1))] else []
  some (opss.flatten ++ minOps)

/-- `Storage::rollback_to_block`. -/
def rollbackToBlock (S : Store) (toN : Nat) : Option Store :=
  (rollbackOps S toN).map (applyOps S)

/-! ## `Storage::update_filter_scripts` -/

/-- The side effects after the registry batch commits: recompute
`MIN_FILTERED_NUMBER`, clear `MATCHED_BLOCKS`, and re-filter the genesis
block when a new from-block is 0. -/
def afterScriptsCommit (S : Store) (sfg : Bool) : Option Store := do
  let S₁ ← updateMinByScripts S
  let S₂ := clearMatchedBlocks S₁
  if sfg then do
    let gb ← getGenesisBlock S₂
    filterBlock S₂ gb
  else some S₂

/-- `Storage::update_filter_scripts` (commands `All` / `Partial` /
`Delete`; `Partial` and `Delete` return early on an empty script list). -/
def updateFilterScripts (S : Store) (scripts : List ScriptStatus)
    (cmd : SetScriptsCommand) : Option Store :=
  match cmd with
  | .all =>
    let sfg := scripts.any fun ss => decide (ss.blockNumber = 0)
    let delOps := (regEntries S).map fun e => Op.delOp e.1
    let putOps := scripts.map fun ss =>
      Op.putOp (regKey ss.script ss.scriptType) (toBE 8 ss.blockNumber)
    afterScriptsCommit (applyOps S (delOps ++ putOps)) sfg
  | .upsert =>
    if scripts.isEmpty then some S
    else
      let sfg := decide ((scripts.map fun ss => ss.blockNumber).min? = some 0)
      let putOps := scripts.map fun ss =>
        Op.putOp (regKey ss.script ss.scriptType) (toBE 8 ss.blockNumber)
      afterScriptsCommit (applyOps S putOps) sfg
  | .remove =>
    if scripts.isEmpty then some S
    else
      let delOps := scripts.map fun ss => Op.delOp (regKey ss.script ss.scriptType)
      afterScriptsCommit (applyOps S delOps) false

/-! ## Claim C9: big-endian key fields make lexicographic order equal
coordinate order -/

/-- Decomposition of the byte-wise order across equal-length blocks. -/
theorem keyLt_append_decomp {a b : Bytes} (hlen : a.length = b.length) (x y : Bytes) :
    keyLt (a ++ x) (b ++ y) = true ↔
      (keyLt a b = true ∨ (a = b ∧ keyLt x y = true)) := by
  induction a generalizing b with
  | nil =>
    cases b with
    | nil => simp
    | cons v vs => simp at hlen
  | cons u us ih =>
    cases b with
    | nil => simp at hlen
    | cons v vs =>
      simp only [List.cons_append, keyLt_cons, Bool.or_eq_true, Bool.and_eq_true,
        decide_eq_true_eq]
      rw [ih (by simpa using hlen)]
      constructor
      · rintro (h | ⟨rfl, h | ⟨rfl, h⟩⟩)
        · exact Or.inl (Or.inl h)
        · exact Or.inl (Or.inr ⟨rfl, h⟩)
        · exact Or.inr ⟨by simp, h⟩
      · rintro ((h | ⟨rfl, h⟩) | ⟨heq, h⟩)
        · exact Or.inl h
        · exact Or.inr ⟨rfl, Or.inl h⟩
        · injection heq with h₁ h₂
          subst h₁
          subst h₂
          exact Or.inr ⟨rfl, Or.inr ⟨rfl, h⟩⟩

/-- Lexicographic strict order on `(block_number, tx_index, io_index)`. -/
def tripleLt (a b : Nat × Nat × Nat) : Prop :=
  a.1 < b.1 ∨ (a.1 = b.1 ∧ (a.2.1 < b.2.1 ∨ (a.2.1 = b.2.1 ∧ a.2.2 < b.2.2)))

/-- Lexicographic order on `(block_number, tx_index, io_index)`. -/
def tripleLe (a b : Nat × Nat × Nat) : Prop :=
  a.1 < b.1 ∨ (a.1 = b.1 ∧ (a.2.1 < b.2.1 ∨ (a.2.1 = b.2.1 ∧ a.2.2 ≤ b.2.2)))

instance : DecidableRel tripleLt := fun a b => by
  rw [tripleLt]
  infer_instance

instance : DecidableRel tripleLe := fun a b => by
  rw [tripleLe]
  infer_instance

theorem coordBytes_lt_iff {b₁ t₁ i₁ b₂ t₂ i₂ : Nat} (x y : Bytes)
    (hb₁ : b₁ < 256 ^ 8) (hb₂ : b₂ < 256 ^ 8) (ht₁ : t₁ < 256 ^ 4) (ht₂ : t₂ < 256 ^ 4)
    (hi₁ : i₁ < 256 ^ 4) (hi₂ : i₂ < 256 ^ 4) :
    keyLt (toBE 8 b₁ ++ toBE 4 t₁ ++ toBE 4 i₁ ++ x) (toBE 8 b₂ ++ toBE 4 t₂ ++ toBE 4 i₂ ++ y)
        = true ↔
      (b₁ < b₂ ∨ (b₁ = b₂ ∧ (t₁ < t₂ ∨ (t₁ = t₂ ∧ i₁ < i₂)))) ∨
        (b₁ = b₂ ∧ t₁ = t₂ ∧ i₁ = i₂ ∧ keyLt x y = true) := by
  rw [List.append_assoc (toBE 8 b₁), List.append_assoc (toBE 8 b₁),
    List.append_assoc (toBE 8 b₂), List.append_assoc (toBE 8 b₂),
    keyLt_append_decomp (by simp)]
  rw [List.append_assoc (toBE 4 t₁), List.append_assoc (toBE 4 t₂),
    keyLt_append_decomp (by simp)]
  rw [keyLt_append_decomp (by simp)]
  rw [toBE_keyLt_iff hb₁ hb₂, toBE_keyLt_iff ht₁ ht₂, toBE_keyLt_iff hi₁ hi₂]
  constructor
  · rintro (h | ⟨he, h | ⟨he', h | ⟨he'', h⟩⟩⟩)
    · exact Or.inl (Or.inl h)
    · exact Or.inl (Or.inr ⟨toBE_inj hb₁ hb₂ he, Or.inl h⟩)
    · exact Or.inl (Or.inr ⟨toBE_inj hb₁ hb₂ he,
        Or.inr ⟨toBE_inj ht₁ ht₂ he', h⟩⟩)
    · exact Or.inr ⟨toBE_inj hb₁ hb₂ he, toBE_inj ht₁ ht₂ he', toBE_inj hi₁ hi₂ he'', h⟩
  · rintro ((h | ⟨he, h | ⟨he', h⟩⟩) | ⟨he, he', he'', h⟩)
    · exact Or.inl h
    · exact Or.inr ⟨by rw [he], Or.inl h⟩
    · exact Or.inr ⟨by rw [he], Or.inr ⟨by rw [he'], Or.inl h⟩⟩
    · exact Or.inr ⟨by rw [he], Or.inr ⟨by rw [he'], Or.inr ⟨by rw [he''], h⟩⟩⟩

/-- C9: for two `CellLockScript`/`CellTypeScript` keys with the same tag and
script, the byte-wise key order is exactly the lexicographic order of
`(block_number, tx_index, output_index)`; for two `TxLockScript`/
`TxTypeScript` keys (whose trailing byte is the io-type) the byte-wise key
order implies lexicographic order of `(block_number, tx_index, io_index)`,
because all the numeric fields are fixed-width big-endian. -/
theorem c9_key_order (t : ScriptType) (s : Script) (b₁ t₁ i₁ b₂ t₂ i₂ : Nat)
    (io₁ io₂ : IoType)
    (hb₁ : b₁ < 256 ^ 8) (hb₂ : b₂ < 256 ^ 8) (ht₁ : t₁ < 256 ^ 4) (ht₂ : t₂ < 256 ^ 4)
    (hi₁ : i₁ < 256 ^ 4) (hi₂ : i₂ < 256 ^ 4) :
    (keyLt (cellKey t s b₁ t₁ i₁) (cellKey t s b₂ t₂ i₂) = true ↔
        tripleLt (b₁, t₁, i₁) (b₂, t₂, i₂)) ∧
    (keyLt (histKey t s b₁ t₁ i₁ io₁) (histKey t s b₂ t₂ i₂ io₂) = true →
        tripleLe (b₁, t₁, i₁) (b₂, t₂, i₂)) := by
  constructor
  · rw [cellKey, cellKey, show cellPfxByte t :: (rawScript s ++ toBE 8 b₁ ++ toBE 4 t₁ ++
        toBE 4 i₁) = (cellPfxByte t :: rawScript s) ++ (toBE 8 b₁ ++ toBE 4 t₁ ++ toBE 4 i₁ ++ [])
        from by simp,
      show cellPfxByte t :: (rawScript s ++ toBE 8 b₂ ++ toBE 4 t₂ ++ toBE 4 i₂)
        = (cellPfxByte t :: rawScript s) ++ (toBE 8 b₂ ++ toBE 4 t₂ ++ toBE 4 i₂ ++ [])
        from by simp,
      keyLt_append_same]
    rw [coordBytes_lt_iff [] [] hb₁ hb₂ ht₁ ht₂ hi₁ hi₂]
    constructor
    · rintro (h | ⟨_, _, _, h⟩)
      · exact h
      · exact absurd h (by simp)
    · intro h
      exact Or.inl h
  · rw [histKey, histKey, show histPfxByte t :: (rawScript s ++ toBE 8 b₁ ++ toBE 4 t₁ ++
        toBE 4 i₁ ++ [ioTypeByte io₁]) = (histPfxByte t :: rawScript s) ++
        (toBE 8 b₁ ++ toBE 4 t₁ ++ toBE 4 i₁ ++ [ioTypeByte io₁]) from by simp,
      show histPfxByte t :: (rawScript s ++ toBE 8 b₂ ++ toBE 4 t₂ ++ toBE 4 i₂ ++
        [ioTypeByte io₂]) = (histPfxByte t :: rawScript s) ++
        (toBE 8 b₂ ++ toBE 4 t₂ ++ toBE 4 i₂ ++ [ioTypeByte io₂]) from by simp,
      keyLt_append_same]
    rw [coordBytes_lt_iff _ _ hb₁ hb₂ ht₁ ht₂ hi₁ hi₂]
    rintro (h | ⟨he, he', he'', _⟩)
    · rcases h with h | ⟨he, h | ⟨he', h⟩⟩
      · exact Or.inl h
      · exact Or.inr ⟨he, Or.inl h⟩
      · exact Or.inr ⟨he, Or.inr ⟨he', Nat.le_of_lt h⟩⟩
    · exact Or.inr ⟨he, Or.inr ⟨he', Nat.le_of_eq he''⟩⟩

/-- C9 witness. -/
theorem c9_key_order_witness :
    keyLt (cellKey .lock ⟨[1], 0, []⟩ 1 0 0) (cellKey .lock ⟨[1], 0, []⟩ 2 0 0) = true ↔
      tripleLt (1, 0, 0) (2, 0, 0) :=
  (c9_key_order .lock ⟨[1], 0, []⟩ 1 0 0 2 0 0 .input .output (by norm_num) (by norm_num)
    (by norm_num) (by norm_num) (by norm_num) (by norm_num)).1

/-! ## Claim C5: genesis immutability -/

/-- C5: when a genesis record is already stored, `init_genesis_block` with a
block whose header hash matches the stored hash returns the store unchanged,
and with a differing hash it panics (models as `none`) without building any
batch. -/
theorem c5_genesis_immutable (gfh : Block → Bytes) (S : Store) (B : Block) (v : Bytes)
    (hv : getV S genesisKey = some v) (hlen : 32 ≤ v.length) :
    (v.take 32 = B.header.hash → initGenesisBlock gfh S B = some S) ∧
    (v.take 32 ≠ B.header.hash → initGenesisBlock gfh S B = none) := by
  constructor
  · intro heq
    rw [initGenesisBlock, hv]
    simp [hlen, heq]
  · intro hne
    rw [initGenesisBlock, hv]
    simp [hlen, hne]

/-- C5 witness: a store holding a genesis record; re-initializing with the
same hash is a no-op and with a different hash panics. -/
theorem c5_genesis_immutable_witness :
    initGenesisBlock (fun _ => []) [(genesisKey, List.replicate 32 7)]
        ⟨⟨0, List.replicate 32 7, []⟩, none, []⟩ = some [(genesisKey, List.replicate 32 7)] ∧
    initGenesisBlock (fun _ => []) [(genesisKey, List.replicate 32 7)]
        ⟨⟨0, List.replicate 32 9, []⟩, none, []⟩ = none :=
  ⟨(c5_genesis_immutable (fun _ => []) _ _ (List.replicate 32 7) (by decide) (by decide)).1
      (by decide),
   (c5_genesis_immutable (fun _ => []) _ _ (List.replicate 32 7) (by decide) (by decide)).2
      (by decide)⟩

/-! ## Batch/lastWrite auxiliary lemmas -/

theorem lastWrite_mem {ops : List Op} {k : Bytes} {op : Op}
    (h : lastWrite ops k = some op) : op ∈ ops ∧ opKey op = k := by
  induction ops with
  | nil => simp [lastWrite] at h
  | cons op' rest ih =>
    rw [lastWrite] at h
    cases hlw : lastWrite rest k with
    | some op'' =>
      rw [hlw] at h
      injection h with h
      subst h
      obtain ⟨hm, hk⟩ := ih hlw
      exact ⟨List.mem_cons_of_mem _ hm, hk⟩
    | none =>
      rw [hlw] at h
      by_cases hk : opKey op' = k
      · rw [if_pos hk] at h
        injection h with h
        subst h
        exact ⟨List.mem_cons_self _ _, hk⟩
      · rw [if_neg hk] at h
        exact absurd h (by simp)

theorem lastWrite_eq_none_iff {ops : List Op} {k : Bytes} :
    lastWrite ops k = none ↔ ∀ op ∈ ops, opKey op ≠ k := by
  induction ops with
  | nil => simp [lastWrite]
  | cons op rest ih =>
    rw [lastWrite]
    cases hlw : lastWrite rest k with
    | some op' =>
      constructor
      · intro h
        exact Option.noConfusion h
      · intro h
        obtain ⟨hm, hk⟩ := lastWrite_mem hlw
        exact absurd hk (h op' (List.mem_cons_of_mem _ hm))
    | none =>
      show (if opKey op = k then some op else none) = none ↔ _
      by_cases hk : opKey op = k
      · rw [if_pos hk]
        constructor
        · intro h
          exact Option.noConfusion h
        · intro h
          exact absurd hk (h op (List.mem_cons_self _ _))
      · rw [if_neg hk]
        constructor
        · intro _ op' hm
          rcases List.mem_cons.mp hm with rfl | hm'
          · exact hk
          · exact ih.mp hlw op' hm'
        · intro _
          rfl

theorem lastWrite_eq_of_uniq {ops : List Op} {k v : Bytes}
    (hmem : Op.putOp k v ∈ ops)
    (huniq : ∀ op ∈ ops, opKey op = k → op = Op.putOp k v) :
    lastWrite ops k = some (Op.putOp k v) := by
  induction ops with
  | nil => simp at hmem
  | cons op rest ih =>
    rw [lastWrite]
    cases hlw : lastWrite rest k with
    | some op' =>
      obtain ⟨hm, hk⟩ := lastWrite_mem hlw
      rw [huniq op' (List.mem_cons_of_mem _ hm) hk]
    | none =>
      rcases List.mem_cons.mp hmem with rfl | hmem'
      · show (if opKey (Op.putOp k v) = k then some (Op.putOp k v) else none)
            = some (Op.putOp k v)
        simp [opKey]
      · exact absurd (lastWrite_eq_none_iff.mp hlw _ hmem') (by simp [opKey])

/-- A key with exactly one (repeated) put in the batch ends at that value. -/
theorem getV_applyOps_single_put (S : Store) {ops : List Op} {k v : Bytes}
    (hmem : Op.putOp k v ∈ ops)
    (huniq : ∀ op ∈ ops, opKey op = k → op = Op.putOp k v) :
    getV (applyOps S ops) k = some v := by
  rw [getV_applyOps, lastWrite_eq_of_uniq hmem huniq]

/-- `mapM` over `Option` succeeds exactly elementwise. -/
theorem mapM_option_forall₂ {α β : Type} {f : α → Option β} :
    ∀ {l : List α} {bs : List β}, l.mapM f = some bs →
      List.Forall₂ (fun a b => f a = some b) l bs := by
  intro l
  induction l with
  | nil =>
    intro bs h
    rw [List.mapM_nil] at h
    injection h with h
    subst h
    exact List.Forall₂.nil
  | cons a rest ih =>
    intro bs h
    rw [List.mapM_cons] at h
    cases hfa : f a with
    | none =>
      rw [hfa] at h
      simp at h
    | some b =>
      rw [hfa] at h
      cases hrest : rest.mapM f with
      | none =>
        rw [hrest] at h
        simp at h
      | some bs' =>
        rw [hrest] at h
        simp only [Option.bind_eq_bind, Option.some_bind, Option.pure_def] at h
        injection h with h
        subst h
        exact List.Forall₂.cons hfa (ih hrest)

theorem forall₂_flatten_mem {α : Type} {P : α → List Op → Prop} {l : List α}
    {opss : List (List Op)} (hf : List.Forall₂ P l opss) {op : Op}
    (hm : op ∈ opss.flatten) : ∃ a ∈ l, ∃ ops, P a ops ∧ op ∈ ops := by
  induction hf with
  | nil => simp at hm
  | cons ha hrest ih =>
    rw [List.flatten_cons, List.mem_append] at hm
    rcases hm with hm | hm
    · exact ⟨_, by simp, _, ha, hm⟩
    · obtain ⟨a, hal, ops, hP, hop⟩ := ih hm
      exact ⟨a, by simp [hal], ops, hP, hop⟩

/-! ## Claim C7: `update_block_number` never decreases a from-block -/

/-- Membership in the registry as plain store membership. -/
theorem regEntries_eq_filter {S : Store} (hs : SortedStore S) :
    regEntries S = S.filter (fun e => isPfxOf fsKeyBase e.1) :=
  prefixScan_eq_filter hs fsKeyBase

/-- C7: if `update_block_number(n)` succeeds, every registry entry whose
stored from-block is `< n` is overwritten with `n` (BE8), every registry
entry with from-block `≥ n` keeps its value, and every key that is not a
stored registry entry is untouched — so no script's from-block ever
decreases. -/
theorem c7_update_block_number (S : Store) (hs : SortedStore S) (n : Nat) (S' : Store)
    (h : updateBlockNumber S n = some S') :
    (∀ k v, getV S k = some v → isPfxOf fsKeyBase k = true →
        fromBE v < n → getV S' k = some (toBE 8 n)) ∧
    (∀ k v, getV S k = some v → isPfxOf fsKeyBase k = true →
        ¬ fromBE v < n → getV S' k = some v) ∧
    (∀ k, isPfxOf fsKeyBase k = false → getV S' k = getV S k) ∧
    (∀ k, getV S k = none → getV S' k = getV S k) := by
  rw [updateBlockNumber] at h
  cases hm : (regEntries S).mapM fun e =>
      if e.2.length = 8 then
        some (if fromBE e.2 < n then [Op.putOp e.1 (toBE 8 n)] else [])
      else none with
  | none =>
    rw [hm] at h
    simp at h
  | some opss =>
    rw [hm] at h
    simp only [Option.bind_eq_bind, Option.some_bind, Option.pure_def] at h
    injection h with h
    subst h
    have hf := mapM_option_forall₂ hm
    -- Every queued operation is a put of `toBE 8 n` at a registry key whose
    -- stored value is below `n`.
    have hops : ∀ op ∈ opss.flatten, ∃ e, e ∈ regEntries S ∧ e.2.length = 8 ∧
        fromBE e.2 < n ∧ op = Op.putOp e.1 (toBE 8 n) := by
      intro op hop
      obtain ⟨e, hel, ops, hP, hmem⟩ := forall₂_flatten_mem hf hop
      by_cases h8 : e.2.length = 8
      · rw [if_pos h8] at hP
        injection hP with hP
        subst hP
        by_cases hlt : fromBE e.2 < n
        · rw [if_pos hlt] at hmem
          rcases List.mem_singleton.mp hmem with rfl
          exact ⟨e, hel, h8, hlt, rfl⟩
        · rw [if_neg hlt] at hmem
          simp at hmem
      · rw [if_neg h8] at hP
        exact absurd hP (by simp)
    -- Conversely, each registry entry below `n` contributes its put.
    have hopsAux : ∀ (l : List Entry) (ops₂ : List (List Op)),
        List.Forall₂ (fun a b =>
          (if a.2.length = 8 then
            some (if fromBE a.2 < n then [Op.putOp a.1 (toBE 8 n)] else [])
          else none) = some b) l ops₂ →
        ∀ e ∈ l, fromBE e.2 < n → Op.putOp e.1 (toBE 8 n) ∈ ops₂.flatten := by
      intro l ops₂ hf₂
      induction hf₂ with
      | nil =>
        intro e hel
        simp at hel
      | cons ha hrest ih =>
        intro e hel hlt
        rcases List.mem_cons.mp hel with rfl | hel'
        · by_cases h8 : e.2.length = 8
          · rw [if_pos h8, if_pos hlt] at ha
            injection ha with ha
            rw [List.flatten_cons, ← ha, List.mem_append]
            exact Or.inl (by simp)
          · rw [if_neg h8] at ha
            exact absurd ha (by simp)
        · rw [List.flatten_cons, List.mem_append]
          exact Or.inr (ih e hel' hlt)
    have hops' : ∀ e ∈ regEntries S, fromBE e.2 < n →
        Op.putOp e.1 (toBE 8 n) ∈ opss.flatten := hopsAux _ _ hf
    have hentry_mem : ∀ k v, getV S k = some v → isPfxOf fsKeyBase k = true →
        (k, v) ∈ regEntries S := by
      intro k v hkv hpfx
      rw [regEntries_eq_filter hs, List.mem_filter]
      exact ⟨mem_of_getV_eq_some hkv, hpfx⟩
    have hkey_val : ∀ k v, (k, v) ∈ regEntries S → getV S k = some v := by
      intro k v hkv
      rw [regEntries_eq_filter hs, List.mem_filter] at hkv
      exact getV_eq_some_of_mem hs hkv.1
    refine ⟨?_, ?_, ?_, ?_⟩
    · intro k v hkv hpfx hlt
      refine getV_applyOps_single_put S (hops' (k, v) (hentry_mem k v hkv hpfx) hlt) ?_
      intro op hop hk
      obtain ⟨e, hel, _, _, rfl⟩ := hops op hop
      have hk' : e.1 = k := hk
      subst hk'
      rfl
    · intro k v hkv _ hge
      have hnt : ∀ op ∈ opss.flatten, opKey op ≠ k := by
        intro op hop hk
        obtain ⟨e, hel, _, hlt, rfl⟩ := hops op hop
        have hk' : e.1 = k := hk
        subst hk'
        have hv := hkey_val e.1 e.2 hel
        rw [hkv] at hv
        injection hv with hv
        rw [← hv] at hlt
        exact hge hlt
      rw [getV_applyOps_of_notTouched _ _ _ hnt]
      exact hkv
    · intro k hpfx
      refine getV_applyOps_of_notTouched _ _ _ ?_
      intro op hop hk
      obtain ⟨e, hel, _, _, rfl⟩ := hops op hop
      have hk' : e.1 = k := hk
      subst hk'
      rw [regEntries_eq_filter hs, List.mem_filter] at hel
      rw [hel.2] at hpfx
      exact absurd hpfx (by simp)
    · intro k hnone
      refine getV_applyOps_of_notTouched _ _ _ ?_
      intro op hop hk
      obtain ⟨e, hel, _, _, rfl⟩ := hops op hop
      have hk' : e.1 = k := hk
      subst hk'
      have hv := hkey_val e.1 e.2 hel
      rw [hnone] at hv
      exact absurd hv (by simp)

/-- C7 witness: one registered script at from-block 3, bumped to 5. -/
theorem c7_update_block_number_witness :
    getV ((updateBlockNumber [(regKey ⟨[1], 0, []⟩ .lock, toBE 8 3)] 5).getD [])
        (regKey ⟨[1], 0, []⟩ .lock) = some (toBE 8 5) := by
  have h := c7_update_block_number [(regKey ⟨[1], 0, []⟩ .lock, toBE 8 3)] (by decide) 5
    ((updateBlockNumber [(regKey ⟨[1], 0, []⟩ .lock, toBE 8 3)] 5).getD []) (by decide)
  exact h.1 (regKey ⟨[1], 0, []⟩ .lock) (toBE 8 3) (by decide) (by decide) (by decide)

/-! ## Claim C4: check-point scans -/

/-- A forward scan started strictly inside a prefix range still collects
exactly the prefixed entries at or above the start key. -/
theorem fromScan_eq_filter {s : Store} (hs : SortedStore s) {p a : Bytes}
    (hpa : isPfxOf p a = true) :
    iterateFrom s a .forward (fun e => isPfxOf p e.1) =
      s.filter (fun e => (! keyLt e.1 a) && isPfxOf p e.1) := by
  rw [iterateFrom]
  have hge_p : ∀ k' : Bytes, keyLt k' a = false → keyLt k' p = false := by
    intro k' hk'
    cases hlt : keyLt k' p with
    | false => rfl
    | true =>
      have hap : keyLt a p = false := not_keyLt_of_isPfxOf hpa
      rcases keyLt_total p a with h | h | h
      · have := keyLt_trans hlt h
        rw [hk'] at this
        exact absurd this (by simp)
      · subst h
        rw [hk'] at hlt
        exact absurd hlt (by simp)
      · rw [hap] at h
        exact absurd h (by simp)
  have step1 : (s.filter (fun e => ! keyLt e.1 a)).takeWhile (fun e => isPfxOf p e.1)
      = (s.filter (fun e => ! keyLt e.1 a)).filter (fun e => isPfxOf p e.1) := by
    refine takeWhile_eq_filter_of_pairwise (hs.filter _) ?_
    intro x hx y hy hxy hqy
    by_contra hqx
    have hqx' : isPfxOf p x.1 = false := by
      cases hh : isPfxOf p x.1 with
      | false => rfl
      | true => exact absurd hh hqx
    have hgx : (! keyLt x.1 a) = true := (List.mem_filter.mp hx).2
    have hgx' : keyLt x.1 p = false := hge_p x.1 (by simpa using hgx)
    have := keyLt_of_pfx_of_not_pfx hqy hgx' hqx'
    exact absurd hxy (by simp [entryLt, keyLt_asymm this])
  rw [step1, List.filter_filter]
  apply List.filter_congr
  intro e _
  exact Bool.and_comm _ _

theorem mapM_val32 {l : List Entry} (h : ∀ e ∈ l, e.2.length = 32) :
    l.mapM (fun e => if e.2.length = 32 then some e.2 else none)
      = some (l.map (·.2)) := by
  induction l with
  | nil => rfl
  | cons e rest ih =>
    rw [List.mapM_cons, if_pos (h e (by simp)), ih fun x hx => h x (by simp [hx])]
    rfl

/-- The check-point entries of the store at or above a start index, in key
order. -/
def cpEntriesFrom (S : Store) (start : Nat) : List Entry :=
  S.filter (fun e => (! keyLt e.1 (cpKey start)) && isPfxOf [208] e.1)

/-- C4 (amended): `get_check_points(start, limit)` returns the values of the
first `limit` stored check-point entries with key ≥ `CheckPointIndex(start)`
in key order — it does **not** stop at a missing index.  In particular, when
those entries are exactly the consecutive indices `start, start+1, …` the
result is the `limit` consecutive hashes, which covers the spec's
0..100 / `get_check_points(50, 20)` scenario. -/
theorem c4_check_point_scan (S : Store) (hs : SortedStore S) (f : Nat → Bytes)
    (start limit cnt : Nat)
    (hfilter : cpEntriesFrom S start
      = (List.range cnt).map (fun i => (cpKey (start + i), f (start + i))))
    (hlimit : limit ≤ cnt) (hlen : ∀ i, i < cnt → (f (start + i)).length = 32) :
    getCheckPoints S start limit = some ((List.range limit).map fun i => f (start + i)) := by
  rw [getCheckPoints, fromScan_eq_filter hs (by rw [cpKey]; exact isPfxOf_append [208] _)]
  rw [show S.filter (fun e => (! keyLt e.1 (cpKey start)) && isPfxOf [208] e.1)
    = cpEntriesFrom S start from rfl, hfilter]
  rw [← List.map_take, List.take_range, Nat.min_eq_left hlimit]
  rw [mapM_val32 ?_]
  · rw [List.map_map]
    rfl
  · intro e he
    rw [List.mem_map] at he
    obtain ⟨i, hi, rfl⟩ := he
    rw [List.mem_range] at hi
    exact hlen i (Nat.lt_of_lt_of_le hi hlimit)

/-- C4 witness: check points 0,1,2 stored; `get_check_points(1, 2)` returns
the hashes at indices 1 and 2. -/
theorem c4_check_point_scan_witness :
    getCheckPoints (updateCheckPoints [] 0
        [List.replicate 32 0, List.replicate 32 1, List.replicate 32 2]) 1 2
      = some [List.replicate 32 1, List.replicate 32 2] := by
  have h := c4_check_point_scan
    (updateCheckPoints [] 0 [List.replicate 32 0, List.replicate 32 1, List.replicate 32 2])
    (by decide) (fun i => List.replicate 32 i) 1 2 2 (by decide) (by decide)
    (by decide)
  exact h

/-- The behaviour the spec asserts for `get_check_points`: up to `limit`
consecutive stored hashes at indices `start, start+1, …`, stopping at the
first missing index.  (Second definition, written from the spec's words, to
compare with `getCheckPoints`.) -/
def specGetCheckPoints (S : Store) (start limit : Nat) : List Bytes :=
  match limit with
  | 0 => []
  | l + 1 =>
    match getV S (cpKey start) with
    | none => []
    | some v => v :: specGetCheckPoints S (start + 1) l

/-- C4 counterexample: with check points stored at indices 0 and 2 only
(written through `update_check_points`), `get_check_points(0, 2)` returns
both hashes instead of stopping at the missing index 1, contradicting the
claim. -/
theorem c4_counterexample :
    getCheckPoints (updateCheckPoints (updateCheckPoints [] 0 [List.replicate 32 1])
        2 [List.replicate 32 2]) 0 2
      = some [List.replicate 32 1, List.replicate 32 2] ∧
    specGetCheckPoints (updateCheckPoints (updateCheckPoints [] 0 [List.replicate 32 1])
        2 [List.replicate 32 2]) 0 2
      = [List.replicate 32 1] ∧
    getCheckPoints (updateCheckPoints (updateCheckPoints [] 0 [List.replicate 32 1])
        2 [List.replicate 32 2]) 0 2
      ≠ some (specGetCheckPoints (updateCheckPoints (updateCheckPoints [] 0
        [List.replicate 32 1]) 2 [List.replicate 32 2]) 0 2) := by
  refine ⟨by decide, by decide, by decide⟩

/-! ## Claim C3: filter-set changes and the matched-block ledger -/

/-- `Storage::add_matched_blocks` (asserts a non-empty list). -/
def addMatchedBlocks (S : Store) (start cnt : Nat) (blocks : List (Bytes × Bool)) :
    Option Store :=
  if blocks.isEmpty then none
  else some (putV S (mbKeyBase ++ toBE 8 start)
    (toLE 8 cnt ++ (blocks.map fun p => p.1 ++ [if p.2 then 1 else 0]).flatten))

theorem getV_applyOps_dels (S : Store) (ks : List Bytes) (k : Bytes) :
    getV (applyOps S (ks.map Op.delOp)) k = if k ∈ ks then none else getV S k := by
  induction ks generalizing S with
  | nil => simp
  | cons a ks ih =>
    rw [List.map_cons, applyOps_cons, ih]
    by_cases hk : k ∈ ks
    · simp [hk]
    · by_cases hka : k = a
      · subst hka
        simp [hk, applyOp, getV_delV_self]
      · simp [hk, hka, applyOp, getV_delV_ne _ hka]

/-- After `clear_matched_blocks`, no key with the `MATCHED_BLOCKS` prefix is
present. -/
theorem clearMatchedBlocks_clears {S : Store} (hs : SortedStore S) :
    ∀ k, isPfxOf mbKeyBase k = true → getV (clearMatchedBlocks S) k = none := by
  intro k hk
  rw [clearMatchedBlocks, prefixScan_eq_filter hs, show (S.filter
    (fun e => isPfxOf mbKeyBase e.1)).map (fun e => Op.delOp e.1)
    = ((S.filter (fun e => isPfxOf mbKeyBase e.1)).map (·.1)).map Op.delOp from by
      rw [List.map_map]; rfl]
  rw [getV_applyOps_dels]
  by_cases hmem : k ∈ (S.filter (fun e => isPfxOf mbKeyBase e.1)).map (·.1)
  · rw [if_pos hmem]
  · rw [if_neg hmem]
    cases hv : getV S k with
    | none => rfl
    | some v =>
      exfalso
      apply hmem
      rw [List.mem_map]
      exact ⟨(k, v), List.mem_filter.mpr ⟨mem_of_getV_eq_some hv, hk⟩, rfl⟩

/-- The key-space heads `filter_block` can touch (tx bodies, cell index,
tx history, header, number→hash). -/
def fbHead (op : Op) : Prop :=
  (opKey op).head? ∈ ([some 0, some 32, some 64, some 96, some 128,
    some 160, some 192] : List (Option Nat))

/-- The batch only grows along the fold, by appends. -/
theorem condAppend_ops_mem {c : Prop} [Decidable c] {l : List Op} {acc : FBAcc} :
    ∀ op ∈ (condAppend c l acc).ops, op ∈ acc.ops ∨ op ∈ l := by
  intro op hop
  rw [condAppend] at hop
  split at hop
  · rcases List.mem_append.mp hop with h | h
    · exact Or.inl h
    · exact Or.inr h
  · exact Or.inl hop

theorem inputOps_head {t : ScriptType} {s : Script} {b txi ioi gb gt pidx : Nat}
    {tx : Transaction} :
    ∀ op ∈ inputOps t s b txi ioi gb gt pidx tx, fbHead op := by
  intro op hop
  rw [inputOps] at hop
  simp only [List.mem_cons, List.not_mem_nil, or_false] at hop
  rcases hop with rfl | rfl | rfl <;> rcases t <;>
    simp [fbHead, opKey, cellKey, histKey, txKey, cellPfxByte, histPfxByte]

theorem outputOps_head {t : ScriptType} {s : Script} {b txi oi : Nat}
    {tx : Transaction} :
    ∀ op ∈ outputOps t s b txi oi tx, fbHead op := by
  intro op hop
  rw [outputOps] at hop
  simp only [List.mem_cons, List.not_mem_nil, or_false] at hop
  rcases hop with rfl | rfl | rfl <;> rcases t <;>
    simp [fbHead, opKey, cellKey, histKey, txKey, cellPfxByte, histPfxByte]

theorem inputStep_mono {sset : ScriptSet} {b txi ioi : Nat} {tx : Transaction}
    {gb gt : Nat} {pout : CellOutput} {pidx : Nat} {acc : FBAcc} :
    ∀ op ∈ (inputStep sset b txi ioi tx gb gt pout pidx acc).ops,
      op ∈ acc.ops ∨ fbHead op := by
  intro op hop
  rw [inputStep] at hop
  cases hto : pout.typ with
  | none =>
    rw [hto] at hop
    rcases condAppend_ops_mem op hop with h | h
    · exact Or.inl h
    · exact Or.inr (inputOps_head op h)
  | some ts =>
    rw [hto] at hop
    rcases condAppend_ops_mem op hop with h | h
    · rcases condAppend_ops_mem op h with h' | h'
      · exact Or.inl h'
      · exact Or.inr (inputOps_head op h')
    · exact Or.inr (inputOps_head op h)

theorem inputResolve_mono {sset : ScriptSet} {b txi ioi : Nat} {tx : Transaction}
    {inp : CellInput} {r : Option (Nat × Nat × Transaction)} {acc : FBAcc} :
    ∀ op ∈ (inputResolve sset b txi ioi tx inp r acc).ops,
      op ∈ acc.ops ∨ fbHead op := by
  intro op hop
  cases r with
  | none => exact Or.inl hop
  | some g =>
    obtain ⟨gb, gt, ptx⟩ := g
    simp only [inputResolve] at hop
    cases hpo : ptx.outputs.get? inp.previousOutput.index with
    | none =>
      rw [hpo] at hop
      exact Or.inl hop
    | some pout =>
      rw [hpo] at hop
      exact inputStep_mono op hop

theorem outputStep_mono {sset : ScriptSet} {b txi oi : Nat} {tx : Transaction}
    {out : CellOutput} {acc : FBAcc} :
    ∀ op ∈ (outputStep sset b txi oi tx out acc).ops,
      op ∈ acc.ops ∨ fbHead op := by
  intro op hop
  rw [outputStep] at hop
  cases hto : out.typ with
  | none =>
    rw [hto] at hop
    rcases condAppend_ops_mem op hop with h | h
    · exact Or.inl h
    · exact Or.inr (outputOps_head op h)
  | some ts =>
    rw [hto] at hop
    rcases condAppend_ops_mem op hop with h | h
    · rcases condAppend_ops_mem op h with h' | h'
      · exact Or.inl h'
      · exact Or.inr (outputOps_head op h')
    · exact Or.inr (outputOps_head op h)

theorem fbOutputs_mono {sset : ScriptSet} {b txi : Nat} {tx : Transaction} :
    ∀ (oi : Nat) (outs : List CellOutput) (acc : FBAcc),
      ∀ op ∈ (fbOutputs sset b txi tx oi outs acc).ops, op ∈ acc.ops ∨ fbHead op := by
  intro oi outs
  induction outs generalizing oi with
  | nil =>
    intro acc op hop
    exact Or.inl hop
  | cons out rest ih =>
    intro acc op hop
    rw [fbOutputs] at hop
    rcases ih (oi + 1) _ op hop with h | h
    · exact outputStep_mono op h
    · exact Or.inr h

theorem fbInputs_mono {S : Store} {sset : ScriptSet} {m : TxsMap} {b txi : Nat}
    {tx : Transaction} :
    ∀ (ioi : Nat) (ins : List CellInput) (acc acc' : FBAcc),
      fbInputs S sset m b txi tx ioi ins acc = some acc' →
      ∀ op ∈ acc'.ops, op ∈ acc.ops ∨ fbHead op := by
  intro ioi ins
  induction ins generalizing ioi with
  | nil =>
    intro acc acc' h op hop
    rw [fbInputs] at h
    injection h with h
    subst h
    exact Or.inl hop
  | cons inp rest ih =>
    intro acc acc' h op hop
    rw [fbInputs] at h
    cases hr : resolvePrev S m b inp.previousOutput.txHash with
    | none =>
      rw [hr] at h
      exact absurd h (by simp)
    | some r =>
      rw [hr] at h
      simp only [Option.bind_eq_bind, Option.some_bind] at h
      rcases ih (ioi + 1) _ _ h op hop with h' | h'
      · exact inputResolve_mono op h'
      · exact Or.inr h'

theorem fbTxs_mono {S : Store} {sset : ScriptSet} {b : Nat} :
    ∀ (txi : Nat) (m : TxsMap) (txs : List Transaction) (acc acc' : FBAcc),
      fbTxs S sset b txi m txs acc = some acc' →
      ∀ op ∈ acc'.ops, op ∈ acc.ops ∨ fbHead op := by
  intro txi m txs
  induction txs generalizing txi m with
  | nil =>
    intro acc acc' h op hop
    rw [fbTxs] at h
    injection h with h
    subst h
    exact Or.inl hop
  | cons tx rest ih =>
    intro acc acc' h op hop
    rw [fbTxs] at h
    cases hin : fbInputs S sset m b txi tx 0 tx.inputs acc with
    | none =>
      rw [hin] at h
      exact absurd h (by simp)
    | some acc₁ =>
      rw [hin] at h
      simp only [Option.bind_eq_bind, Option.some_bind] at h
      rcases ih (txi + 1) _ _ _ h op hop with h' | h'
      · rcases fbOutputs_mono 0 tx.outputs acc₁ op h' with h'' | h''
        · exact fbInputs_mono 0 tx.inputs acc acc₁ hin op h''
        · exact Or.inr h''
      · exact Or.inr h'

/-- Every operation `filter_block` queues lands in one of the tx-body, cell,
history, header or number→hash key spaces. -/
theorem filterBlockOps_head {S : Store} {B : Block} {ops : List Op}
    (h : filterBlockOps S B = some ops) : ∀ op ∈ ops, fbHead op := by
  rw [filterBlockOps] at h
  cases hg : getFilterScripts S with
  | none =>
    rw [hg] at h
    exact absurd h (by simp)
  | some scripts =>
    rw [hg] at h
    simp only [Option.bind_eq_bind, Option.some_bind] at h
    cases ht : fbTxs S (scripts.map fun ss => (ss.script, ss.scriptType)) B.header.number
        0 [] B.transactions ⟨false, []⟩ with
    | none =>
      rw [ht] at h
      exact absurd h (by simp)
    | some acc =>
      rw [ht] at h
      simp only [Option.some_bind] at h
      intro op hop
      have hacc : ∀ op ∈ acc.ops, fbHead op := by
        intro op' hop'
        rcases fbTxs_mono 0 [] B.transactions ⟨false, []⟩ acc ht op' hop' with h' | h'
        · simp at h'
        · exact h'
      by_cases hm : acc.matched
      · rw [if_pos hm] at h
        injection h with h
        subst h
        rcases List.mem_append.mp hop with hop' | hop'
        · exact hacc op hop'
        · simp only [List.mem_cons, List.not_mem_nil, or_false] at hop'
          rcases hop' with rfl | rfl
          · simp [fbHead, opKey, blockHashKey]
          · simp [fbHead, opKey, blockNumberKey]
      · rw [if_neg hm] at h
        injection h with h
        subst h
        exact hacc op hop

/-- C3 (amended): after `update_filter_scripts` with command `All` (any
script list) or with `Partial`/`Delete` and a non-empty script list, no
`MATCHED_BLOCKS` entry remains.  (With `Partial`/`Delete` and an empty list
the call returns early and clears nothing.) -/
theorem c3_filter_change_clears_matched (S : Store) (hs : SortedStore S)
    (scripts : List ScriptStatus) (cmd : SetScriptsCommand) (S' : Store)
    (hne : cmd = SetScriptsCommand.all ∨ scripts ≠ [])
    (h : updateFilterScripts S scripts cmd = some S') :
    ∀ k, isPfxOf mbKeyBase k = true → getV S' k = none := by
  have main : ∀ (S₀ : Store) (sfg : Bool), SortedStore S₀ →
      afterScriptsCommit S₀ sfg = some S' →
      ∀ k, isPfxOf mbKeyBase k = true → getV S' k = none := by
    intro S₀ sfg hs₀ hac k hk
    rw [afterScriptsCommit] at hac
    cases hmin : updateMinByScripts S₀ with
    | none =>
      rw [hmin] at hac
      exact absurd hac (by simp)
    | some S₁ =>
      rw [hmin] at hac
      simp only [Option.bind_eq_bind, Option.some_bind] at hac
      have hs₁ : SortedStore S₁ := by
        rw [updateMinByScripts] at hmin
        cases hv : (regEntries S₀).mapM fun e =>
            if e.2.length = 8 then some (fromBE e.2) else none with
        | none =>
          rw [hv] at hmin
          exact absurd hmin (by simp)
        | some vals =>
          rw [hv] at hmin
          simp only [Option.bind_eq_bind, Option.some_bind] at hmin
          cases hmn : vals.min? with
          | none =>
            rw [hmn] at hmin
            injection hmin with hmin
            subst hmin
            exact hs₀
          | some n =>
            rw [hmn] at hmin
            injection hmin with hmin
            subst hmin
            exact putV_sorted hs₀ _ _
      have hclear := clearMatchedBlocks_clears hs₁ k hk
      cases hsfg : sfg with
      | false =>
        rw [hsfg] at hac
        simp only [if_neg Bool.false_ne_true] at hac
        injection hac with hac
        subst hac
        exact hclear
      | true =>
        rw [hsfg] at hac
        simp only [if_pos rfl] at hac
        cases hgb : getGenesisBlock (clearMatchedBlocks S₁) with
        | none =>
          rw [hgb] at hac
          exact absurd hac (by simp)
        | some gb =>
          rw [hgb] at hac
          simp only [Option.some_bind] at hac
          rw [filterBlock] at hac
          cases hfo : filterBlockOps (clearMatchedBlocks S₁) gb with
          | none =>
            rw [hfo] at hac
            exact absurd hac (by simp)
          | some ops =>
            rw [hfo] at hac
            simp only [Option.map_some'] at hac
            injection hac with hac
            subst hac
            rw [getV_applyOps_of_notTouched _ _ _ ?_]
            · exact hclear
            · intro op hop hkop
              have hh := filterBlockOps_head hfo op hop
              rw [fbHead, hkop] at hh
              obtain ⟨t, rfl⟩ := (isPfxOf_iff mbKeyBase k).mp hk
              rw [mbKeyBase, metaKey] at hh
              simp at hh
  rcases cmd with _ | _ | _
  · rw [updateFilterScripts] at h
    exact main _ _ (applyOps_sorted hs _) h
  · rw [updateFilterScripts] at h
    rcases hemp : scripts.isEmpty with _ | _
    · rw [hemp] at h
      simp only [Bool.false_eq_true, if_neg] at h
      exact main _ _ (applyOps_sorted hs _) h
    · rcases hne with hne | hne
      · exact absurd hne (by simp)
      · rw [List.isEmpty_iff] at hemp
        exact absurd hemp hne
  · rw [updateFilterScripts] at h
    rcases hemp : scripts.isEmpty with _ | _
    · rw [hemp] at h
      simp only [Bool.false_eq_true, if_neg] at h
      exact main _ _ (applyOps_sorted hs _) h
    · rcases hne with hne | hne
      · exact absurd hne (by simp)
      · rw [List.isEmpty_iff] at hemp
        exact absurd hemp hne

/-- C3 counterexample: with a matched-block entry stored,
`update_filter_scripts([], Partial)` returns early and the entry survives,
contradicting the claim's "any script list (including the empty list)". -/
theorem c3_counterexample :
    updateFilterScripts ((addMatchedBlocks [] 5 1 [(List.replicate 32 3, true)]).getD [])
        [] .upsert
      = some ((addMatchedBlocks [] 5 1 [(List.replicate 32 3, true)]).getD []) ∧
    isPfxOf mbKeyBase (mbKeyBase ++ toBE 8 5) = true ∧
    getV ((addMatchedBlocks [] 5 1 [(List.replicate 32 3, true)]).getD [])
        (mbKeyBase ++ toBE 8 5) ≠ none := by
  refine ⟨by decide, by decide, by decide⟩

/-- C3 witness: `update_filter_scripts([], All)` on the same store does
clear the matched-block entry. -/
theorem c3_filter_change_clears_matched_witness :
    getV ((updateFilterScripts ((addMatchedBlocks [] 5 1
        [(List.replicate 32 3, true)]).getD []) [] .all).getD [])
      (mbKeyBase ++ toBE 8 5) = none := by
  have h := c3_filter_change_clears_matched
    ((addMatchedBlocks [] 5 1 [(List.replicate 32 3, true)]).getD []) (by decide) [] .all
    ((updateFilterScripts ((addMatchedBlocks [] 5 1
      [(List.replicate 32 3, true)]).getD []) [] .all).getD [])
    (Or.inl rfl) (by decide)
  exact h (mbKeyBase ++ toBE 8 5) (by decide)

/-! ## Claim C8: reordering a batch -/

theorem applyOp_comm {S : Store} (hs : SortedStore S) {a b : Op}
    (h : opKey a ≠ opKey b ∨ a = b) :
    applyOp (applyOp S a) b = applyOp (applyOp S b) a := by
  rcases h with h | rfl
  · refine store_ext (applyOp_sorted (applyOp_sorted hs a) b)
      (applyOp_sorted (applyOp_sorted hs b) a) fun k => ?_
    rw [getV_applyOp, getV_applyOp, getV_applyOp, getV_applyOp]
    by_cases ha : opKey a = k
    · by_cases hb : opKey b = k
      · exact absurd (ha.trans hb.symm) h
      · rw [if_pos ha, if_neg hb, if_pos ha]
    · by_cases hb : opKey b = k
      · rw [if_neg ha, if_pos hb, if_neg ha]
      · rw [if_neg ha, if_neg hb, if_neg ha]
  · rfl

/-- Permuting a batch in which any two operations on the same key are the
same operation leaves the committed store unchanged. -/
theorem applyOps_perm {ops ops' : List Op} (hperm : ops.Perm ops') :
    ∀ S, SortedStore S →
      (∀ a ∈ ops, ∀ b ∈ ops, opKey a = opKey b → a = b) →
      applyOps S ops' = applyOps S ops := by
  induction hperm with
  | nil =>
    intro S _ _
    rfl
  | cons x p ih =>
    intro S hs hcomp
    rw [applyOps_cons, applyOps_cons]
    exact ih (applyOp S x) (applyOp_sorted hs x) fun a ha b hb =>
      hcomp a (by simp [ha]) b (by simp [hb])
  | swap x y l =>
    intro S hs hcomp
    rw [applyOps_cons, applyOps_cons, applyOps_cons, applyOps_cons]
    have hxy : opKey y ≠ opKey x ∨ y = x := by
      by_cases hk : opKey y = opKey x
      · exact Or.inr (hcomp y (by simp) x (by simp) hk)
      · exact Or.inl hk
    rw [applyOp_comm hs hxy]
  | trans p₁ p₂ ih₁ ih₂ =>
    intro S hs hcomp
    rw [ih₂ S hs fun a ha b hb hk =>
      hcomp a (p₁.mem_iff.mpr ha) b (p₁.mem_iff.mpr hb) hk]
    exact ih₁ S hs hcomp

/-- C8 (amended): a permutation of the operations `filter_block(B)` queues
commits to the same store **provided** no key is targeted by two distinct
operations.  (In general the ordering does matter — an intra-block spend
queues a put and a delete of the same cell key; see the counterexample.) -/
theorem c8_batch_perm (S : Store) (hs : SortedStore S) (B : Block) (ops ops' : List Op)
    (hops : filterBlockOps S B = some ops) (hperm : ops.Perm ops')
    (hcomp : ∀ a ∈ ops, ∀ b ∈ ops, opKey a = opKey b → a = b) :
    applyOps S ops' = applyOps S ops :=
  applyOps_perm hperm S hs hcomp

/-! Concrete data shared by the small scenarios: a registered lock script
`wsA` tracked from block 0, a transaction creating a cell for it, and a
transaction spending that cell inside the same block. -/

def wsA : Script := ⟨[1], 0, []⟩

def wStore1 : Store := putV [] (regKey wsA .lock) (toBE 8 0)

def wTx0 : Transaction := ⟨[], [⟨wsA, none⟩], List.replicate 32 11⟩

def wTx1 : Transaction := ⟨[⟨⟨List.replicate 32 11, 0⟩⟩], [], List.replicate 32 12⟩

def wB1 : Block := ⟨⟨1, List.replicate 32 21, List.replicate 168 0⟩, none, [wTx0, wTx1]⟩

/-- C8 witness: a block with a single matching output queues operations on
pairwise distinct keys, and reversing that batch commits the same store. -/
theorem c8_batch_perm_witness :
    applyOps wStore1 (((filterBlockOps wStore1 ⟨⟨1, List.replicate 32 21,
        List.replicate 168 0⟩, none, [wTx0]⟩).getD []).reverse)
      = applyOps wStore1 ((filterBlockOps wStore1 ⟨⟨1, List.replicate 32 21,
        List.replicate 168 0⟩, none, [wTx0]⟩).getD []) :=
  c8_batch_perm wStore1 (by decide)
    ⟨⟨1, List.replicate 32 21, List.replicate 168 0⟩, none, [wTx0]⟩
    ((filterBlockOps wStore1 ⟨⟨1, List.replicate 32 21,
        List.replicate 168 0⟩, none, [wTx0]⟩).getD [])
    (((filterBlockOps wStore1 ⟨⟨1, List.replicate 32 21,
        List.replicate 168 0⟩, none, [wTx0]⟩).getD []).reverse)
    (by decide) (List.reverse_perm _).symm (by decide)

/-- C8 counterexample: for the block whose second transaction spends the
first transaction's output, the batch puts and then deletes the same cell
key, so replaying it in reverse order commits a different store. -/
theorem c8_counterexample :
    ((filterBlockOps wStore1 wB1).getD []).reverse.Perm
        ((filterBlockOps wStore1 wB1).getD []) ∧
    applyOps wStore1 (((filterBlockOps wStore1 wB1).getD []).reverse)
      ≠ applyOps wStore1 ((filterBlockOps wStore1 wB1).getD []) :=
  ⟨List.reverse_perm _, by decide⟩

/-! ## Claims C10 and C6: what `rollback_to_block` touches -/

/-- The operation shapes `rollback_to_block` is allowed to queue: deletes
only on cell/tx-history keys, puts only on cell keys, `FILTER_SCRIPTS`
registry keys, or `MIN_FILTERED_NUMBER`. -/
def rbOpShape (op : Op) : Prop :=
  match op with
  | .delOp k => k.head? ∈ ([some 32, some 64, some 96, some 128] : List (Option Nat))
  | .putOp k _ => k.head? ∈ ([some 32, some 64] : List (Option Nat)) ∨
      isPfxOf fsKeyBase k = true ∨ k = minFilteredKey

/-- Within one collected entry's undo operations: deletes target cell or
history keys, puts target only cell keys. -/
def rbEntryShape (op : Op) : Prop :=
  match op with
  | .delOp k => k.head? ∈ ([some 32, some 64, some 96, some 128] : List (Option Nat))
  | .putOp k _ => k.head? ∈ ([some 32, some 64] : List (Option Nat))

theorem rbEntryShape_rbOpShape {op : Op} (h : rbEntryShape op) : rbOpShape op := by
  cases op with
  | delOp k => exact h
  | putOp k v => exact Or.inl h

theorem rollbackEntryOps_shape {S : Store} {ss : ScriptStatus} {e : Entry} {l : List Op}
    (h : rollbackEntryOps S ss e = some l) :
    ∀ op ∈ l, rbEntryShape op := by
  rw [rollbackEntryOps] at h
  split at h
  case isTrue hlen =>
    split at h
    case isTrue hio =>
      cases hg : getTransaction S e.2 with
      | none =>
        rw [hg] at h
        exact absurd h (by simp)
      | some g =>
        rw [hg] at h
        cases g with
        | none => exact absurd h (by simp)
        | some trip =>
          obtain ⟨gb0, gt0, tx⟩ := trip
          simp only at h
          cases hi : tx.inputs.get? (fromBE ((e.1.drop
              ((histPfxByte ss.scriptType :: rawScript ss.script).length + 12)).take 4)) with
          | none =>
            rw [hi] at h
            exact absurd h (by simp [rollbackInputOps])
          | some inp =>
            rw [hi] at h
            simp only [rollbackInputOps] at h
            cases hg2 : getTransaction S inp.previousOutput.txHash with
            | none =>
              rw [hg2] at h
              exact absurd h (by simp)
            | some g2 =>
              rw [hg2] at h
              cases g2 with
              | none =>
                injection h with h
                subst h
                intro op hop
                simp only [List.mem_cons, List.not_mem_nil, or_false] at hop
                subst hop
                rcases ss.scriptType <;>
                  simp [rbEntryShape, histKey, histPfxByte]
              | some trip2 =>
                obtain ⟨gb, gt, ptx⟩ := trip2
                simp only at h
                injection h with h
                subst h
                intro op hop
                simp only [List.mem_cons, List.not_mem_nil, or_false] at hop
                rcases hop with rfl | rfl <;> rcases ss.scriptType <;>
                  simp [rbEntryShape, cellKey, histKey, cellPfxByte, histPfxByte]
    case isFalse hio =>
      injection h with h
      subst h
      intro op hop
      simp only [List.mem_cons, List.not_mem_nil, or_false] at hop
      rcases hop with rfl | rfl <;> rcases ss.scriptType <;>
        simp [rbEntryShape, cellKey, histKey, cellPfxByte, histPfxByte]
  case isFalse hlen => exact absurd h (by simp)

theorem rollbackScriptOps_shape {S : Store} {toN : Nat} {ss : ScriptStatus} {l : List Op}
    (h : rollbackScriptOps S toN ss = some l) :
    ∀ op ∈ l, rbEntryShape op ∨
      op = Op.putOp (regKey ss.script ss.scriptType) (toBE 8 toN) := by
  rw [rollbackScriptOps] at h
  split at h
  case isTrue hto =>
    cases hm : (rollbackItems S toN ss).mapM (rollbackEntryOps S ss) with
    | none =>
      rw [hm] at h
      exact absurd h (by simp)
    | some opss =>
      rw [hm] at h
      simp only [Option.map_some'] at h
      injection h with h
      subst h
      intro op hop
      rcases List.mem_append.mp hop with hop' | hop'
      · have hf := mapM_option_forall₂ hm
        obtain ⟨e, _, ops, hP, hmem⟩ := forall₂_flatten_mem hf hop'
        exact Or.inl (rollbackEntryOps_shape hP op hmem)
      · simp only [List.mem_cons, List.not_mem_nil, or_false] at hop'
        exact Or.inr hop'
  case isFalse hto =>
    injection h with h
    subst h
    intro op hop
    simp at hop

theorem rollbackOps_mem {S : Store} {toN : Nat} {ops : List Op}
    (h : rollbackOps S toN = some ops) :
    ∃ scripts, getFilterScripts S = some scripts ∧
      ∀ op ∈ ops,
        (∃ ss ∈ scripts, ∃ l, rollbackScriptOps S toN ss = some l ∧ op ∈ l) ∨
        op = Op.putOp minFilteredKey (toLE 8 (toN - 1)) := by
  rw [rollbackOps] at h
  cases hg : getFilterScripts S with
  | none =>
    rw [hg] at h
    exact absurd h (by simp)
  | some scripts =>
    rw [hg] at h
    simp only [Option.bind_eq_bind, Option.some_bind] at h
    cases hm : scripts.mapM (rollbackScriptOps S toN) with
    | none =>
      rw [hm] at h
      exact absurd h (by simp)
    | some opss =>
      rw [hm] at h
      simp only [Option.some_bind] at h
      cases hmn : getMinFiltered S with
      | none =>
        rw [hmn] at h
        exact absurd h (by simp)
      | some mn =>
        rw [hmn] at h
        simp only [Option.some_bind, Option.pure_def] at h
        injection h with h
        subst h
        refine ⟨scripts, rfl, ?_⟩
        intro op hop
        rcases List.mem_append.mp hop with hop' | hop'
        · have hf := mapM_option_forall₂ hm
          obtain ⟨ss, hss, l, hP, hmem⟩ := forall₂_flatten_mem hf hop'
          exact Or.inl ⟨ss, hss, l, hP, hmem⟩
        · split at hop'
          · simp only [List.mem_cons, List.not_mem_nil, or_false] at hop'
            exact Or.inr hop'
          · simp at hop'

/-- Every operation `rollback_to_block` queues has one of the allowed
shapes. -/
theorem rollbackOps_shape {S : Store} {toN : Nat} {ops : List Op}
    (h : rollbackOps S toN = some ops) : ∀ op ∈ ops, rbOpShape op := by
  obtain ⟨scripts, _, hmem⟩ := rollbackOps_mem h
  intro op hop
  rcases hmem op hop with ⟨ss, _, l, hP, hmem'⟩ | rfl
  · rcases rollbackScriptOps_shape hP op hmem' with hsh | rfl
    · exact rbEntryShape_rbOpShape hsh
    · exact Or.inr (Or.inl (by rw [regKey, List.append_assoc]; exact isPfxOf_append _ _))
  · exact Or.inr (Or.inr rfl)

theorem fsKeyBase_not_mb {k : Bytes} (h : isPfxOf fsKeyBase k = true) :
    isPfxOf mbKeyBase k = false := by
  obtain ⟨t, rfl⟩ := (isPfxOf_iff _ _).mp h
  cases hm : isPfxOf mbKeyBase (fsKeyBase ++ t) with
  | false => rfl
  | true =>
    obtain ⟨t', ht'⟩ := (isPfxOf_iff _ _).mp hm
    have hlen : fsKeyBase.length = mbKeyBase.length := by decide
    have := List.append_inj ht'.symm hlen.symm
    exact absurd this.1 (by decide)

/-- C10: if `rollback_to_block(to)` succeeds, every delete it queues targets
a `CellLockScript`/`CellTypeScript` (prefix 32/64) or
`TxLockScript`/`TxTypeScript` (prefix 96/128) key, and every put it queues
targets a cell key (a recreated cell), a `FILTER_SCRIPTS` registry key, or
the `MIN_FILTERED_NUMBER` meta key; consequently transaction bodies
(prefix 0), headers (160), number→hash mappings (192), check-points (208)
and matched-block entries are never deleted or overwritten. -/
theorem c10_rollback_frame (S : Store) (toN : Nat) (ops : List Op)
    (h : rollbackOps S toN = some ops) :
    (∀ op ∈ ops, rbOpShape op) ∧
    (∀ S' k, rollbackToBlock S toN = some S' →
      (k.head? ∈ ([some 0, some 160, some 192, some 208] : List (Option Nat)) ∨
        isPfxOf mbKeyBase k = true) →
      getV S' k = getV S k) := by
  refine ⟨rollbackOps_shape h, ?_⟩
  intro S' k hS' hk
  rw [rollbackToBlock, h] at hS'
  simp only [Option.map_some'] at hS'
  injection hS' with hS'
  subst hS'
  refine getV_applyOps_of_notTouched _ _ _ ?_
  intro op hop hkop
  have hsh := rollbackOps_shape h op hop
  subst hkop
  cases op with
  | delOp k =>
    rw [rbOpShape] at hsh
    rw [show opKey (Op.delOp k) = k from rfl] at hk
    rcases hk with hk | hk
    · simp only [List.mem_cons, List.not_mem_nil, or_false] at hsh hk
      rcases hk with hk | hk | hk | hk <;> rw [hk] at hsh <;>
        rcases hsh with h₁ | h₁ | h₁ | h₁ <;> simp at h₁
    · obtain ⟨t, rfl⟩ := (isPfxOf_iff _ _).mp hk
      simp only [List.mem_cons, List.not_mem_nil, or_false] at hsh
      rcases hsh with h₁ | h₁ | h₁ | h₁ <;>
        rw [mbKeyBase, metaKey] at h₁ <;> simp at h₁
  | putOp k v =>
    rw [rbOpShape] at hsh
    rw [show opKey (Op.putOp k v) = k from rfl] at hk
    rcases hsh with hsh | hsh | hsh
    · rcases hk with hk | hk
      · simp only [List.mem_cons, List.not_mem_nil, or_false] at hsh hk
        rcases hk with hk | hk | hk | hk <;> rw [hk] at hsh <;>
          rcases hsh with h₁ | h₁ <;> simp at h₁
      · obtain ⟨t, rfl⟩ := (isPfxOf_iff _ _).mp hk
        simp only [List.mem_cons, List.not_mem_nil, or_false] at hsh
        rcases hsh with h₁ | h₁ <;>
          rw [mbKeyBase, metaKey] at h₁ <;> simp at h₁
    · rcases hk with hk | hk
      · obtain ⟨t, rfl⟩ := (isPfxOf_iff _ _).mp hsh
        simp only [List.mem_cons, List.not_mem_nil, or_false] at hk
        rcases hk with hk | hk | hk | hk <;>
          rw [fsKeyBase, metaKey] at hk <;> simp at hk
      · rw [fsKeyBase_not_mb hsh] at hk
        exact absurd hk (by simp)
    · subst hsh
      rcases hk with hk | hk
      · simp only [List.mem_cons, List.not_mem_nil, or_false] at hk
        rcases hk with hk | hk | hk | hk <;>
          rw [minFilteredKey, metaKey] at hk <;> simp at hk
      · rw [show isPfxOf mbKeyBase minFilteredKey = false from by decide] at hk
        exact absurd hk (by simp)

/-- C10 witness: a successful rollback on a store with one registered
script; the tx-body keyspace is untouched. -/
theorem c10_rollback_frame_witness :
    getV ((rollbackToBlock wStore1 0).getD []) (txKey (List.replicate 32 11))
      = getV wStore1 (txKey (List.replicate 32 11)) := by
  have h := c10_rollback_frame wStore1 0 ((rollbackOps wStore1 0).getD []) (by decide)
  exact h.2 ((rollbackToBlock wStore1 0).getD []) (txKey (List.replicate 32 11))
    (by decide) (by decide)

theorem forall₂_mem_left {α β : Type} {P : α → β → Prop} {l : List α} {l' : List β}
    (hf : List.Forall₂ P l l') : ∀ a ∈ l, ∃ b ∈ l', P a b := by
  induction hf with
  | nil =>
    intro a ha
    simp at ha
  | cons hP hrest ih =>
    intro a ha
    rcases List.mem_cons.mp ha with rfl | ha'
    · exact ⟨_, by simp, hP⟩
    · obtain ⟨b, hb, hPb⟩ := ih a ha'
      exact ⟨b, by simp [hb], hPb⟩

theorem forall₂_mem_right {α β : Type} {P : α → β → Prop} {l : List α} {l' : List β}
    (hf : List.Forall₂ P l l') : ∀ b ∈ l', ∃ a ∈ l, P a b := by
  induction hf with
  | nil =>
    intro b hb
    simp at hb
  | cons hP hrest ih =>
    intro b hb
    rcases List.mem_cons.mp hb with rfl | hb'
    · exact ⟨_, by simp, hP⟩
    · obtain ⟨a, ha, hPa⟩ := ih b hb'
      exact ⟨a, by simp [ha], hPa⟩

theorem forall₂_flatten_sub {α : Type} {f : α → Option (List Op)} {l : List α}
    {opss : List (List Op)} (hf : List.Forall₂ (fun a b => f a = some b) l opss) :
    ∀ a ∈ l, ∀ ops, f a = some ops → ∀ op ∈ ops, op ∈ opss.flatten := by
  induction hf with
  | nil =>
    intro a ha
    simp at ha
  | cons hP hrest ih =>
    intro a ha ops hops op hop
    rcases List.mem_cons.mp ha with rfl | ha'
    · rw [hP] at hops
      injection hops with hops
      rw [List.flatten_cons, List.mem_append]
      exact Or.inl (hops ▸ hop)
    · rw [List.flatten_cons, List.mem_append]
      exact Or.inr (ih a ha' ops hops op hop)

theorem sorted_val_unique {S : Store} (hs : SortedStore S) {k v v' : Bytes}
    (h₁ : (k, v) ∈ S) (h₂ : (k, v') ∈ S) : v = v' := by
  have e₁ := getV_eq_some_of_mem hs h₁
  have e₂ := getV_eq_some_of_mem hs h₂
  rw [e₁] at e₂
  injection e₂

/-- Parsing a canonically encoded registry entry recovers the script
status. -/
theorem parseRegEntry_regKey {s : Script} {t : ScriptType} {bn : Nat}
    (hwf : wfScript s = true) (hbn : bn < 256 ^ 8) :
    parseRegEntry (regKey s t, toBE 8 bn) = some ⟨s, t, bn⟩ := by
  rw [parseRegEntry]
  simp only [regKey]
  rw [List.append_assoc, List.drop_left]
  have h₁ : ((encScript s ++ [scriptTypeByte t]).take
      ((encScript s ++ [scriptTypeByte t]).length - 1)) = encScript s := by
    rw [List.length_append, List.length_cons, List.length_nil]
    rw [show (encScript s).length + (0 + 1) - 1 = (encScript s).length by omega]
    exact List.take_left _ _
  rw [h₁, decScriptExact_enc hwf]
  rw [List.getLast?_concat]
  simp only [length_toBE, if_pos rfl]
  rw [fromBE_toBE hbn]
  cases t <;> simp [scriptTypeByte]

/-- Canonical registry: every `FILTER_SCRIPTS` entry parses, its key is the
re-encoding of the parsed script and type, and its value is the BE8
from-block.  (Molecule entities keep their underlying bytes, so a parsed
entry always re-serializes to the stored key.) -/
def regWF (S : Store) : Bool :=
  (regEntries S).all fun e =>
    match parseRegEntry e with
    | none => false
    | some ss => decide (e.1 = regKey ss.script ss.scriptType) && wfScript ss.script &&
        decide (e.2 = toBE 8 ss.blockNumber) && decide (ss.blockNumber < 256 ^ 8)

/-- C6: if `rollback_to_block(to)` succeeds then, in its single committed
batch: every registered script whose stored from-block `bn` satisfies
`bn ≥ to` gets its from-block overwritten with exactly `to`; every script
with `bn < to` keeps its registry value; and `MIN_FILTERED_NUMBER` becomes
`to - 1` (saturating at 0) exactly when it was ≥ `to` before, otherwise it
is untouched. -/
theorem c6_rollback_registry_min (S : Store) (hs : SortedStore S) (toN : Nat)
    (hreg : regWF S = true) (htoN : toN < 256 ^ 8) (S' : Store)
    (h : rollbackToBlock S toN = some S') :
    (∀ s t bn, wfScript s = true → bn < 256 ^ 8 →
      getV S (regKey s t) = some (toBE 8 bn) →
      (toN ≤ bn → getV S' (regKey s t) = some (toBE 8 toN)) ∧
      (bn < toN → getV S' (regKey s t) = some (toBE 8 bn))) ∧
    (∀ mn, getMinFiltered S = some mn → toN ≤ mn →
      getMinFiltered S' = some (toN - 1)) ∧
    (∀ mn, getMinFiltered S = some mn → mn < toN →
      getMinFiltered S' = getMinFiltered S) := by
  rw [rollbackToBlock, rollbackOps] at h
  cases hg : getFilterScripts S with
  | none =>
    rw [hg] at h
    exact absurd h (by simp)
  | some scripts =>
    rw [hg] at h
    simp only [Option.bind_eq_bind, Option.some_bind] at h
    cases hm : scripts.mapM (rollbackScriptOps S toN) with
    | none =>
      rw [hm] at h
      exact absurd h (by simp)
    | some opss =>
      rw [hm] at h
      simp only [Option.some_bind] at h
      cases hmn : getMinFiltered S with
      | none =>
        rw [hmn] at h
        exact absurd h (by simp)
      | some mn =>
        rw [hmn] at h
        simp only [Option.some_bind, Option.pure_def, Option.map_some'] at h
        injection h with h
        subst h
        have hf₁ : List.Forall₂ (fun e ss => parseRegEntry e = some ss)
            (regEntries S) scripts := mapM_option_forall₂ hg
        have hf₂ : List.Forall₂ (fun ss l => rollbackScriptOps S toN ss = some l)
            scripts opss := mapM_option_forall₂ hm
        -- Any operation keyed at a canonical registry key is that script's
        -- from-block overwrite.
        have factA : ∀ s t bn, wfScript s = true → bn < 256 ^ 8 →
            getV S (regKey s t) = some (toBE 8 bn) →
            ∀ op ∈ opss.flatten ++
              (if toN ≤ mn then [Op.putOp minFilteredKey (toLE 8 (toN - 1))] else []),
              opKey op = regKey s t →
              (toN ≤ bn ∧ op = Op.putOp (regKey s t) (toBE 8 toN)) := by
          intro s t bn hwf hbn hget op hop hk
          have hmem₀ : (regKey s t, toBE 8 bn) ∈ regEntries S := by
            rw [regEntries_eq_filter hs, List.mem_filter]
            exact ⟨mem_of_getV_eq_some hget,
              by rw [regKey, List.append_assoc]; exact isPfxOf_append _ _⟩
          rcases List.mem_append.mp hop with hop' | hop'
          · obtain ⟨ss', hss', l, hP, hmem'⟩ := forall₂_flatten_mem hf₂ hop'
            rcases rollbackScriptOps_shape hP op hmem' with hsh | rfl
            · exfalso
              cases op with
              | delOp k =>
                rw [show opKey (Op.delOp k) = k from rfl] at hk
                subst hk
                rw [rbEntryShape] at hsh
                rw [regKey, List.append_assoc] at hsh
                rw [show (fsKeyBase ++ (encScript s ++ [scriptTypeByte t])).head?
                    = some 224 from rfl] at hsh
                simp at hsh
              | putOp k v =>
                rw [show opKey (Op.putOp k v) = k from rfl] at hk
                subst hk
                rw [rbEntryShape] at hsh
                rw [regKey, List.append_assoc] at hsh
                rw [show (fsKeyBase ++ (encScript s ++ [scriptTypeByte t])).head?
                    = some 224 from rfl] at hsh
                simp at hsh
            · -- the from-block overwrite of some registered script `ss'`
              obtain ⟨e', he', hPe'⟩ := forall₂_mem_right hf₁ ss' hss'
              have hw := (List.all_eq_true.mp hreg) e' he'
              rw [hPe'] at hw
              simp only [Bool.and_eq_true, decide_eq_true_eq] at hw
              obtain ⟨⟨⟨hk', hwf'⟩, hv'⟩, hbn'⟩ := hw
              rw [show opKey (Op.putOp (regKey ss'.script ss'.scriptType) (toBE 8 toN))
                  = regKey ss'.script ss'.scriptType from rfl] at hk
              have he'k : e'.1 = regKey s t := by rw [hk', hk]
              have he'₁ : e' ∈ S := by
                rw [regEntries_eq_filter hs] at he'
                exact (List.mem_filter.mp he').1
              have hveq : e'.2 = toBE 8 bn := by
                have : (e'.1, e'.2) ∈ S := he'₁
                rw [he'k] at this
                exact sorted_val_unique hs this (mem_of_getV_eq_some hget)
              -- so `e'` is our entry and `ss'` parses to `⟨s, t, bn⟩`
              have : parseRegEntry (regKey s t, toBE 8 bn) = some ss' := by
                rw [← he'k, ← hveq]
                exact hPe'
              rw [parseRegEntry_regKey hwf hbn] at this
              injection this with this
              subst this
              -- the overwrite only exists when `toN ≤ bn`
              rw [rollbackScriptOps] at hP
              split at hP
              case isTrue hto => exact ⟨hto, rfl⟩
              case isFalse hto =>
                injection hP with hP
                subst hP
                simp at hmem'
          · split at hop'
            · simp only [List.mem_cons, List.not_mem_nil, or_false] at hop'
              subst hop'
              rw [show opKey (Op.putOp minFilteredKey (toLE 8 (toN - 1)))
                  = minFilteredKey from rfl] at hk
              have : isPfxOf fsKeyBase minFilteredKey = true := by
                rw [hk, regKey, List.append_assoc]
                exact isPfxOf_append _ _
              exact absurd this (by decide)
            · simp at hop'
        refine ⟨?_, ?_, ?_⟩
        · intro s t bn hwf hbn hget
          constructor
          · intro hto
            -- the put is queued ...
            have hss : (⟨s, t, bn⟩ : ScriptStatus) ∈ scripts := by
              have hmem₀ : (regKey s t, toBE 8 bn) ∈ regEntries S := by
                rw [regEntries_eq_filter hs, List.mem_filter]
                exact ⟨mem_of_getV_eq_some hget,
                  by rw [regKey, List.append_assoc]; exact isPfxOf_append _ _⟩
              obtain ⟨ss, hssm, hP⟩ := forall₂_mem_left hf₁ _ hmem₀
              rw [parseRegEntry_regKey hwf hbn] at hP
              injection hP with hP
              rw [hP]
              exact hssm
            obtain ⟨l, hlm, hPl⟩ := forall₂_mem_left hf₂ _ hss
            have hput : Op.putOp (regKey s t) (toBE 8 toN) ∈ l := by
              rw [rollbackScriptOps] at hPl
              rw [if_pos hto] at hPl
              cases hmm : (rollbackItems S toN ⟨s, t, bn⟩).mapM
                  (rollbackEntryOps S ⟨s, t, bn⟩) with
              | none =>
                rw [hmm] at hPl
                exact absurd hPl (by simp)
              | some opss₂ =>
                rw [hmm] at hPl
                simp only [Option.map_some'] at hPl
                injection hPl with hPl
                rw [← hPl, List.mem_append]
                exact Or.inr (by simp)
            have hmemfull : Op.putOp (regKey s t) (toBE 8 toN) ∈ opss.flatten ++
                (if toN ≤ mn then [Op.putOp minFilteredKey (toLE 8 (toN - 1))] else []) := by
              rw [List.mem_append]
              exact Or.inl (forall₂_flatten_sub hf₂ _ hss l hPl _ hput)
            exact getV_applyOps_single_put S hmemfull
              fun op hop hk => (factA s t bn hwf hbn hget op hop hk).2
          · intro hlt
            rw [getV_applyOps_of_notTouched _ _ _ ?_]
            · exact hget
            · intro op hop hk
              have := (factA s t bn hwf hbn hget op hop hk).1
              omega
        · intro mn' hmn' hto
          have hee : mn = mn' := Option.some.inj hmn'
          subst hee
          have hgv : getV (applyOps S (opss.flatten ++
              (if toN ≤ mn then [Op.putOp minFilteredKey (toLE 8 (toN - 1))] else [])))
              minFilteredKey = some (toLE 8 (toN - 1)) := by
            rw [getV_applyOps, lastWrite_append, if_pos hto]
            have hl : lastWrite [Op.putOp minFilteredKey (toLE 8 (toN - 1))] minFilteredKey
                = some (Op.putOp minFilteredKey (toLE 8 (toN - 1))) := by
              rw [lastWrite, lastWrite]
              simp [opKey]
            rw [hl]
          rw [getMinFiltered, hgv]
          simp [fromLE_toLE (show toN - 1 < 256 ^ 8 by omega)]
        · intro mn' hmn' hlt
          have hee : mn = mn' := Option.some.inj hmn'
          subst hee
          have hnt : getV (applyOps S (opss.flatten ++
              (if toN ≤ mn then [Op.putOp minFilteredKey (toLE 8 (toN - 1))] else [])))
              minFilteredKey = getV S minFilteredKey := by
            refine getV_applyOps_of_notTouched _ _ _ ?_
            intro op hop hk
            rw [if_neg (by omega)] at hop
            rw [List.append_nil] at hop
            obtain ⟨ss', hss', l, hP, hmem'⟩ := forall₂_flatten_mem hf₂ hop
            rcases rollbackScriptOps_shape hP op hmem' with hsh | rfl
            · cases op with
              | delOp k =>
                rw [show opKey (Op.delOp k) = k from rfl] at hk
                subst hk
                rw [rbEntryShape] at hsh
                rw [show minFilteredKey.head? = some 224 from rfl] at hsh
                simp at hsh
              | putOp k v =>
                rw [show opKey (Op.putOp k v) = k from rfl] at hk
                subst hk
                rw [rbEntryShape] at hsh
                rw [show minFilteredKey.head? = some 224 from rfl] at hsh
                simp at hsh
            · rw [show opKey (Op.putOp (regKey ss'.script ss'.scriptType) (toBE 8 toN))
                  = regKey ss'.script ss'.scriptType from rfl] at hk
              have : isPfxOf fsKeyBase minFilteredKey = true := by
                rw [← hk, regKey, List.append_assoc]
                exact isPfxOf_append _ _
              exact absurd this (by decide)
          rw [getMinFiltered, hnt]
          show getMinFiltered S = some mn
          exact hmn

/-- C6 witness: one registered script at from-block 3; rolling back to 2
rewrites it to 2 and sets `MIN_FILTERED_NUMBER` to 1. -/
theorem c6_rollback_registry_min_witness :
    getV ((rollbackToBlock (putV [] (regKey wsA .lock) (toBE 8 3)) 2).getD [])
        (regKey wsA .lock) = some (toBE 8 2) := by
  have h := c6_rollback_registry_min (putV [] (regKey wsA .lock) (toBE 8 3)) (by decide)
    2 (by decide) (by decide)
    ((rollbackToBlock (putV [] (regKey wsA .lock) (toBE 8 3)) 2).getD []) (by decide)
  exact (h.1 wsA .lock 3 (by decide) (by decide) (by decide)).1 (by decide)

/-! ## Filter-footprint lemmas for C2 -/

theorem filter_putV_neg {q : Entry → Bool} {k v : Bytes}
    (hq : ∀ w, q (k, w) = false) :
    ∀ S : Store, (putV S k v).filter q = S.filter q := by
  intro S
  induction S with
  | nil => simp [putV, List.filter_cons, hq v]
  | cons e rest ih =>
    obtain ⟨e1, e2⟩ := e
    rw [putV]
    by_cases h₁ : keyLt k e1 = true
    · rw [if_pos h₁]
      simp [List.filter_cons, hq v]
    · rw [if_neg h₁]
      by_cases h₂ : k = e1
      · rw [if_pos h₂]
        subst h₂
        simp [List.filter_cons, hq v, hq e2]
      · rw [if_neg h₂]
        rw [List.filter_cons, List.filter_cons, ih]

theorem filter_delV_neg {q : Entry → Bool} (S : Store) {k : Bytes}
    (hq : ∀ w, q (k, w) = false) :
    (delV S k).filter q = S.filter q := by
  rw [delV, List.filter_filter]
  refine List.filter_congr fun e he => ?_
  by_cases h₁ : e.1 = k
  · have hqe : q e = false := by
      have h₂ := hq e.2
      rwa [← h₁, Prod.mk.eta] at h₂
    simp [hqe]
  · simp [h₁]

/-- A batch that never touches a key satisfying `q` leaves the
`q`-filtered contents of the store unchanged. -/
theorem filter_applyOps_neg {q : Entry → Bool} :
    ∀ (ops : List Op) (S : Store),
      (∀ op ∈ ops, ∀ w, q (opKey op, w) = false) →
      (applyOps S ops).filter q = S.filter q := by
  intro ops
  induction ops with
  | nil => intro S _; rfl
  | cons op rest ih =>
    intro S hq
    rw [applyOps_cons, ih _ fun o ho w => hq o (List.mem_cons_of_mem _ ho) w]
    cases op with
    | putOp k v => exact filter_putV_neg (fun w => hq _ (List.mem_cons_self _ _) w) S
    | delOp k => exact filter_delV_neg S (fun w => hq _ (List.mem_cons_self _ _) w)

/-- A key whose first byte is not the `Meta` tag is never a
`FILTER_SCRIPTS` key. -/
theorem fsPfx_eq_false {k : Bytes} (h : k.head? ≠ some 224) :
    isPfxOf fsKeyBase k = false := by
  cases k with
  | nil => rfl
  | cons b bs =>
    have hb : ¬((224 : Nat) = b) := by
      intro he
      exact h (by rw [← he]; rfl)
    show (decide ((224 : Nat) = b) && isPfxOf (strBytes "FILTER_SCRIPTS") bs) = false
    simp [hb]

/-- The registry read is insensitive to a batch that never touches a
`Meta`-tagged key. -/
theorem getFilterScripts_applyOps {S : Store} (hs : SortedStore S) {ops : List Op}
    (hops : ∀ op ∈ ops, (opKey op).head? ≠ some 224) :
    getFilterScripts (applyOps S ops) = getFilterScripts S := by
  rw [getFilterScripts, getFilterScripts,
    regEntries_eq_filter (applyOps_sorted hs ops),
    regEntries_eq_filter hs,
    filter_applyOps_neg ops S fun op ho w => fsPfx_eq_false (hops op ho)]

/-- Replaying the same batch a second time is a no-op: the last write on
every key is the same. -/
theorem applyOps_idem {S : Store} (hs : SortedStore S) (ops : List Op) :
    applyOps (applyOps S ops) ops = applyOps S ops := by
  refine store_ext (applyOps_sorted (applyOps_sorted hs ops) ops)
    (applyOps_sorted hs ops) fun k => ?_
  rw [getV_applyOps, getV_applyOps]
  cases hl : lastWrite ops k with
  | none => rfl
  | some op => cases op <;> rfl

/-- `get_transaction` only reads the tx-body key. -/
theorem getTransaction_congr {S S₁ : Store} {h : Bytes}
    (he : getV S₁ (txKey h) = getV S (txKey h)) :
    getTransaction S₁ h = getTransaction S h := by
  rw [getTransaction, getTransaction, he]

/-- Ops queued for a matched input avoid the tx-body key space except for
the canonical body put of the spending transaction. -/
theorem inputOps_txShape {t : ScriptType} {s : Script} {b txi ioi gb gt pidx : Nat}
    {tx : Transaction} :
    ∀ op ∈ inputOps t s b txi ioi gb gt pidx tx,
      (opKey op).head? ≠ some 0 ∨ op = Op.putOp (txKey tx.hash) (txValue b txi tx) := by
  intro op hop
  rw [inputOps] at hop
  simp only [List.mem_cons, List.not_mem_nil, or_false] at hop
  rcases hop with rfl | rfl | rfl
  · left; rcases t <;> simp [opKey, cellKey, cellPfxByte]
  · left; rcases t <;> simp [opKey, histKey, histPfxByte]
  · right; rfl

/-- Ops queued for a matched output avoid the tx-body key space except for
the canonical body put of the creating transaction. -/
theorem outputOps_txShape {t : ScriptType} {s : Script} {b txi oi : Nat}
    {tx : Transaction} :
    ∀ op ∈ outputOps t s b txi oi tx,
      (opKey op).head? ≠ some 0 ∨ op = Op.putOp (txKey tx.hash) (txValue b txi tx) := by
  intro op hop
  rw [outputOps] at hop
  simp only [List.mem_cons, List.not_mem_nil, or_false] at hop
  rcases hop with rfl | rfl | rfl
  · left; rcases t <;> simp [opKey, cellKey, cellPfxByte]
  · left; rcases t <;> simp [opKey, histKey, histPfxByte]
  · right; rfl

theorem inputStep_txShape {sset : ScriptSet} {b txi ioi : Nat} {tx : Transaction}
    {gb gt : Nat} {pout : CellOutput} {pidx : Nat} {acc : FBAcc} :
    ∀ op ∈ (inputStep sset b txi ioi tx gb gt pout pidx acc).ops,
      op ∈ acc.ops ∨ (opKey op).head? ≠ some 0 ∨
        op = Op.putOp (txKey tx.hash) (txValue b txi tx) := by
  intro op hop
  rw [inputStep] at hop
  cases hto : pout.typ with
  | none =>
    rw [hto] at hop
    rcases condAppend_ops_mem op hop with h | h
    · exact Or.inl h
    · exact Or.inr (inputOps_txShape op h)
  | some ts =>
    rw [hto] at hop
    rcases condAppend_ops_mem op hop with h | h
    · rcases condAppend_ops_mem op h with h' | h'
      · exact Or.inl h'
      · exact Or.inr (inputOps_txShape op h')
    · exact Or.inr (inputOps_txShape op h)

theorem inputResolve_txShape {sset : ScriptSet} {b txi ioi : Nat} {tx : Transaction}
    {inp : CellInput} {r : Option (Nat × Nat × Transaction)} {acc : FBAcc} :
    ∀ op ∈ (inputResolve sset b txi ioi tx inp r acc).ops,
      op ∈ acc.ops ∨ (opKey op).head? ≠ some 0 ∨
        op = Op.putOp (txKey tx.hash) (txValue b txi tx) := by
  intro op hop
  cases r with
  | none => exact Or.inl hop
  | some g =>
    obtain ⟨gb, gt, ptx⟩ := g
    simp only [inputResolve] at hop
    cases hpo : ptx.outputs.get? inp.previousOutput.index with
    | none =>
      rw [hpo] at hop
      exact Or.inl hop
    | some pout =>
      rw [hpo] at hop
      exact inputStep_txShape op hop

theorem outputStep_txShape {sset : ScriptSet} {b txi oi : Nat} {tx : Transaction}
    {out : CellOutput} {acc : FBAcc} :
    ∀ op ∈ (outputStep sset b txi oi tx out acc).ops,
      op ∈ acc.ops ∨ (opKey op).head? ≠ some 0 ∨
        op = Op.putOp (txKey tx.hash) (txValue b txi tx) := by
  intro op hop
  rw [outputStep] at hop
  cases hto : out.typ with
  | none =>
    rw [hto] at hop
    rcases condAppend_ops_mem op hop with h | h
    · exact Or.inl h
    · exact Or.inr (outputOps_txShape op h)
  | some ts =>
    rw [hto] at hop
    rcases condAppend_ops_mem op hop with h | h
    · rcases condAppend_ops_mem op h with h' | h'
      · exact Or.inl h'
      · exact Or.inr (outputOps_txShape op h')
    · exact Or.inr (outputOps_txShape op h)

theorem fbOutputs_txShape {sset : ScriptSet} {b txi : Nat} {tx : Transaction} :
    ∀ (oi : Nat) (outs : List CellOutput) (acc : FBAcc),
      ∀ op ∈ (fbOutputs sset b txi tx oi outs acc).ops,
        op ∈ acc.ops ∨ (opKey op).head? ≠ some 0 ∨
          op = Op.putOp (txKey tx.hash) (txValue b txi tx) := by
  intro oi outs
  induction outs generalizing oi with
  | nil =>
    intro acc op hop
    exact Or.inl hop
  | cons out rest ih =>
    intro acc op hop
    rw [fbOutputs] at hop
    rcases ih (oi + 1) _ op hop with h | h
    · exact outputStep_txShape op h
    · exact Or.inr h

theorem fbInputs_txShape {S : Store} {sset : ScriptSet} {m : TxsMap} {b txi : Nat}
    {tx : Transaction} :
    ∀ (ioi : Nat) (ins : List CellInput) (acc acc' : FBAcc),
      fbInputs S sset m b txi tx ioi ins acc = some acc' →
      ∀ op ∈ acc'.ops,
        op ∈ acc.ops ∨ (opKey op).head? ≠ some 0 ∨
          op = Op.putOp (txKey tx.hash) (txValue b txi tx) := by
  intro ioi ins
  induction ins generalizing ioi with
  | nil =>
    intro acc acc' h op hop
    rw [fbInputs] at h
    injection h with h
    subst h
    exact Or.inl hop
  | cons inp rest ih =>
    intro acc acc' h op hop
    rw [fbInputs] at h
    cases hr : resolvePrev S m b inp.previousOutput.txHash with
    | none =>
      rw [hr] at h
      exact absurd h (by simp)
    | some r =>
      rw [hr] at h
      simp only [Option.bind_eq_bind, Option.some_bind] at h
      rcases ih (ioi + 1) _ _ h op hop with h' | h'
      · exact inputResolve_txShape op h'
      · exact Or.inr h'

/-- Every op queued while folding over a transaction list is outside the
tx-body key space, or is the canonical body put of the transaction at its
position in the list. -/
theorem fbTxs_txShape {S : Store} {sset : ScriptSet} {b : Nat} :
    ∀ (txs : List Transaction) (txi : Nat) (m : TxsMap) (acc acc' : FBAcc),
      fbTxs S sset b txi m txs acc = some acc' →
      ∀ op ∈ acc'.ops,
        op ∈ acc.ops ∨ (opKey op).head? ≠ some 0 ∨
          ∃ j tx', txs.get? j = some tx' ∧
            op = Op.putOp (txKey tx'.hash) (txValue b (txi + j) tx') := by
  intro txs
  induction txs with
  | nil =>
    intro txi m acc acc' h op hop
    rw [fbTxs] at h
    injection h with h
    subst h
    exact Or.inl hop
  | cons tx rest ih =>
    intro txi m acc acc' h op hop
    rw [fbTxs] at h
    cases hin : fbInputs S sset m b txi tx 0 tx.inputs acc with
    | none =>
      rw [hin] at h
      exact absurd h (by simp)
    | some acc₁ =>
      rw [hin] at h
      simp only [Option.bind_eq_bind, Option.some_bind] at h
      rcases ih (txi + 1) _ _ _ h op hop with h' | h' | h'
      · rcases fbOutputs_txShape 0 tx.outputs acc₁ op h' with h'' | h'' | h''
        · rcases fbInputs_txShape 0 tx.inputs acc acc₁ hin op h'' with h₃ | h₃ | h₃
          · exact Or.inl h₃
          · exact Or.inr (Or.inl h₃)
          · exact Or.inr (Or.inr ⟨0, tx, rfl, by simpa using h₃⟩)
        · exact Or.inr (Or.inl h'')
        · exact Or.inr (Or.inr ⟨0, tx, rfl, by simpa using h''⟩)
      · exact Or.inr (Or.inl h')
      · obtain ⟨j, tx', hj, hop'⟩ := h'
        refine Or.inr (Or.inr ⟨j + 1, tx', by simpa using hj, ?_⟩)
        rw [hop']
        have : txi + 1 + j = txi + (j + 1) := by omega
        rw [this]

/-- Every op `filter_block` queues is outside the tx-body key space or the
canonical body put of one of the block's transactions. -/
theorem filterBlockOps_txShape {S : Store} {B : Block} {ops : List Op}
    (h : filterBlockOps S B = some ops) :
    ∀ op ∈ ops,
      (opKey op).head? ≠ some 0 ∨
        ∃ j tx', B.transactions.get? j = some tx' ∧
          op = Op.putOp (txKey tx'.hash) (txValue B.header.number j tx') := by
  rw [filterBlockOps] at h
  cases hg : getFilterScripts S with
  | none =>
    rw [hg] at h
    exact absurd h (by simp)
  | some scripts =>
    rw [hg] at h
    simp only [Option.bind_eq_bind, Option.some_bind] at h
    cases ht : fbTxs S (scripts.map fun ss => (ss.script, ss.scriptType)) B.header.number
        0 [] B.transactions ⟨false, []⟩ with
    | none =>
      rw [ht] at h
      exact absurd h (by simp)
    | some acc =>
      rw [ht] at h
      simp only [Option.some_bind] at h
      intro op hop
      have hbase : ∀ o ∈ acc.ops,
          (opKey o).head? ≠ some 0 ∨
            ∃ j tx', B.transactions.get? j = some tx' ∧
              o = Op.putOp (txKey tx'.hash) (txValue B.header.number j tx') := by
        intro o ho
        rcases fbTxs_txShape B.transactions 0 [] ⟨false, []⟩ acc ht o ho with h₁ | h₁ | h₁
        · exact absurd h₁ (List.not_mem_nil o)
        · exact Or.inl h₁
        · obtain ⟨j, tx', hj, ho'⟩ := h₁
          exact Or.inr ⟨j, tx', hj, by simpa using ho'⟩
      split at h
      · injection h with h
        subst h
        rcases List.mem_append.mp hop with hop' | hop'
        · exact hbase op hop'
        · simp only [List.mem_cons, List.not_mem_nil, or_false] at hop'
          rcases hop' with rfl | rfl
          · left; simp [opKey, blockHashKey]
          · left; simp [opKey, blockNumberKey]
      · injection h with h
        subst h
        exact hbase op hop

/-- If no transaction of the block has hash `h`, the batch leaves the body
key of `h` untouched. -/
theorem getV_txKey_untouched {S : Store} {B : Block} {ops : List Op}
    (hops : filterBlockOps S B = some ops) {h : Bytes}
    (hno : ∀ tx' ∈ B.transactions, tx'.hash ≠ h) :
    getV (applyOps S ops) (txKey h) = getV S (txKey h) := by
  refine getV_applyOps_of_notTouched _ _ _ fun op hop hk => ?_
  rcases filterBlockOps_txShape hops op hop with h₁ | ⟨j, tx', hj, rfl⟩
  · exact h₁ (by rw [hk]; rfl)
  · have hh : tx'.hash = h := by
      rw [show opKey (Op.putOp (txKey tx'.hash) (txValue B.header.number j tx'))
          = txKey tx'.hash from rfl, txKey, txKey] at hk
      injection hk with h1 h2
    exact hno tx' (List.get?_mem hj) hh

/-- The body key of block transaction `j` after the batch: either untouched
or overwritten with exactly the canonical body value for index `j`. -/
theorem getV_txKey_body {S : Store} {B : Block} {ops : List Op}
    (hops : filterBlockOps S B = some ops)
    (hnd : (B.transactions.map Transaction.hash).Nodup)
    {j : Nat} {txj : Transaction} (hj : B.transactions.get? j = some txj) :
    getV (applyOps S ops) (txKey txj.hash) = getV S (txKey txj.hash) ∨
    getV (applyOps S ops) (txKey txj.hash)
      = some (txValue B.header.number j txj) := by
  rw [getV_applyOps]
  cases hl : lastWrite ops (txKey txj.hash) with
  | none => exact Or.inl rfl
  | some op =>
    obtain ⟨hmem, hk⟩ := lastWrite_mem hl
    rcases filterBlockOps_txShape hops op hmem with h₁ | ⟨j', tx', hj', rfl⟩
    · exact absurd (by rw [hk]; rfl) h₁
    · have hhash : tx'.hash = txj.hash := by
        rw [show opKey (Op.putOp (txKey tx'.hash) (txValue B.header.number j' tx'))
            = txKey tx'.hash from rfl, txKey, txKey] at hk
        injection hk with h1 h2
      have hjj : j' = j := by
        have hm1 : (B.transactions.map Transaction.hash).get? j' = some txj.hash := by
          rw [List.get?_map, hj', Option.map_some', hhash]
        have hm2 : (B.transactions.map Transaction.hash).get? j = some txj.hash := by
          rw [List.get?_map, hj, Option.map_some']
        obtain ⟨hlt', _⟩ := List.get?_eq_some.mp hj'
        exact List.get?_inj (by rw [List.length_map]; exact hlt') hnd
          (hm1.trans hm2.symm)
      subst hjj
      have htx : tx' = txj := by
        rw [hj'] at hj
        injection hj
      subst htx
      exact Or.inr rfl

/-- Reading back a canonically stored body value parses to exactly the
written triple. -/
theorem getTransaction_body {S₁ : Store} {h : Bytes} {b j : Nat} {txj : Transaction}
    (hv : getV S₁ (txKey h) = some (txValue b j txj))
    (hb : b < 256 ^ 8) (hj : j < 256 ^ 4) (hwf : wfTx txj = true) :
    getTransaction S₁ h = some (some (b, j, txj)) := by
  rw [getTransaction, hv]
  have hlen : 12 ≤ (txValue b j txj).length := by
    rw [txValue]
    simp only [List.length_append, length_toBE]
    omega
  show (if 12 ≤ (txValue b j txj).length then
      Option.map (fun t => some (fromBE ((txValue b j txj).take 8),
        fromBE (((txValue b j txj).drop 8).take 4), t))
        (decTxExact ((txValue b j txj).drop 12))
    else none) = some (some (b, j, txj))
  rw [if_pos hlen]
  have h3 : (txValue b j txj).drop 12 = encTx txj := by
    rw [txValue]
    exact List.drop_left' (by simp)
  have h1 : (txValue b j txj).take 8 = toBE 8 b := by
    rw [txValue, List.append_assoc]
    exact List.take_left' (length_toBE 8 b)
  have h2 : ((txValue b j txj).drop 8).take 4 = toBE 4 j := by
    rw [txValue, List.append_assoc, List.drop_left' (length_toBE 8 b)]
    exact List.take_left' (length_toBE 4 j)
  rw [h3, decTxExact_enc hwf, h1, h2, fromBE_toBE hb, fromBE_toBE hj]
  rfl

/-- The resolution of an input is unchanged when the stored body lookup is
unchanged. -/
theorem resolvePrev_congr {S S₁ : Store} {m : TxsMap} {b : Nat} {h : Bytes}
    (he : getTransaction S₁ h = getTransaction S h) :
    resolvePrev S₁ m b h = resolvePrev S m b h := by
  rw [resolvePrev, resolvePrev, he]

/-- The resolution of an in-block reference is unchanged: on the first run
the in-block map resolves it, on a replay the freshly stored body resolves
it to the same triple. -/
theorem resolvePrev_inblock {S S₁ : Store} {m : TxsMap} {b j : Nat}
    {txj : Transaction} {h : Bytes}
    (h1 : getTransaction S h = some none)
    (h2 : getTransaction S₁ h = some none ∨
      getTransaction S₁ h = some (some (b, j, txj)))
    (hm : lookupTxs m h = some (j, txj)) :
    resolvePrev S₁ m b h = resolvePrev S m b h := by
  rw [resolvePrev, resolvePrev, h1]
  rcases h2 with h2 | h2 <;> rw [h2] <;> simp [Option.orElse, hm]

/-- `fbInputs` only reads the store through `resolvePrev`. -/
theorem fbInputs_agree {S S₁ : Store} {sset : ScriptSet} {m : TxsMap} {b txi : Nat}
    {tx : Transaction} :
    ∀ (ins : List CellInput) (ioi : Nat) (acc : FBAcc),
      (∀ inp ∈ ins, resolvePrev S₁ m b inp.previousOutput.txHash
        = resolvePrev S m b inp.previousOutput.txHash) →
      fbInputs S₁ sset m b txi tx ioi ins acc
        = fbInputs S sset m b txi tx ioi ins acc := by
  intro ins
  induction ins with
  | nil => intro ioi acc _; rfl
  | cons inp rest ih =>
    intro ioi acc hag
    rw [fbInputs, fbInputs, hag inp (List.mem_cons_self _ _)]
    cases resolvePrev S m b inp.previousOutput.txHash with
    | none => rfl
    | some r =>
      simp only [Option.bind_eq_bind, Option.some_bind]
      exact ih (ioi + 1) _ fun i hi => hag i (List.mem_cons_of_mem _ hi)

/-- Read agreement: after committing `filter_block`'s batch, the
transaction fold of a re-run resolves every input identically, provided
every input references a hash foreign to the block, or an earlier in-block
transaction whose hash had no stored body. -/
theorem fbTxs_agree {S : Store} {B : Block} {ops : List Op}
    (hops : filterBlockOps S B = some ops)
    (hnd : (B.transactions.map Transaction.hash).Nodup)
    (hwf : ∀ tx ∈ B.transactions, wfTx tx = true)
    (hb : B.header.number < 256 ^ 8)
    (hlen : B.transactions.length ≤ 256 ^ 4)
    (hin : ∀ i txc, B.transactions.get? i = some txc → ∀ inp ∈ txc.inputs,
      (∀ tx'' ∈ B.transactions, tx''.hash ≠ inp.previousOutput.txHash) ∨
      (∃ j, j < i ∧
        ((B.transactions.get? j).map Transaction.hash
          = some inp.previousOutput.txHash) ∧
        getV S (txKey inp.previousOutput.txHash) = none)) :
    ∀ (rest : List Transaction) (txi : Nat) (m : TxsMap) (acc : FBAcc),
      (∀ j, rest.get? j = B.transactions.get? (txi + j)) →
      (∀ j txj, j < txi → B.transactions.get? j = some txj →
        lookupTxs m txj.hash = some (j, txj)) →
      ∀ sset, fbTxs (applyOps S ops) sset B.header.number txi m rest acc
        = fbTxs S sset B.header.number txi m rest acc := by
  intro rest
  induction rest with
  | nil => intro txi m acc _ _ sset; rfl
  | cons tx rest' ih =>
    intro txi m acc hsuf hm sset
    have htxi : B.transactions.get? txi = some tx := by
      have h0 := hsuf 0
      simpa using h0.symm
    rw [fbTxs, fbTxs]
    have hagree : ∀ inp ∈ tx.inputs,
        resolvePrev (applyOps S ops) m B.header.number inp.previousOutput.txHash
          = resolvePrev S m B.header.number inp.previousOutput.txHash := by
      intro inp hinp
      rcases hin txi tx htxi inp hinp with hcase | ⟨j, hji, hjh, hget⟩
      · exact resolvePrev_congr
          (getTransaction_congr (getV_txKey_untouched hops hcase))
      · obtain ⟨txj, hjt, hjhash⟩ : ∃ txj, B.transactions.get? j = some txj ∧
            txj.hash = inp.previousOutput.txHash := by
          cases hq : B.transactions.get? j with
          | none =>
            rw [hq] at hjh
            exact absurd hjh (by simp)
          | some t' =>
            rw [hq] at hjh
            simp only [Option.map_some'] at hjh
            exact ⟨t', rfl, by injection hjh⟩
        have hT1 : getTransaction S inp.previousOutput.txHash = some none := by
          rw [getTransaction, hget]
        have hgv := getV_txKey_body hops hnd hjt
        rw [hjhash] at hgv
        have hT2 : getTransaction (applyOps S ops) inp.previousOutput.txHash
            = some none ∨
            getTransaction (applyOps S ops) inp.previousOutput.txHash
            = some (some (B.header.number, j, txj)) := by
          rcases hgv with hgv | hgv
          · left
            rw [getTransaction, hgv, hget]
          · right
            obtain ⟨hjlt, _⟩ := List.get?_eq_some.mp hjt
            exact getTransaction_body hgv hb (lt_of_lt_of_le hjlt hlen)
              (hwf txj (List.get?_mem hjt))
        have hmj : lookupTxs m inp.previousOutput.txHash = some (j, txj) := by
          rw [← hjhash]
          exact hm j txj hji hjt
        exact resolvePrev_inblock hT1 hT2 hmj
    rw [fbInputs_agree tx.inputs 0 acc hagree]
    cases hfi : fbInputs S sset m B.header.number txi tx 0 tx.inputs acc with
    | none => rfl
    | some acc₁ =>
      simp only [Option.bind_eq_bind, Option.some_bind]
      refine ih (txi + 1) _ _ (fun j => ?_) (fun j txj hjlt hjt => ?_) sset
      · rw [show txi + 1 + j = txi + (j + 1) from by omega]
        exact hsuf (j + 1)
      · by_cases hje : j = txi
        · subst hje
          have htj : txj = tx := by
            rw [htxi] at hjt
            injection hjt with hv
            exact hv.symm
          subst htj
          rw [lookupTxs, if_pos rfl]
        · have hjlt' : j < txi := by omega
          have hneq : ¬((tx.hash, (txi, tx)).1 = txj.hash) := by
            intro he
            have hm1 : (B.transactions.map Transaction.hash).get? txi
                = some tx.hash := by
              rw [List.get?_map, htxi, Option.map_some']
            have hm2 : (B.transactions.map Transaction.hash).get? j
                = some tx.hash := by
              rw [List.get?_map, hjt, Option.map_some', ← he]
            obtain ⟨hlt'', _⟩ := List.get?_eq_some.mp htxi
            have := List.get?_inj (by rw [List.length_map]; exact hlt'') hnd
              (hm1.trans hm2.symm)
            omega
          rw [lookupTxs, if_neg hneq]
          exact hm j txj hjlt' hjt

/-- Committing `filter_block`'s batch does not change what a re-run of
`filter_block` would queue. -/
theorem filterBlockOps_agree {S : Store} (hs : SortedStore S) {B : Block} {ops : List Op}
    (hops : filterBlockOps S B = some ops)
    (hnd : (B.transactions.map Transaction.hash).Nodup)
    (hwf : ∀ tx ∈ B.transactions, wfTx tx = true)
    (hb : B.header.number < 256 ^ 8)
    (hlen : B.transactions.length ≤ 256 ^ 4)
    (hin : ∀ i txc, B.transactions.get? i = some txc → ∀ inp ∈ txc.inputs,
      (∀ tx'' ∈ B.transactions, tx''.hash ≠ inp.previousOutput.txHash) ∨
      (∃ j, j < i ∧
        ((B.transactions.get? j).map Transaction.hash
          = some inp.previousOutput.txHash) ∧
        getV S (txKey inp.previousOutput.txHash) = none)) :
    filterBlockOps (applyOps S ops) B = filterBlockOps S B := by
  have hheads : ∀ op ∈ ops, (opKey op).head? ≠ some 224 := by
    intro op hop
    have hfb := filterBlockOps_head hops op hop
    rw [fbHead] at hfb
    simp only [List.mem_cons, List.not_mem_nil, or_false] at hfb
    rcases hfb with h | h | h | h | h | h | h <;> rw [h] <;> simp
  rw [filterBlockOps, filterBlockOps, getFilterScripts_applyOps hs hheads]
  cases hg : getFilterScripts S with
  | none => rfl
  | some scripts =>
    simp only [Option.bind_eq_bind, Option.some_bind]
    rw [fbTxs_agree hops hnd hwf hb hlen hin B.transactions 0 [] ⟨false, []⟩
      (fun j => by simp) (fun j txj hj _ => absurd hj (Nat.not_lt_zero j))
      (scripts.map fun ss => (ss.script, ss.scriptType))]

/-- C2 (amended): `filter_block(B)` is idempotent provided every input of
every transaction in `B` references either a hash that no transaction of
`B` carries, or an earlier in-block transaction whose hash had no stored
body — in particular the claim's "spend an output created earlier in the
same block" case is idempotent.  (Without the proviso a replay differs: a
forward in-block reference is unresolved on the first run but resolves
against the freshly stored body on the second, see the counterexample.) -/
theorem c2_filter_idempotent (S : Store) (hs : SortedStore S) (B : Block)
    (hnd : (B.transactions.map Transaction.hash).Nodup)
    (hwf : ∀ tx ∈ B.transactions, wfTx tx = true)
    (hb : B.header.number < 256 ^ 8)
    (hlen : B.transactions.length ≤ 256 ^ 4)
    (hinF : ∀ i : Fin B.transactions.length,
      ∀ inp ∈ (B.transactions.get i).inputs,
      (∀ tx'' ∈ B.transactions, tx''.hash ≠ inp.previousOutput.txHash) ∨
      (∃ j, j < i.val ∧
        ((B.transactions.get? j).map Transaction.hash
          = some inp.previousOutput.txHash) ∧
        getV S (txKey inp.previousOutput.txHash) = none))
    (S₁ : Store) (h : filterBlock S B = some S₁) :
    filterBlock S₁ B = some S₁ := by
  have hin : ∀ i txc, B.transactions.get? i = some txc → ∀ inp ∈ txc.inputs,
      (∀ tx'' ∈ B.transactions, tx''.hash ≠ inp.previousOutput.txHash) ∨
      (∃ j, j < i ∧
        ((B.transactions.get? j).map Transaction.hash
          = some inp.previousOutput.txHash) ∧
        getV S (txKey inp.previousOutput.txHash) = none) := by
    intro i txc hi inp hinp
    obtain ⟨hlt, hget⟩ := List.get?_eq_some.mp hi
    exact hinF ⟨i, hlt⟩ inp (by rw [hget]; exact hinp)
  rw [filterBlock] at h
  cases hops : filterBlockOps S B with
  | none =>
    rw [hops] at h
    exact absurd h (by simp)
  | some ops =>
    rw [hops, Option.map_some'] at h
    injection h with h
    subst h
    rw [filterBlock, filterBlockOps_agree hs hops hnd hwf hb hlen hin, hops,
      Option.map_some', applyOps_idem hs ops]

/-- C2 witness: the tracked-output-then-spend block `wB1` (its second
transaction spends the first's output) is filtered idempotently. -/
theorem c2_filter_idempotent_witness :
    filterBlock ((filterBlock wStore1 wB1).getD []) wB1
      = some ((filterBlock wStore1 wB1).getD []) := by
  exact c2_filter_idempotent wStore1 (by decide) wB1 (by decide) (by decide)
    (by decide) (by decide) (by decide) _ (by decide)

/-- A transaction spending an output that only a LATER transaction of the
same block creates. -/
def wTxF : Transaction := ⟨[⟨⟨List.replicate 32 13, 0⟩⟩], [], List.replicate 32 14⟩

/-- The later transaction creating the tracked output spent by `wTxF`. -/
def wTxC : Transaction := ⟨[], [⟨wsA, none⟩], List.replicate 32 13⟩

/-- A block with a forward intra-block reference. -/
def wB2 : Block := ⟨⟨2, List.replicate 32 21, List.replicate 168 0⟩, none, [wTxF, wTxC]⟩

/-- C2 counterexample: replaying `filter_block` on a block whose first
transaction spends the second's output changes the store — the first run
leaves the reference unresolved, the replay resolves it against the stored
body and deletes the tracked cell. -/
theorem c2_counterexample :
    filterBlock ((filterBlock wStore1 wB2).getD []) wB2
      ≠ filterBlock wStore1 wB2 := by decide

/-! ## Byte-surgery and order lemmas for C1 -/

theorem keyLt_nil_right (k : Bytes) : keyLt k [] = false := by
  cases k with
  | nil => rfl
  | cons a as => rfl

/-- Truncation is monotone for the byte order: `x < y` rules out
`take n y < take n x`. -/
theorem keyLt_take_mono : ∀ (n : Nat) {x y : Bytes}, keyLt x y = true →
    keyLt (y.take n) (x.take n) = false := by
  intro n
  induction n with
  | zero =>
    intro x y _
    rfl
  | succ m ih =>
    intro x y h
    cases x with
    | nil =>
      rw [List.take_nil]
      exact keyLt_nil_right _
    | cons a as =>
      cases y with
      | nil =>
        rw [keyLt_nil_right] at h
        exact absurd h (by simp)
      | cons b bs =>
        rw [keyLt_cons] at h
        rw [List.take_succ_cons, List.take_succ_cons, keyLt_cons]
        simp only [Bool.or_eq_true, Bool.and_eq_true, decide_eq_true_eq] at h
        rcases h with h | ⟨rfl, h⟩
        · have h1 : ¬(b < a) := by omega
          have h2 : ¬(b = a) := by omega
          simp [h1, h2]
        · simp [ih h]

theorem fromBE_le_of_not_keyLt {u v : Bytes} (hlen : u.length = v.length)
    (hu : ∀ x ∈ u, x < 256) (hv : ∀ x ∈ v, x < 256)
    (h : keyLt u v = false) : fromBE v ≤ fromBE u := by
  rw [keyLt_eq_decide_fromBE hlen hu hv] at h
  simp only [decide_eq_false_iff_not, not_lt] at h
  exact h

theorem keyLt_of_fromBE_lt {u v : Bytes} (hlen : u.length = v.length)
    (hu : ∀ x ∈ u, x < 256) (hv : ∀ x ∈ v, x < 256)
    (h : fromBE u < fromBE v) : keyLt u v = true := by
  rw [keyLt_eq_decide_fromBE hlen hu hv]
  simpa using h

/-- An equal-length prefix of a padded byte string is the pad itself. -/
theorem isPfxOf_eq_of_length : ∀ {p q t : Bytes}, p.length = q.length →
    isPfxOf p (q ++ t) = true → p = q := by
  intro p
  induction p with
  | nil =>
    intro q t hlen _
    cases q with
    | nil => rfl
    | cons b bs => simp at hlen
  | cons a as ih =>
    intro q t hlen hp
    cases q with
    | nil => simp at hlen
    | cons b bs =>
      rw [List.cons_append] at hp
      simp only [isPfxOf, Bool.and_eq_true, decide_eq_true_eq] at hp
      obtain ⟨rfl, hp⟩ := hp
      rw [ih (by simpa using hlen) hp]

theorem lookupTxs_none {m : TxsMap} {h : Bytes} (hne : ∀ p ∈ m, p.1 ≠ h) :
    lookupTxs m h = none := by
  induction m with
  | nil => rfl
  | cons e rest ih =>
    rw [lookupTxs, if_neg (hne e (List.mem_cons_self _ _))]
    exact ih fun p hp => hne p (List.mem_cons_of_mem _ hp)

/-- A reverse scan from `p ‖ BE8 MAX` that collects `p`-prefixed entries
with block-number field ≥ `toN` collects exactly those entries of the
store, in descending key order, provided every `p`-prefixed entry carries
a bounded tail of at least 8 bytes whose block-number field is below the
maximum. -/
theorem revScan_eq_filter {s : Store} (hs : SortedStore s) {p : Bytes} {toN : Nat}
    (h8 : ∀ e ∈ s, isPfxOf p e.1 = true →
      ∃ tail, e.1 = p ++ tail ∧ 8 ≤ tail.length ∧
        (∀ x ∈ tail.take 8, x < 256) ∧ fromBE (tail.take 8) < 256 ^ 8 - 1) :
    iterateFrom s (p ++ toBE 8 (256 ^ 8 - 1)) .reverse
        (fun e => isPfxOf p e.1 &&
          decide (toN ≤ fromBE ((e.1.drop p.length).take 8)))
      = (s.filter (fun e => isPfxOf p e.1 &&
          decide (toN ≤ fromBE ((e.1.drop p.length).take 8)))).reverse := by
  rw [iterateFrom]
  have hle : ∀ e ∈ s, (isPfxOf p e.1 &&
        decide (toN ≤ fromBE ((e.1.drop p.length).take 8))) = true →
      keyLt (p ++ toBE 8 (256 ^ 8 - 1)) e.1 = false := by
    intro e he hp
    simp only [Bool.and_eq_true, decide_eq_true_eq] at hp
    obtain ⟨tail, hkey, hlen8, hbound, hmax⟩ := h8 e he hp.1
    rw [hkey, keyLt_append_same]
    have htk : (tail.take 8).length = 8 := by
      rw [List.length_take]
      omega
    have h₁ : keyLt (tail.take 8) (toBE 8 (256 ^ 8 - 1)) = true := by
      refine keyLt_of_fromBE_lt (by simp [htk]) hbound (toBE_mem_lt _ _) ?_
      rw [fromBE_toBE (by omega)]
      exact hmax
    have htail : keyLt tail (toBE 8 (256 ^ 8 - 1)) = true := by
      have h₂ := keyLt_append_of_lt (by simp [htk]) h₁ (tail.drop 8) []
      rw [List.append_nil, List.take_append_drop] at h₂
      exact h₂
    exact keyLt_asymm htail
  have hrev : ((s.filter
      (fun e => ! keyLt (p ++ toBE 8 (256 ^ 8 - 1)) e.1)).reverse).Pairwise
      (fun a b => entryLt b a) := by
    rw [List.pairwise_reverse]
    exact hs.filter _
  have step1 := takeWhile_eq_filter_of_pairwise (l := (s.filter
      (fun e => ! keyLt (p ++ toBE 8 (256 ^ 8 - 1)) e.1)).reverse)
      (q := fun e => isPfxOf p e.1 &&
        decide (toN ≤ fromBE ((e.1.drop p.length).take 8))) hrev ?_
  · rw [step1, List.filter_reverse]
    congr 1
    rw [List.filter_filter]
    refine List.filter_congr fun e he => ?_
    cases hq : (isPfxOf p e.1 &&
        decide (toN ≤ fromBE ((e.1.drop p.length).take 8))) with
    | false => simp
    | true =>
      have h2 := hle e he hq
      norm_num at h2
      simp [hq, h2]
  · intro a ha b hb hab hqb
    have ha' := List.mem_filter.mp (List.mem_reverse.mp ha)
    have hb' := List.mem_filter.mp (List.mem_reverse.mp hb)
    rw [entryLt] at hab
    simp only [Bool.and_eq_true, decide_eq_true_eq] at hqb
    have hpa : isPfxOf p a.1 = true := by
      by_contra hq
      have hq' : isPfxOf p a.1 = false := by
        cases hh : isPfxOf p a.1 with
        | false => rfl
        | true => exact absurd hh hq
      cases hlt : keyLt a.1 p with
      | true =>
        have hpb : keyLt b.1 p = false := not_keyLt_of_isPfxOf hqb.1
        rcases keyLt_total p b.1 with h₁ | h₁ | h₁
        · have h₂ : keyLt a.1 b.1 = true := keyLt_trans hlt h₁
          rw [keyLt_asymm h₂] at hab
          exact absurd hab (by simp)
        · rw [← h₁] at hab
          rw [keyLt_asymm hab] at hlt
          exact absurd hlt (by simp)
        · rw [hpb] at h₁
          exact absurd h₁ (by simp)
      | false =>
        have hsep := keyLt_of_pfx_of_not_pfx
          (isPfxOf_append p (toBE 8 (256 ^ 8 - 1))) hlt hq'
        have hga := ha'.2
        rw [hsep] at hga
        exact absurd hga (by simp)
    obtain ⟨ta, hkeya, hlena, hbta, _⟩ := h8 a ha'.1 hpa
    obtain ⟨tb, hkeyb, hlenb, hbtb, _⟩ := h8 b hb'.1 hqb.1
    have htt : keyLt tb ta = true := by
      rw [hkeya, hkeyb, keyLt_append_same] at hab
      exact hab
    have h8mono : keyLt (ta.take 8) (tb.take 8) = false := keyLt_take_mono 8 htt
    have hmono : fromBE (tb.take 8) ≤ fromBE (ta.take 8) :=
      fromBE_le_of_not_keyLt (by rw [List.length_take, List.length_take]; omega)
        hbta hbtb h8mono
    have hfa : (a.1.drop p.length).take 8 = ta.take 8 := by
      rw [hkeya, List.drop_left]
    have hfb : (b.1.drop p.length).take 8 = tb.take 8 := by
      rw [hkeyb, List.drop_left]
    rw [hfb] at hqb
    simp only [hpa, hfa, Bool.true_and, decide_eq_true_eq]
    omega

/-! ## `filter_block` under foreign-only input references (for C1) -/

/-- Inputs that all resolve to "absent" contribute nothing. -/
theorem fbInputs_noops {S : Store} {sset : ScriptSet} {m : TxsMap} {b txi : Nat}
    {tx : Transaction} :
    ∀ (ins : List CellInput) (ioi : Nat) (acc : FBAcc),
      (∀ inp ∈ ins, resolvePrev S m b inp.previousOutput.txHash = some none) →
      fbInputs S sset m b txi tx ioi ins acc = some acc := by
  intro ins
  induction ins with
  | nil => intro ioi acc _; rfl
  | cons inp rest ih =>
    intro ioi acc hres
    rw [fbInputs, hres inp (List.mem_cons_self _ _)]
    simp only [Option.bind_eq_bind, Option.some_bind]
    exact ih (ioi + 1) _ fun i hi => hres i (List.mem_cons_of_mem _ hi)

/-- The transaction fold when no input ever resolves: only the output rules
run. -/
def fbTxsPure (sset : ScriptSet) (b : Nat) : Nat → List Transaction → FBAcc → FBAcc
  | _, [], acc => acc
  | txi, tx :: rest, acc =>
    fbTxsPure sset b (txi + 1) rest (fbOutputs sset b txi tx 0 tx.outputs acc)

/-- When every input of the block references a hash with no stored body
that no block transaction carries, the fold reduces to the pure output
fold. -/
theorem fbTxs_foreign {S : Store} {sset : ScriptSet} {b : Nat} {txs : List Transaction}
    (hforeign : ∀ tx ∈ txs, ∀ inp ∈ tx.inputs,
      getV S (txKey inp.previousOutput.txHash) = none ∧
      ∀ tx'' ∈ txs, tx''.hash ≠ inp.previousOutput.txHash) :
    ∀ (rest : List Transaction) (txi : Nat) (m : TxsMap) (acc : FBAcc),
      (∀ tx' ∈ rest, tx' ∈ txs) →
      (∀ p ∈ m, ∃ tx'' ∈ txs, p.1 = tx''.hash) →
      fbTxs S sset b txi m rest acc = some (fbTxsPure sset b txi rest acc) := by
  intro rest
  induction rest with
  | nil => intro txi m acc _ _; rfl
  | cons tx rest' ih =>
    intro txi m acc hsub hminv
    rw [fbTxs]
    have htx : tx ∈ txs := hsub tx (List.mem_cons_self _ _)
    have hres : ∀ inp ∈ tx.inputs,
        resolvePrev S m b inp.previousOutput.txHash = some none := by
      intro inp hinp
      obtain ⟨hget, hfor⟩ := hforeign tx htx inp hinp
      have hT : getTransaction S inp.previousOutput.txHash = some none := by
        rw [getTransaction, hget]
      have hlu : lookupTxs m inp.previousOutput.txHash = none := by
        refine lookupTxs_none fun p hp => ?_
        obtain ⟨tx'', htx'', hph⟩ := hminv p hp
        rw [hph]
        exact hfor tx'' htx''
      rw [resolvePrev, hT]
      simp [Option.orElse, hlu]
    rw [fbInputs_noops tx.inputs 0 acc hres]
    simp only [Option.bind_eq_bind, Option.some_bind]
    rw [fbTxsPure]
    exact ih (txi + 1) _ _ (fun t ht => hsub t (List.mem_cons_of_mem _ ht))
      (fun p hp => by
        rcases List.mem_cons.mp hp with rfl | hp'
        · exact ⟨tx, htx, rfl⟩
        · exact hminv p hp')

/-- Which output rule fired for a queued op. -/
def outMatch (sset : ScriptSet) (t : ScriptType) (s : Script) (out : CellOutput) : Prop :=
  (s, t) ∈ sset ∧ ((t = .lock ∧ out.lock = s) ∨ (t = .typ ∧ out.typ = some s))

theorem condAppend_mem_cond {c : Prop} [Decidable c] {l : List Op} {acc : FBAcc} :
    ∀ op ∈ (condAppend c l acc).ops, op ∈ acc.ops ∨ (c ∧ op ∈ l) := by
  intro op hop
  rw [condAppend] at hop
  split at hop
  case isTrue h =>
    rcases List.mem_append.mp hop with h' | h'
    · exact Or.inl h'
    · exact Or.inr ⟨h, h'⟩
  case isFalse h => exact Or.inl hop

theorem condAppend_sub {c : Prop} [Decidable c] {l : List Op} {acc : FBAcc} :
    ∀ op ∈ acc.ops, op ∈ (condAppend c l acc).ops := by
  intro op hop
  rw [condAppend]
  split
  · exact List.mem_append.mpr (Or.inl hop)
  · exact hop

theorem condAppend_mem_of {c : Prop} [Decidable c] {l : List Op} {acc : FBAcc}
    (hc : c) : ∀ op ∈ l, op ∈ (condAppend c l acc).ops := by
  intro op hop
  rw [condAppend, if_pos hc]
  exact List.mem_append.mpr (Or.inr hop)

theorem outputStep_sub {sset : ScriptSet} {b txi oi : Nat} {tx : Transaction}
    {out : CellOutput} {acc : FBAcc} :
    ∀ op ∈ acc.ops, op ∈ (outputStep sset b txi oi tx out acc).ops := by
  intro op hop
  rw [outputStep]
  cases out.typ with
  | none => exact condAppend_sub op hop
  | some ts => exact condAppend_sub op (condAppend_sub op hop)

theorem outputStep_sound {sset : ScriptSet} {b txi oi : Nat} {tx : Transaction}
    {out : CellOutput} {acc : FBAcc} :
    ∀ op ∈ (outputStep sset b txi oi tx out acc).ops,
      op ∈ acc.ops ∨ ∃ t s, outMatch sset t s out ∧ op ∈ outputOps t s b txi oi tx := by
  intro op hop
  rw [outputStep] at hop
  cases hto : out.typ with
  | none =>
    rw [hto] at hop
    rcases condAppend_mem_cond op hop with h | ⟨hc, hl⟩
    · exact Or.inl h
    · exact Or.inr ⟨.lock, out.lock, ⟨hc, Or.inl ⟨rfl, rfl⟩⟩, hl⟩
  | some ts =>
    rw [hto] at hop
    rcases condAppend_mem_cond op hop with h | ⟨hc, hl⟩
    · rcases condAppend_mem_cond op h with h' | ⟨hc', hl'⟩
      · exact Or.inl h'
      · exact Or.inr ⟨.lock, out.lock, ⟨hc', Or.inl ⟨rfl, rfl⟩⟩, hl'⟩
    · exact Or.inr ⟨.typ, ts, ⟨hc, Or.inr ⟨rfl, hto⟩⟩, hl⟩

theorem outputStep_complete {sset : ScriptSet} {b txi oi : Nat} {tx : Transaction}
    {out : CellOutput} {acc : FBAcc} {t : ScriptType} {s : Script}
    (hm : outMatch sset t s out) :
    ∀ op ∈ outputOps t s b txi oi tx, op ∈ (outputStep sset b txi oi tx out acc).ops := by
  intro op hop
  obtain ⟨hsset, hrule⟩ := hm
  rcases hrule with ⟨rfl, rfl⟩ | ⟨rfl, hto⟩
  · rw [outputStep]
    cases out.typ with
    | none => exact condAppend_mem_of hsset op hop
    | some ts => exact condAppend_sub op (condAppend_mem_of hsset op hop)
  · rw [outputStep, hto]
    exact condAppend_mem_of hsset op hop

theorem fbOutputs_sub {sset : ScriptSet} {b txi : Nat} {tx : Transaction} :
    ∀ (outs : List CellOutput) (oi : Nat) (acc : FBAcc),
      ∀ op ∈ acc.ops, op ∈ (fbOutputs sset b txi tx oi outs acc).ops := by
  intro outs
  induction outs with
  | nil => intro oi acc op hop; exact hop
  | cons out rest ih =>
    intro oi acc op hop
    rw [fbOutputs]
    exact ih (oi + 1) _ op (outputStep_sub op hop)

theorem fbOutputs_sound {sset : ScriptSet} {b txi : Nat} {tx : Transaction} :
    ∀ (outs : List CellOutput) (oi : Nat) (acc : FBAcc),
      ∀ op ∈ (fbOutputs sset b txi tx oi outs acc).ops,
        op ∈ acc.ops ∨ ∃ j out t s, outs.get? j = some out ∧ outMatch sset t s out ∧
          op ∈ outputOps t s b txi (oi + j) tx := by
  intro outs
  induction outs with
  | nil => intro oi acc op hop; exact Or.inl hop
  | cons out rest ih =>
    intro oi acc op hop
    rw [fbOutputs] at hop
    rcases ih (oi + 1) _ op hop with h | ⟨j, out', t, s, hj, hm, hops⟩
    · rcases outputStep_sound op h with h' | ⟨t, s, hm, hops⟩
      · exact Or.inl h'
      · exact Or.inr ⟨0, out, t, s, rfl, hm, by simpa using hops⟩
    · refine Or.inr ⟨j + 1, out', t, s, by simpa using hj, hm, ?_⟩
      rw [show oi + (j + 1) = oi + 1 + j from by omega]
      exact hops

theorem fbOutputs_complete {sset : ScriptSet} {b txi : Nat} {tx : Transaction} :
    ∀ (outs : List CellOutput) (oi : Nat) (acc : FBAcc) (j : Nat) (out : CellOutput)
      (t : ScriptType) (s : Script),
      outs.get? j = some out → outMatch sset t s out →
      ∀ op ∈ outputOps t s b txi (oi + j) tx,
        op ∈ (fbOutputs sset b txi tx oi outs acc).ops := by
  intro outs
  induction outs with
  | nil =>
    intro oi acc j out t s hj
    simp at hj
  | cons out0 rest ih =>
    intro oi acc j out t s hj hm op hop
    rw [fbOutputs]
    cases j with
    | zero =>
      have h0 : out0 = out := by
        injection hj
      subst h0
      rw [show oi + 0 = oi from by omega] at hop
      exact fbOutputs_sub rest (oi + 1) _ op (outputStep_complete hm op hop)
    | succ j' =>
      refine ih (oi + 1) _ j' out t s (by simpa using hj) hm op ?_
      rw [show oi + 1 + j' = oi + (j' + 1) from by omega]
      exact hop

theorem fbTxsPure_sub {sset : ScriptSet} {b : Nat} :
    ∀ (txs : List Transaction) (txi : Nat) (acc : FBAcc),
      ∀ op ∈ acc.ops, op ∈ (fbTxsPure sset b txi txs acc).ops := by
  intro txs
  induction txs with
  | nil => intro txi acc op hop; exact hop
  | cons tx rest ih =>
    intro txi acc op hop
    rw [fbTxsPure]
    exact ih (txi + 1) _ op (fbOutputs_sub tx.outputs 0 acc op hop)

theorem fbTxsPure_sound {sset : ScriptSet} {b : Nat} :
    ∀ (txs : List Transaction) (txi : Nat) (acc : FBAcc),
      ∀ op ∈ (fbTxsPure sset b txi txs acc).ops,
        op ∈ acc.ops ∨ ∃ i tx' j out t s, txs.get? i = some tx' ∧
          tx'.outputs.get? j = some out ∧ outMatch sset t s out ∧
          op ∈ outputOps t s b (txi + i) j tx' := by
  intro txs
  induction txs with
  | nil => intro txi acc op hop; exact Or.inl hop
  | cons tx rest ih =>
    intro txi acc op hop
    rw [fbTxsPure] at hop
    rcases ih (txi + 1) _ op hop with h | ⟨i, tx', j, out, t, s, hi, hj, hm, hops⟩
    · rcases fbOutputs_sound tx.outputs 0 acc op h with h' | ⟨j, out, t, s, hj, hm, hops⟩
      · exact Or.inl h'
      · exact Or.inr ⟨0, tx, j, out, t, s, rfl, hj, hm, by simpa using hops⟩
    · refine Or.inr ⟨i + 1, tx', j, out, t, s, by simpa using hi, hj, hm, ?_⟩
      rw [show txi + (i + 1) = txi + 1 + i from by omega]
      exact hops

theorem fbTxsPure_complete {sset : ScriptSet} {b : Nat} :
    ∀ (txs : List Transaction) (txi : Nat) (acc : FBAcc) (i : Nat) (tx' : Transaction)
      (j : Nat) (out : CellOutput) (t : ScriptType) (s : Script),
      txs.get? i = some tx' → tx'.outputs.get? j = some out → outMatch sset t s out →
      ∀ op ∈ outputOps t s b (txi + i) j tx',
        op ∈ (fbTxsPure sset b txi txs acc).ops := by
  intro txs
  induction txs with
  | nil =>
    intro txi acc i tx' j out t s hi
    simp at hi
  | cons tx rest ih =>
    intro txi acc i tx' j out t s hi hj hm op hop
    rw [fbTxsPure]
    cases i with
    | zero =>
      have h0 : tx = tx' := by
        injection hi
      subst h0
      rw [show txi + 0 = txi from by omega] at hop
      exact fbTxsPure_sub rest (txi + 1) _ op
        (fbOutputs_complete tx.outputs 0 acc j out t s hj hm op (by simpa using hop))
    | succ i' =>
      refine ih (txi + 1) _ i' tx' j out t s (by simpa using hi) hj hm op ?_
      rw [show txi + 1 + i' = txi + (i' + 1) from by omega]
      exact hop

/-- Under foreign-only inputs, `filter_block` queues exactly the output-rule
operations plus the header and number→hash puts. -/
theorem filterBlockOps_foreign {S : Store} {B : Block} {scripts : List ScriptStatus}
    (hg : getFilterScripts S = some scripts)
    (hforeign : ∀ tx ∈ B.transactions, ∀ inp ∈ tx.inputs,
      getV S (txKey inp.previousOutput.txHash) = none ∧
      ∀ tx'' ∈ B.transactions, tx''.hash ≠ inp.previousOutput.txHash)
    {ops : List Op} (hops : filterBlockOps S B = some ops) :
    (∀ op ∈ ops,
      ((opKey op).head? = some 160 ∨ (opKey op).head? = some 192) ∨
      ∃ i tx' j out t s, B.transactions.get? i = some tx' ∧
        tx'.outputs.get? j = some out ∧
        outMatch (scripts.map fun ss => (ss.script, ss.scriptType)) t s out ∧
        op ∈ outputOps t s B.header.number i j tx') ∧
    (∀ i tx' j out t s, B.transactions.get? i = some tx' →
      tx'.outputs.get? j = some out →
      outMatch (scripts.map fun ss => (ss.script, ss.scriptType)) t s out →
      ∀ op ∈ outputOps t s B.header.number i j tx', op ∈ ops) := by
  rw [filterBlockOps, hg] at hops
  simp only [Option.bind_eq_bind, Option.some_bind] at hops
  rw [fbTxs_foreign hforeign B.transactions 0 [] ⟨false, []⟩ (fun t ht => ht)
    (fun p hp => absurd hp (List.not_mem_nil p))] at hops
  simp only [Option.some_bind] at hops
  constructor
  · intro op hop
    have hcase : op ∈ (fbTxsPure (scripts.map fun ss => (ss.script, ss.scriptType))
        B.header.number 0 B.transactions ⟨false, []⟩).ops ∨
        ((opKey op).head? = some 160 ∨ (opKey op).head? = some 192) := by
      split at hops
      · injection hops with hops
        subst hops
        rcases List.mem_append.mp hop with h | h
        · exact Or.inl h
        · simp only [List.mem_cons, List.not_mem_nil, or_false] at h
          rcases h with rfl | rfl
          · exact Or.inr (Or.inl rfl)
          · exact Or.inr (Or.inr rfl)
      · injection hops with hops
        subst hops
        exact Or.inl hop
    rcases hcase with h | h
    · rcases fbTxsPure_sound _ 0 _ op h with h' | ⟨i, tx', j, out, t, s, hi, hj, hm, hops'⟩
      · exact absurd h' (List.not_mem_nil op)
      · exact Or.inr ⟨i, tx', j, out, t, s, hi, hj, hm, by simpa using hops'⟩
    · exact Or.inl h
  · intro i tx' j out t s hi hj hm op hop
    have hmem := fbTxsPure_complete B.transactions 0 ⟨false, []⟩ i tx' j out t s
      hi hj hm op (by simpa using hop)
    split at hops
    · injection hops with hops
      subst hops
      exact List.mem_append.mpr (Or.inl hmem)
    · injection hops with hops
      subst hops
      exact hmem

/-! ## Index-key layout (for C1) -/

/-- The 17-byte field block of a tx-history key. -/
def histTail (b i j : Nat) (io : IoType) : Bytes :=
  toBE 8 b ++ (toBE 4 i ++ (toBE 4 j ++ [ioTypeByte io]))

theorem histKey_decomp (t : ScriptType) (s : Script) (b i j : Nat) (io : IoType) :
    histKey t s b i j io = (histPfxByte t :: rawScript s) ++ histTail b i j io := by
  rw [histKey, histTail]
  simp [List.cons_append, List.append_assoc]

theorem cellKey_decomp (t : ScriptType) (s : Script) (b i j : Nat) :
    cellKey t s b i j = (cellPfxByte t :: rawScript s) ++
      (toBE 8 b ++ (toBE 4 i ++ toBE 4 j)) := by
  rw [cellKey]
  simp [List.cons_append, List.append_assoc]

@[simp] theorem histTail_length (b i j : Nat) (io : IoType) :
    (histTail b i j io).length = 17 := by
  rw [histTail]
  simp

theorem histTail_take8 (b i j : Nat) (io : IoType) :
    (histTail b i j io).take 8 = toBE 8 b := by
  rw [histTail]
  exact List.take_left' (length_toBE 8 b)

theorem histTail_drop8 (b i j : Nat) (io : IoType) :
    (histTail b i j io).drop 8 = toBE 4 i ++ (toBE 4 j ++ [ioTypeByte io]) := by
  rw [histTail]
  exact List.drop_left' (length_toBE 8 b)

theorem histTail_get16 (b i j : Nat) (io : IoType) :
    (histTail b i j io).get? 16 = some (ioTypeByte io) := by
  rw [histTail]
  rw [List.get?_append_right (by simp), length_toBE]
  rw [List.get?_append_right (by simp), length_toBE]
  rw [List.get?_append_right (by simp), length_toBE]
  rfl

/-- Two index keys that agree byte-wise, over scripts with equal raw
lengths, carry the same transaction index. -/
theorem cellKey_inj_txi {t t' : ScriptType} {s s' : Script} {b i j i' j' : Nat}
    (hlen : (rawScript s).length = (rawScript s').length)
    (hi : i < 256 ^ 4) (hi' : i' < 256 ^ 4)
    (h : cellKey t s b i j = cellKey t' s' b i' j') : i = i' := by
  rw [cellKey_decomp, cellKey_decomp] at h
  have h1 := (List.append_inj h (by simp [hlen])).2
  have h2 := (List.append_inj h1 (by simp)).2
  have h3 := (List.append_inj h2 (by simp)).1
  exact toBE_inj hi hi' h3

theorem histKey_inj_txi {t t' : ScriptType} {s s' : Script} {b i j i' j' : Nat}
    {io io' : IoType}
    (hlen : (rawScript s).length = (rawScript s').length)
    (hi : i < 256 ^ 4) (hi' : i' < 256 ^ 4)
    (h : histKey t s b i j io = histKey t' s' b i' j' io') : i = i' := by
  rw [histKey_decomp, histKey_decomp, histTail, histTail] at h
  have h1 := (List.append_inj h (by simp [hlen])).2
  have h2 := (List.append_inj h1 (by simp)).2
  have h3 := (List.append_inj h2 (by simp)).1
  exact toBE_inj hi hi' h3

theorem isPfxOf_head_eq {a : Nat} {p k : Bytes} (h : isPfxOf (a :: p) k = true) :
    k.head? = some a := by
  obtain ⟨t, rfl⟩ := (isPfxOf_iff _ _).mp h
  rfl

theorem sset_rawLen {scripts : List ScriptStatus}
    (hseplen : ∀ ss ∈ scripts, ∀ ss' ∈ scripts,
      (rawScript ss.script).length = (rawScript ss'.script).length)
    {s s' : Script} {t t' : ScriptType}
    (h1 : (s, t) ∈ scripts.map fun ss => (ss.script, ss.scriptType))
    (h2 : (s', t') ∈ scripts.map fun ss => (ss.script, ss.scriptType)) :
    (rawScript s).length = (rawScript s').length := by
  obtain ⟨ss1, hss1, he1⟩ := List.mem_map.mp h1
  obtain ⟨ss2, hss2, he2⟩ := List.mem_map.mp h2
  have e1 : ss1.script = s := congrArg Prod.fst he1
  have e2 : ss2.script = s' := congrArg Prod.fst he2
  rw [← e1, ← e2]
  exact hseplen ss1 hss1 ss2 hss2

/-- Every entry of the post-`filter_block` store lying in a registered
script's history range is one of the freshly inserted `Output` history
entries. -/
theorem mem_hist_region {S : Store} (hs : SortedStore S) {B : Block}
    {scripts : List ScriptStatus} (hg : getFilterScripts S = some scripts)
    (hforeign : ∀ tx ∈ B.transactions, ∀ inp ∈ tx.inputs,
      getV S (txKey inp.previousOutput.txHash) = none ∧
      ∀ tx'' ∈ B.transactions, tx''.hash ≠ inp.previousOutput.txHash)
    {ops : List Op} (hops : filterBlockOps S B = some ops)
    (hseplen : ∀ ss ∈ scripts, ∀ ss' ∈ scripts,
      (rawScript ss.script).length = (rawScript ss'.script).length)
    (hclean : ∀ e ∈ S, ∀ ss ∈ scripts,
      isPfxOf (histPfxByte ss.scriptType :: rawScript ss.script) e.1 = false ∧
      isPfxOf (cellPfxByte ss.scriptType :: rawScript ss.script) e.1 = false)
    {ss : ScriptStatus} (hss : ss ∈ scripts)
    {e : Entry} (he : e ∈ applyOps S ops)
    (hpfx : isPfxOf (histPfxByte ss.scriptType :: rawScript ss.script) e.1 = true) :
    ∃ i tx' j out t s, B.transactions.get? i = some tx' ∧
      tx'.outputs.get? j = some out ∧
      outMatch (scripts.map fun ss' => (ss'.script, ss'.scriptType)) t s out ∧
      e.1 = histKey t s B.header.number i j .output ∧ e.2 = tx'.hash ∧
      (histPfxByte ss.scriptType :: rawScript ss.script)
        = histPfxByte t :: rawScript s := by
  have hgv : getV (applyOps S ops) e.1 = some e.2 :=
    getV_eq_some_of_mem (applyOps_sorted hs ops) he
  rw [getV_applyOps] at hgv
  cases hlw : lastWrite ops e.1 with
  | none =>
    rw [hlw] at hgv
    have hgv' : getV S e.1 = some e.2 := hgv
    have hmem : e ∈ S := mem_of_getV_eq_some hgv'
    have := (hclean e hmem ss hss).1
    rw [hpfx] at this
    exact absurd this (by simp)
  | some op =>
    rw [hlw] at hgv
    obtain ⟨hmem, hkey⟩ := lastWrite_mem hlw
    obtain ⟨hsound, _⟩ := filterBlockOps_foreign hg hforeign hops
    have hh : e.1.head? = some (histPfxByte ss.scriptType) := isPfxOf_head_eq hpfx
    rcases hsound op hmem with hhead | ⟨i, tx', j, out, t, s, hi, hj, hm, hopm⟩
    · exfalso
      rcases hhead with hhead | hhead <;> rw [hkey, hh] at hhead <;>
        injection hhead with hhead <;> cases hst : ss.scriptType <;>
        rw [hst] at hhead <;> simp [histPfxByte] at hhead
    · rw [outputOps] at hopm
      simp only [List.mem_cons, List.not_mem_nil, or_false] at hopm
      rcases hopm with rfl | rfl | rfl
      · exfalso
        rw [show opKey (Op.putOp (cellKey t s B.header.number i j) tx'.hash)
            = cellKey t s B.header.number i j from rfl] at hkey
        have hch : (cellKey t s B.header.number i j).head? = some (cellPfxByte t) := rfl
        rw [hkey, hh] at hch
        injection hch with hch
        cases t <;> cases hst : ss.scriptType <;> rw [hst] at hch <;>
          simp [cellPfxByte, histPfxByte] at hch
      · rw [show opKey (Op.putOp (histKey t s B.header.number i j .output) tx'.hash)
            = histKey t s B.header.number i j .output from rfl] at hkey
        have hv : tx'.hash = e.2 := by
          have : some tx'.hash = some e.2 := hgv
          injection this
        have hsl : (rawScript ss.script).length = (rawScript s).length := by
          refine @sset_rawLen scripts hseplen ss.script s ss.scriptType t ?_ hm.1
          rw [List.mem_map]
          exact ⟨ss, hss, rfl⟩
        have hpeq : (histPfxByte ss.scriptType :: rawScript ss.script)
            = histPfxByte t :: rawScript s := by
          have hpfx' := hpfx
          rw [← hkey, histKey_decomp] at hpfx'
          exact isPfxOf_eq_of_length (by simp [hsl]) hpfx'
        exact ⟨i, tx', j, out, t, s, hi, hj, hm, hkey.symm, hv.symm, hpeq⟩
      · exfalso
        rw [show opKey (Op.putOp (txKey tx'.hash)
            (txValue B.header.number i tx')) = txKey tx'.hash from rfl] at hkey
        have hth : (txKey tx'.hash).head? = some 0 := rfl
        rw [hkey, hh] at hth
        injection hth with hth
        cases hst : ss.scriptType <;> rw [hst] at hth <;> simp [histPfxByte] at hth

/-- The freshly inserted cell entry is present after the commit. -/
theorem getV_created_cell {S : Store} {B : Block} {scripts : List ScriptStatus}
    (hg : getFilterScripts S = some scripts)
    (hforeign : ∀ tx ∈ B.transactions, ∀ inp ∈ tx.inputs,
      getV S (txKey inp.previousOutput.txHash) = none ∧
      ∀ tx'' ∈ B.transactions, tx''.hash ≠ inp.previousOutput.txHash)
    {ops : List Op} (hops : filterBlockOps S B = some ops)
    (hseplen : ∀ ss ∈ scripts, ∀ ss' ∈ scripts,
      (rawScript ss.script).length = (rawScript ss'.script).length)
    (hlen : B.transactions.length ≤ 256 ^ 4)
    {i : Nat} {tx' : Transaction} {j : Nat} {out : CellOutput} {t : ScriptType}
    {s : Script}
    (hi : B.transactions.get? i = some tx') (hj : tx'.outputs.get? j = some out)
    (hm : outMatch (scripts.map fun ss => (ss.script, ss.scriptType)) t s out) :
    getV (applyOps S ops) (cellKey t s B.header.number i j) = some tx'.hash := by
  obtain ⟨hsound, hcomp⟩ := filterBlockOps_foreign hg hforeign hops
  have hput : Op.putOp (cellKey t s B.header.number i j) tx'.hash ∈ ops := by
    refine hcomp i tx' j out t s hi hj hm _ ?_
    rw [outputOps]
    exact List.mem_cons_self _ _
  refine getV_applyOps_single_put S hput ?_
  intro op hop hk
  rcases hsound op hop with hhead | ⟨i₂, tx₂, j₂, out₂, t₂, s₂, hi₂, hj₂, hm₂, hopm⟩
  · exfalso
    have hch : (cellKey t s B.header.number i j).head? = some (cellPfxByte t) := rfl
    rcases hhead with hhead | hhead <;> rw [hk, hch] at hhead <;>
      injection hhead with hhead <;> cases t <;> simp [cellPfxByte] at hhead
  · rw [outputOps] at hopm
    simp only [List.mem_cons, List.not_mem_nil, or_false] at hopm
    rcases hopm with rfl | rfl | rfl
    · rw [show opKey (Op.putOp (cellKey t₂ s₂ B.header.number i₂ j₂) tx₂.hash)
        = cellKey t₂ s₂ B.header.number i₂ j₂ from rfl] at hk
      have hii : i₂ = i := by
        have hsl : (rawScript s₂).length = (rawScript s).length :=
          sset_rawLen hseplen hm₂.1 hm.1
        obtain ⟨hlt₂, _⟩ := List.get?_eq_some.mp hi₂
        obtain ⟨hlt, _⟩ := List.get?_eq_some.mp hi
        exact cellKey_inj_txi hsl (by omega) (by omega) hk
      subst hii
      have htx : tx₂ = tx' := by
        have h2 := hi₂.symm.trans hi
        injection h2
      subst htx
      rw [hk]
    · exfalso
      rw [show opKey (Op.putOp (histKey t₂ s₂ B.header.number i₂ j₂ .output) tx₂.hash)
        = histKey t₂ s₂ B.header.number i₂ j₂ .output from rfl] at hk
      have h1 : (histKey t₂ s₂ B.header.number i₂ j₂ IoType.output).head?
          = some (histPfxByte t₂) := rfl
      have h2 : (cellKey t s B.header.number i j).head? = some (cellPfxByte t) := rfl
      rw [hk, h2] at h1
      injection h1 with h1
      cases t <;> cases t₂ <;> simp [cellPfxByte, histPfxByte] at h1
    · exfalso
      rw [show opKey (Op.putOp (txKey tx₂.hash) (txValue B.header.number i₂ tx₂))
        = txKey tx₂.hash from rfl] at hk
      have h1 : (txKey tx₂.hash).head? = some 0 := rfl
      have h2 : (cellKey t s B.header.number i j).head? = some (cellPfxByte t) := rfl
      rw [hk, h2] at h1
      injection h1 with h1
      cases t <;> simp [cellPfxByte] at h1

/-- The freshly inserted `Output` history entry is present after the
commit. -/
theorem getV_created_hist {S : Store} {B : Block} {scripts : List ScriptStatus}
    (hg : getFilterScripts S = some scripts)
    (hforeign : ∀ tx ∈ B.transactions, ∀ inp ∈ tx.inputs,
      getV S (txKey inp.previousOutput.txHash) = none ∧
      ∀ tx'' ∈ B.transactions, tx''.hash ≠ inp.previousOutput.txHash)
    {ops : List Op} (hops : filterBlockOps S B = some ops)
    (hseplen : ∀ ss ∈ scripts, ∀ ss' ∈ scripts,
      (rawScript ss.script).length = (rawScript ss'.script).length)
    (hlen : B.transactions.length ≤ 256 ^ 4)
    {i : Nat} {tx' : Transaction} {j : Nat} {out : CellOutput} {t : ScriptType}
    {s : Script}
    (hi : B.transactions.get? i = some tx') (hj : tx'.outputs.get? j = some out)
    (hm : outMatch (scripts.map fun ss => (ss.script, ss.scriptType)) t s out) :
    getV (applyOps S ops) (histKey t s B.header.number i j .output)
      = some tx'.hash := by
  obtain ⟨hsound, hcomp⟩ := filterBlockOps_foreign hg hforeign hops
  have hput : Op.putOp (histKey t s B.header.number i j .output) tx'.hash ∈ ops := by
    refine hcomp i tx' j out t s hi hj hm _ ?_
    rw [outputOps]
    simp
  refine getV_applyOps_single_put S hput ?_
  intro op hop hk
  rcases hsound op hop with hhead | ⟨i₂, tx₂, j₂, out₂, t₂, s₂, hi₂, hj₂, hm₂, hopm⟩
  · exfalso
    have hch : (histKey t s B.header.number i j IoType.output).head?
        = some (histPfxByte t) := rfl
    rcases hhead with hhead | hhead <;> rw [hk, hch] at hhead <;>
      injection hhead with hhead <;> cases t <;> simp [histPfxByte] at hhead
  · rw [outputOps] at hopm
    simp only [List.mem_cons, List.not_mem_nil, or_false] at hopm
    rcases hopm with rfl | rfl | rfl
    · exfalso
      rw [show opKey (Op.putOp (cellKey t₂ s₂ B.header.number i₂ j₂) tx₂.hash)
        = cellKey t₂ s₂ B.header.number i₂ j₂ from rfl] at hk
      have h1 : (cellKey t₂ s₂ B.header.number i₂ j₂).head? = some (cellPfxByte t₂) := rfl
      have h2 : (histKey t s B.header.number i j IoType.output).head?
          = some (histPfxByte t) := rfl
      rw [hk, h2] at h1
      injection h1 with h1
      cases t <;> cases t₂ <;> simp [cellPfxByte, histPfxByte] at h1
    · rw [show opKey (Op.putOp (histKey t₂ s₂ B.header.number i₂ j₂ .output) tx₂.hash)
        = histKey t₂ s₂ B.header.number i₂ j₂ .output from rfl] at hk
      have hii : i₂ = i := by
        have hsl : (rawScript s₂).length = (rawScript s).length :=
          sset_rawLen hseplen hm₂.1 hm.1
        obtain ⟨hlt₂, _⟩ := List.get?_eq_some.mp hi₂
        obtain ⟨hlt, _⟩ := List.get?_eq_some.mp hi
        exact histKey_inj_txi hsl (by omega) (by omega) hk
      subst hii
      have htx : tx₂ = tx' := by
        have h2 := hi₂.symm.trans hi
        injection h2
      subst htx
      rw [hk]
    · exfalso
      rw [show opKey (Op.putOp (txKey tx₂.hash) (txValue B.header.number i₂ tx₂))
        = txKey tx₂.hash from rfl] at hk
      have h1 : (txKey tx₂.hash).head? = some 0 := rfl
      have h2 : (histKey t s B.header.number i j IoType.output).head?
          = some (histPfxByte t) := rfl
      rw [hk, h2] at h1
      injection h1 with h1
      cases t <;> simp [histPfxByte] at h1

theorem histPfxByte_inj {t t' : ScriptType} (h : histPfxByte t = histPfxByte t') :
    t = t' := by
  cases t <;> cases t' <;> simp [histPfxByte] at h ⊢

theorem cellKey_congr {s s' : Script} (t : ScriptType) (b i j : Nat)
    (h : rawScript s = rawScript s') : cellKey t s b i j = cellKey t s' b i j := by
  rw [cellKey, cellKey, h]

theorem histKey_congr {s s' : Script} (t : ScriptType) (b i j : Nat) (io : IoType)
    (h : rawScript s = rawScript s') : histKey t s b i j io = histKey t s' b i j io := by
  rw [histKey, histKey, h]

theorem wfTx_hash_len {tx : Transaction} (h : wfTx tx = true) :
    tx.hash.length = 32 := by
  rw [wfTx] at h
  simp only [Bool.and_eq_true, decide_eq_true_eq] at h
  exact h.1.1.2

theorem regKey_head (s : Script) (t : ScriptType) :
    (regKey s t).head? = some 224 := rfl

/-- Undoing a freshly inserted `Output` history entry deletes exactly its
cell and itself. -/
theorem rollbackEntryOps_created {S₁ : Store} {ss : ScriptStatus} {t : ScriptType}
    {s : Script} {b i j : Nat} {e : Entry}
    (hk : e.1 = histKey t s b i j .output) (hv : e.2.length = 32)
    (hps : histPfxByte ss.scriptType :: rawScript ss.script
      = histPfxByte t :: rawScript s)
    (hb : b < 256 ^ 8) (hi : i < 256 ^ 4) (hj : j < 256 ^ 4) :
    rollbackEntryOps S₁ ss e
      = some [Op.delOp (cellKey t s b i j),
              Op.delOp (histKey t s b i j .output)] := by
  have hte : ss.scriptType = t :=
    histPfxByte_inj (show histPfxByte ss.scriptType = histPfxByte t from by
      injection hps)
  have hre : rawScript ss.script = rawScript s := by
    injection hps
  have hdecomp : e.1 = (histPfxByte t :: rawScript s) ++ histTail b i j .output := by
    rw [hk, histKey_decomp]
  have hplen : (histPfxByte ss.scriptType :: rawScript ss.script).length
      = (histPfxByte t :: rawScript s).length := by
    rw [hps]
  have hklen : e.1.length = (histPfxByte t :: rawScript s).length + 17 := by
    rw [hdecomp]
    simp
  have hdropP : e.1.drop (histPfxByte ss.scriptType :: rawScript ss.script).length
      = histTail b i j .output := by
    rw [hplen, hdecomp]
    exact List.drop_left _ _
  have hbn : fromBE ((e.1.drop
      (histPfxByte ss.scriptType :: rawScript ss.script).length).take 8) = b := by
    rw [hdropP, histTail_take8, fromBE_toBE hb]
  have hdrop8 : e.1.drop ((histPfxByte ss.scriptType :: rawScript ss.script).length + 8)
      = toBE 4 i ++ (toBE 4 j ++ [ioTypeByte .output]) := by
    rw [show (histPfxByte ss.scriptType :: rawScript ss.script).length + 8
        = (histPfxByte ss.scriptType :: rawScript ss.script).length + 8 from rfl]
    rw [← List.drop_drop, hdropP, histTail_drop8]
  have htxi : fromBE ((e.1.drop
      ((histPfxByte ss.scriptType :: rawScript ss.script).length + 8)).take 4) = i := by
    rw [hdrop8, List.take_left' (length_toBE 4 i), fromBE_toBE hi]
  have hdrop12 : e.1.drop ((histPfxByte ss.scriptType :: rawScript ss.script).length + 12)
      = toBE 4 j ++ [ioTypeByte .output] := by
    rw [show (histPfxByte ss.scriptType :: rawScript ss.script).length + 12
        = (histPfxByte ss.scriptType :: rawScript ss.script).length + 8 + 4 from by
      omega]
    rw [← List.drop_drop, hdrop8, List.drop_left' (length_toBE 4 i)]
  have hci : fromBE ((e.1.drop
      ((histPfxByte ss.scriptType :: rawScript ss.script).length + 12)).take 4) = j := by
    rw [hdrop12, List.take_left' (length_toBE 4 j), fromBE_toBE hj]
  have hio : e.1.get? ((histPfxByte ss.scriptType :: rawScript ss.script).length + 16)
      = some 1 := by
    rw [hplen, hdecomp, List.get?_append_right (by simp)]
    rw [show (histPfxByte t :: rawScript s).length + 16
        - ((histPfxByte t :: rawScript s).length) = 16 from by omega]
    exact histTail_get16 b i j .output
  simp only [rollbackEntryOps]
  rw [if_pos ⟨by omega, hv⟩, hbn, htxi, hci]
  rw [if_neg (by rw [hio]; simp)]
  rw [hte, cellKey_congr t b i j hre, histKey_congr t b i j .output hre]

/-- C1 (amended): for a single appended block whose inputs reference
nothing stored and nothing in-block, over a store with no prior index
entries in the registered scripts' ranges, `rollback_to_block(B.number)`
after `filter_block(B)` exactly restores the cell (`CellLockScript` /
`CellTypeScript`) and tx-history (`TxLockScript` / `TxTypeScript`) key
spaces.  The original full-store round-trip fails: tx bodies, the stored
header, the number→hash index, the rewritten registry from-blocks and
`MIN_FILTERED_NUMBER` all survive the rollback (see the counterexample). -/
theorem c1_apply_rollback (S : Store) (hs : SortedStore S) (B : Block)
    (scripts : List ScriptStatus) (hg : getFilterScripts S = some scripts)
    (hwf : ∀ tx ∈ B.transactions, wfTx tx = true)
    (hb : B.header.number < 256 ^ 8 - 1)
    (hlen : B.transactions.length ≤ 256 ^ 4)
    (hbn : ∀ ss ∈ scripts, B.header.number ≤ ss.blockNumber)
    (hseplen : ∀ ss ∈ scripts, ∀ ss' ∈ scripts,
      (rawScript ss.script).length = (rawScript ss'.script).length)
    (hclean : ∀ e ∈ S, ∀ ss ∈ scripts,
      isPfxOf (histPfxByte ss.scriptType :: rawScript ss.script) e.1 = false ∧
      isPfxOf (cellPfxByte ss.scriptType :: rawScript ss.script) e.1 = false)
    (hforeign : ∀ tx ∈ B.transactions, ∀ inp ∈ tx.inputs,
      getV S (txKey inp.previousOutput.txHash) = none ∧
      ∀ tx'' ∈ B.transactions, tx''.hash ≠ inp.previousOutput.txHash)
    (S₁ S₂ : Store)
    (h1 : filterBlock S B = some S₁)
    (h2 : rollbackToBlock S₁ B.header.number = some S₂) :
    ∀ k : Bytes, (k.head? = some 32 ∨ k.head? = some 64 ∨
      k.head? = some 96 ∨ k.head? = some 128) →
      getV S₂ k = getV S k := by
  rw [filterBlock] at h1
  cases hops : filterBlockOps S B with
  | none =>
    rw [hops] at h1
    exact absurd h1 (by simp)
  | some ops =>
    rw [hops, Option.map_some'] at h1
    injection h1 with h1
    subst h1
    obtain ⟨hsound, hcomp⟩ := filterBlockOps_foreign hg hforeign hops
    have hheads : ∀ op ∈ ops, (opKey op).head? ≠ some 224 := by
      intro op hop h224
      rcases hsound op hop with hhead | ⟨i, tx', j, out, t, s, hi, hj, hm, hopm⟩
      · rcases hhead with hh | hh <;> rw [hh] at h224 <;> injection h224 with h224 <;>
          omega
      · rw [outputOps] at hopm
        simp only [List.mem_cons, List.not_mem_nil, or_false] at hopm
        rcases hopm with rfl | rfl | rfl
        · have hcc : (opKey (Op.putOp (cellKey t s B.header.number i j)
              tx'.hash)).head? = some (cellPfxByte t) := rfl
          rw [hcc] at h224
          injection h224 with h224
          cases t <;> simp [cellPfxByte] at h224
        · have hcc : (opKey (Op.putOp (histKey t s B.header.number i j .output)
              tx'.hash)).head? = some (histPfxByte t) := rfl
          rw [hcc] at h224
          injection h224 with h224
          cases t <;> simp [histPfxByte] at h224
        · have hcc : (opKey (Op.putOp (txKey tx'.hash)
              (txValue B.header.number i tx'))).head? = some 0 := rfl
          rw [hcc] at h224
          injection h224 with h224
          omega
    have hg₁ : getFilterScripts (applyOps S ops) = some scripts := by
      rw [getFilterScripts_applyOps hs hheads, hg]
    rw [rollbackToBlock, rollbackOps, hg₁] at h2
    simp only [Option.bind_eq_bind, Option.some_bind] at h2
    cases hm : scripts.mapM (rollbackScriptOps (applyOps S ops) B.header.number) with
    | none =>
      rw [hm] at h2
      exact absurd h2 (by simp)
    | some opss =>
      rw [hm] at h2
      simp only [Option.some_bind] at h2
      cases hmn : getMinFiltered (applyOps S ops) with
      | none =>
        rw [hmn] at h2
        exact absurd h2 (by simp)
      | some mn =>
        rw [hmn] at h2
        simp only [Option.some_bind, Option.pure_def, Option.map_some'] at h2
        injection h2 with h2
        subst h2
        have hf₂ : List.Forall₂ (fun ss l =>
            rollbackScriptOps (applyOps S ops) B.header.number ss = some l)
            scripts opss := mapM_option_forall₂ hm
        have hregion : ∀ ss ∈ scripts, ∀ e ∈ applyOps S ops,
            isPfxOf (histPfxByte ss.scriptType :: rawScript ss.script) e.1 = true →
            ∃ i tx' j out t s, B.transactions.get? i = some tx' ∧
              tx'.outputs.get? j = some out ∧
              outMatch (scripts.map fun ss' => (ss'.script, ss'.scriptType)) t s out ∧
              e.1 = histKey t s B.header.number i j .output ∧ e.2 = tx'.hash ∧
              (histPfxByte ss.scriptType :: rawScript ss.script)
                = histPfxByte t :: rawScript s :=
          fun ss hss e he hp =>
            mem_hist_region hs hg hforeign hops hseplen hclean hss he hp
        have hitems : ∀ ss ∈ scripts,
            rollbackItems (applyOps S ops) B.header.number ss
              = ((applyOps S ops).filter (fun e =>
                  isPfxOf (histPfxByte ss.scriptType :: rawScript ss.script) e.1 &&
                  decide (B.header.number ≤ fromBE ((e.1.drop
                    (histPfxByte ss.scriptType ::
                      rawScript ss.script).length).take 8)))).reverse := by
          intro ss hss
          rw [rollbackItems]
          refine revScan_eq_filter (applyOps_sorted hs ops) ?_
          intro e he hp
          obtain ⟨i, tx', j, out, t, s, hi, hj, hmm', hkey, hval, hpeq⟩ :=
            hregion ss hss e he hp
          refine ⟨histTail B.header.number i j .output, ?_, by simp, ?_, ?_⟩
          · rw [hkey, hpeq, histKey_decomp]
          · rw [histTail_take8]
            exact toBE_mem_lt _ _
          · rw [histTail_take8, fromBE_toBE (by omega)]
            exact hb
        have hrb : ∀ op ∈ opss.flatten ++
            (if B.header.number ≤ mn
              then [Op.putOp minFilteredKey (toLE 8 (B.header.number - 1))] else []),
            ((opKey op).head? = some 32 ∨ (opKey op).head? = some 64 ∨
             (opKey op).head? = some 96 ∨ (opKey op).head? = some 128) →
            ∃ i tx' j out t s, B.transactions.get? i = some tx' ∧
              tx'.outputs.get? j = some out ∧
              outMatch (scripts.map fun ss' => (ss'.script, ss'.scriptType)) t s out ∧
              (op = Op.delOp (cellKey t s B.header.number i j) ∨
               op = Op.delOp (histKey t s B.header.number i j .output)) := by
          intro op hop hhd
          rcases List.mem_append.mp hop with hop' | hop'
          · obtain ⟨ss', hss', l, hP, hmem'⟩ := forall₂_flatten_mem hf₂ hop'
            rw [rollbackScriptOps, if_pos (hbn ss' hss')] at hP
            cases hmm : (rollbackItems (applyOps S ops) B.header.number ss').mapM
                (rollbackEntryOps (applyOps S ops) ss') with
            | none =>
              rw [hmm] at hP
              exact absurd hP (by simp)
            | some eopss =>
              rw [hmm] at hP
              simp only [Option.map_some'] at hP
              injection hP with hP
              subst hP
              rcases List.mem_append.mp hmem' with hop'' | hop''
              · obtain ⟨le, hleo, hople⟩ := List.mem_flatten.mp hop''
                have hf₃ := mapM_option_forall₂ hmm
                obtain ⟨e, hei, hEO⟩ := forall₂_mem_right hf₃ le hleo
                rw [hitems ss' hss', List.mem_reverse] at hei
                obtain ⟨heS₁, hpredE⟩ := List.mem_filter.mp hei
                simp only [Bool.and_eq_true, decide_eq_true_eq] at hpredE
                obtain ⟨i, tx', j, out, t, s, hi, hj, hmm'', hkey, hval, hpeq⟩ :=
                  hregion ss' hss' e heS₁ hpredE.1
                obtain ⟨hilt, _⟩ := List.get?_eq_some.mp hi
                obtain ⟨hjlt, _⟩ := List.get?_eq_some.mp hj
                have hwftx := hwf tx' (List.get?_mem hi)
                have hout4 : tx'.outputs.length < 256 ^ 4 := by
                  rw [wfTx] at hwftx
                  simp only [Bool.and_eq_true, decide_eq_true_eq] at hwftx
                  exact hwftx.1.1.1.2
                have hvl : e.2.length = 32 := by
                  rw [hval]
                  exact wfTx_hash_len (hwf tx' (List.get?_mem hi))
                rw [rollbackEntryOps_created hkey hvl hpeq (by omega) (by omega)
                  (by omega)] at hEO
                injection hEO with hEO
                subst hEO
                simp only [List.mem_cons, List.not_mem_nil, or_false] at hople
                rcases hople with rfl | rfl
                · exact ⟨i, tx', j, out, t, s, hi, hj, hmm'', Or.inl rfl⟩
                · exact ⟨i, tx', j, out, t, s, hi, hj, hmm'', Or.inr rfl⟩
              · exfalso
                simp only [List.mem_cons, List.not_mem_nil, or_false] at hop''
                subst hop''
                have hrk : (opKey (Op.putOp (regKey ss'.script ss'.scriptType)
                    (toBE 8 B.header.number))).head? = some 224 := regKey_head _ _
                rcases hhd with hh | hh | hh | hh <;> rw [hh] at hrk <;>
                  injection hrk with hrk <;> omega
          · exfalso
            split at hop'
            · simp only [List.mem_cons, List.not_mem_nil, or_false] at hop'
              subst hop'
              have hrk : (opKey (Op.putOp minFilteredKey
                  (toLE 8 (B.header.number - 1)))).head? = some 224 := rfl
              rcases hhd with hh | hh | hh | hh <;> rw [hh] at hrk <;>
                injection hrk with hrk <;> omega
            · simp at hop'
        intro k hk
        by_cases hP : ∃ i tx' j out t s, B.transactions.get? i = some tx' ∧
            tx'.outputs.get? j = some out ∧
            outMatch (scripts.map fun ss' => (ss'.script, ss'.scriptType)) t s out ∧
            (k = cellKey t s B.header.number i j ∨
             k = histKey t s B.header.number i j .output)
        · obtain ⟨i, tx', j, out, t, s, hi, hj, hmm', hkk⟩ := hP
          obtain ⟨ss₀, hss₀, hfields⟩ := List.mem_map.mp hmm'.1
          have hfs : ss₀.script = s := congrArg Prod.fst hfields
          have hft : ss₀.scriptType = t := congrArg Prod.snd hfields
          have hSk : getV S k = none := by
            cases hv : getV S k with
            | none => rfl
            | some v =>
              exfalso
              have hmemS := mem_of_getV_eq_some hv
              have hcl := hclean _ hmemS ss₀ hss₀
              rcases hkk with rfl | rfl
              · have hc2 := hcl.2
                rw [hfs, hft, cellKey_decomp, isPfxOf_append] at hc2
                exact absurd hc2 (by simp)
              · have hc1 := hcl.1
                rw [hfs, hft, histKey_decomp, isPfxOf_append] at hc1
                exact absurd hc1 (by simp)
          rw [hSk]
          have hmemP : ((histKey t s B.header.number i j .output, tx'.hash) : Entry)
              ∈ applyOps S ops :=
            mem_of_getV_eq_some
              (getV_created_hist hg hforeign hops hseplen hlen hi hj hmm')
          have hpred : (isPfxOf (histPfxByte ss₀.scriptType :: rawScript ss₀.script)
                ((histKey t s B.header.number i j .output, tx'.hash) : Entry).1 &&
              decide (B.header.number ≤ fromBE
                ((((histKey t s B.header.number i j .output, tx'.hash) : Entry).1.drop
                  (histPfxByte ss₀.scriptType ::
                    rawScript ss₀.script).length).take 8))) = true := by
            show (isPfxOf (histPfxByte ss₀.scriptType :: rawScript ss₀.script)
                (histKey t s B.header.number i j .output) &&
              decide (B.header.number ≤ fromBE
                (((histKey t s B.header.number i j .output).drop
                  (histPfxByte ss₀.scriptType ::
                    rawScript ss₀.script).length).take 8))) = true
            rw [hfs, hft, histKey_decomp, isPfxOf_append, List.drop_left,
              histTail_take8, fromBE_toBE (by omega)]
            simp
          have hitem : ((histKey t s B.header.number i j .output, tx'.hash) : Entry)
              ∈ rollbackItems (applyOps S ops) B.header.number ss₀ := by
            rw [hitems ss₀ hss₀, List.mem_reverse]
            exact List.mem_filter.mpr ⟨hmemP, hpred⟩
          obtain ⟨l₀, hl₀m, hl₀⟩ := forall₂_mem_left hf₂ ss₀ hss₀
          rw [rollbackScriptOps, if_pos (hbn ss₀ hss₀)] at hl₀
          cases hmm : (rollbackItems (applyOps S ops) B.header.number ss₀).mapM
              (rollbackEntryOps (applyOps S ops) ss₀) with
          | none =>
            rw [hmm] at hl₀
            exact absurd hl₀ (by simp)
          | some eopss =>
            rw [hmm] at hl₀
            simp only [Option.map_some'] at hl₀
            injection hl₀ with hl₀
            have hf₃ := mapM_option_forall₂ hmm
            obtain ⟨le, hleo, hEO⟩ := forall₂_mem_left hf₃ _ hitem
            obtain ⟨hilt, _⟩ := List.get?_eq_some.mp hi
            obtain ⟨hjlt, _⟩ := List.get?_eq_some.mp hj
            have hwftx := hwf tx' (List.get?_mem hi)
            have hout4 : tx'.outputs.length < 256 ^ 4 := by
              rw [wfTx] at hwftx
              simp only [Bool.and_eq_true, decide_eq_true_eq] at hwftx
              exact hwftx.1.1.1.2
            rw [rollbackEntryOps_created rfl
              (wfTx_hash_len (hwf tx' (List.get?_mem hi)))
              (by rw [hfs, hft]) (by omega) (by omega) (by omega)] at hEO
            injection hEO with hEO
            have hdel : Op.delOp k ∈ opss.flatten ++
                (if B.header.number ≤ mn
                  then [Op.putOp minFilteredKey (toLE 8 (B.header.number - 1))]
                  else []) := by
              refine List.mem_append.mpr (Or.inl ?_)
              rw [List.mem_flatten]
              refine ⟨l₀, hl₀m, ?_⟩
              rw [← hl₀]
              refine List.mem_append.mpr (Or.inl ?_)
              rw [List.mem_flatten]
              refine ⟨le, hleo, ?_⟩
              rw [← hEO]
              rcases hkk with rfl | rfl
              · exact List.mem_cons_self _ _
              · simp
            rw [getV_applyOps]
            cases hlast : lastWrite (opss.flatten ++
                (if B.header.number ≤ mn
                  then [Op.putOp minFilteredKey (toLE 8 (B.header.number - 1))]
                  else [])) k with
            | none =>
              exact absurd rfl (lastWrite_eq_none_iff.mp hlast _ hdel)
            | some op =>
              obtain ⟨hopmem, hopkey⟩ := lastWrite_mem hlast
              have hhd' : ((opKey op).head? = some 32 ∨ (opKey op).head? = some 64 ∨
                  (opKey op).head? = some 96 ∨ (opKey op).head? = some 128) := by
                rw [hopkey]
                exact hk
              obtain ⟨_, _, _, _, _, _, _, _, _, hdelop⟩ := hrb op hopmem hhd'
              rcases hdelop with rfl | rfl <;> rfl
        · have h₁k : getV (applyOps S ops) k = getV S k := by
            refine getV_applyOps_of_notTouched _ _ _ fun op hop hkop => ?_
            rcases hsound op hop with hhead | ⟨i, tx', j, out, t, s, hi, hj, hmm', hopm⟩
            · rcases hhead with hh | hh <;> rw [hkop] at hh <;>
                rcases hk with hk' | hk' | hk' | hk' <;> rw [hk'] at hh <;>
                injection hh with hh <;> omega
            · rw [outputOps] at hopm
              simp only [List.mem_cons, List.not_mem_nil, or_false] at hopm
              rcases hopm with rfl | rfl | rfl
              · exact hP ⟨i, tx', j, out, t, s, hi, hj, hmm', Or.inl (by rw [← hkop]; rfl)⟩
              · exact hP ⟨i, tx', j, out, t, s, hi, hj, hmm', Or.inr (by rw [← hkop]; rfl)⟩
              · have hcc : (opKey (Op.putOp (txKey tx'.hash)
                    (txValue B.header.number i tx'))).head? = some 0 := rfl
                rw [hkop] at hcc
                rcases hk with hk' | hk' | hk' | hk' <;> rw [hk'] at hcc <;>
                  injection hcc with hcc <;> omega
          rw [← h₁k]
          refine getV_applyOps_of_notTouched _ _ _ fun op hop hkop => ?_
          have hhd' : ((opKey op).head? = some 32 ∨ (opKey op).head? = some 64 ∨
              (opKey op).head? = some 96 ∨ (opKey op).head? = some 128) := by
            rw [hkop]
            exact hk
          obtain ⟨i, tx', j, out, t, s, hi, hj, hmm', hdelop⟩ := hrb op hop hhd'
          apply hP
          rcases hdelop with rfl | rfl
          · exact ⟨i, tx', j, out, t, s, hi, hj, hmm', Or.inl (by rw [← hkop]; rfl)⟩
          · exact ⟨i, tx', j, out, t, s, hi, hj, hmm', Or.inr (by rw [← hkop]; rfl)⟩

/-- A store registering `wsA` as a lock filter from block 1. -/
def wStore2 : Store := putV [] (regKey wsA .lock) (toBE 8 1)

/-- A single-transaction block at height 1 creating one tracked output. -/
def wB3 : Block :=
  ⟨⟨1, List.replicate 32 21, List.replicate 168 0⟩, none, [wTx0]⟩

/-- C1 witness: filtering `wB3` into `wStore2` and rolling back to its
height restores the tracked cell key space. -/
theorem c1_apply_rollback_witness :
    getV ((rollbackToBlock ((filterBlock wStore2 wB3).getD []) 1).getD [])
        (cellKey .lock wsA 1 0 0)
      = getV wStore2 (cellKey .lock wsA 1 0 0) := by
  have h := c1_apply_rollback wStore2 (by decide) wB3
    [⟨wsA, .lock, 1⟩] (by decide) (by decide) (by decide) (by decide) (by decide)
    (by decide) (by decide) (by decide)
    ((filterBlock wStore2 wB3).getD [])
    ((rollbackToBlock ((filterBlock wStore2 wB3).getD []) 1).getD [])
    (by decide) (by decide)
  exact h (cellKey .lock wsA 1 0 0) (Or.inl (by decide))

/-- C1 counterexample: with the script registered from block 0, rolling
back to block 1 after filtering block 1 undoes nothing — the freshly
created cell survives, so the store does not return to its pre-apply
contents (and the cell index is not among the exclusions the claim
allows). -/
theorem c1_counterexample :
    getV ((rollbackToBlock ((filterBlock wStore1 wB3).getD []) 1).getD [])
        (cellKey .lock wsA 1 0 0)
      ≠ getV wStore1 (cellKey .lock wsA 1 0 0) := by decide

end LightClient
